import Mathlib

/-!
# tokenized/inspector: a shallow embedding of the inspected-transaction record

The Go package keeps one record per transaction (`Transaction`) holding the raw
transaction, the resolved inputs and the decoded protocol actions.  This file
embeds the record, its promotion (`ParseInputsFromUTXOs`, `ParseOutputs`,
`Setup`, `Promote`, `PromoteFromUTXOs`), its constructors, the fee queries,
the validation and classification queries (`Validate`, `IsTokenized`,
`IsRequest`, `IsResponse`, `IsRelevant`, `LockingScripts`, `Timestamp`) and the
binary codec (`Write` / `Read`, with the version 2 writer of the tests) as pure
Lean functions.

Conventions of the embedding.

* Machine integers are natural numbers; arithmetic that can wrap in Go carries
  an explicit `% 2 ^ 64`, narrowing conversions an explicit `% 2 ^ w`.
* A byte stream is a `List Nat`; a reader is the list of bytes still unread.
* A Go slice of pointers that the package itself fills with `nil`
  (`Transaction.Inputs`) is a list of `Option`, `none` being the nil pointer.
  Slices whose elements the package always allocates (`Transaction.Outputs`,
  the inputs and outputs of a raw transaction, caller supplied previous
  outputs) are lists of values.
* A method that mutates its receiver returns the receiver after the call next
  to the returned error, also when the call fails.
* A run-time failure of Go (nil dereference, index out of range) is a
  distinguished error value, `Err.nilDereference` / `Err.indexOutOfRange`.
* The collaborators that live in other packages (transaction codec, protocol
  codec, ledger node, the methods and constants of the actions package) are
  parameters: `WireCodec`, `ProtocolCodec`, `NodeInterface`, `ActionOps`,
  `ActionCodes`.
* The reader/writer lock of the record is not part of this functional model.
-/

namespace Inspector

/-! ## Data model -/

/-- Byte strings: scripts, hashes and encoded records. -/
abbrev Bytes := List Nat

/-- Type `bitcoin.Hash32`: a transaction identifier. -/
abbrev Hash32 := List Nat

/-- Type `bitcoin.Script`. -/
abbrev Script := List Nat

/-- Type `wire.OutPoint`: the output a raw input spends. -/
structure OutPoint where
  Hash : Hash32
  Index : Nat
deriving DecidableEq, Repr

/-- Type `wire.TxIn`. -/
structure TxIn where
  PreviousOutPoint : OutPoint
  UnlockingScript : Script
  Sequence : Nat
deriving DecidableEq, Repr

/-- Type `wire.TxOut`. -/
structure TxOut where
  Value : Nat
  LockingScript : Script
deriving DecidableEq, Repr

/-- Type `wire.MsgTx`: the raw transaction. -/
structure MsgTx where
  Version : Nat
  TxIn : List TxIn
  TxOut : List TxOut
  LockTime : Nat
deriving DecidableEq, Repr

/-- Type `bitcoin.UTXO`: an unspent-output record. -/
structure UTXO where
  Hash : Hash32
  Index : Nat
  Value : Nat
  LockingScript : Script
deriving DecidableEq, Repr

/-- Type `Input` of models.go; `Action` is `none` for a nil action. -/
structure Input (A : Type) where
  Value : Nat
  LockingScript : Script
  Action : Option A
deriving DecidableEq, Repr

/-- Type `Output` of models.go. -/
structure Output (A : Type) where
  Action : Option A
deriving DecidableEq, Repr

/-- The zero value `Input{}`. -/
def Input.empty (A : Type) : Input A := ⟨0, [], none⟩

/-- Errors of the package, with the wrapping done by `errors.Wrap`. -/
inductive Err where
  | ErrDecodeFail
  | ErrInvalidProtocol
  | ErrMissingInputs
  | ErrMissingOutputs
  | ErrNegativeFee
  | ErrUnpromotedTx
  | ErrIncompleteTx
  | MismatchedUTXO
  | UnknownVersion (v : Nat)
  | external (msg : String)
  | wrap (cause : Err) (msg : String)
  | nilDereference
  | indexOutOfRange
deriving DecidableEq, Repr

/-- Equality of outcomes is decidable, so that the model can be evaluated. -/
instance instDecidableEqExcept {ε α : Type} [DecidableEq ε] [DecidableEq α] :
    DecidableEq (Except ε α)
  | .ok a, .ok b =>
    if h : a = b then isTrue (by rw [h]) else isFalse (fun h2 => h (Except.ok.inj h2))
  | .error a, .error b =>
    if h : a = b then isTrue (by rw [h]) else isFalse (fun h2 => h (Except.error.inj h2))
  | .ok _, .error _ => isFalse (fun h => nomatch h)
  | .error _, .ok _ => isFalse (fun h => nomatch h)

/-- The root of a chain of wrapped errors, as `errors.Cause` computes it. -/
def Err.cause : Err → Err
  | .wrap e _ => e.cause
  | e => e

/-- Type `Transaction` of transaction.go, without its lock. -/
structure Transaction (A : Type) where
  Hash : Hash32
  MsgTx : MsgTx
  Inputs : List (Option (Input A))
  Outputs : List (Output A)
  RejectCode : Nat
  RejectText : String
deriving DecidableEq, Repr

/-- The protocol codec of the specification package. -/
structure ProtocolCodec (A : Type) where
  /-- Function `protocol.Deserialize`; `none` when it returns an error. -/
  Deserialize : Script → Bool → Option A
  /-- Function `protocol.Serialize`; `none` when it returns an error. -/
  Serialize : A → Bool → Option Script

/-- The transaction codec of the wire package. -/
structure WireCodec where
  /-- Method `MsgTx.Serialize` into a buffer. -/
  Serialize : MsgTx → Bytes
  /-- Method `MsgTx.Deserialize`: the transaction read and the bytes left. -/
  Deserialize : Bytes → Option (MsgTx × Bytes)
  /-- Method `MsgTx.TxHash`. -/
  TxHash : MsgTx → Hash32
  /-- Method `MsgTx.SerializeSize`. -/
  SerializeSize : MsgTx → Nat
  /-- Function `wire.WriteVarInt` into a buffer. -/
  WriteVarInt : Nat → Bytes
  /-- Function `wire.ReadVarInt`: the number read and the bytes left. -/
  ReadVarInt : Bytes → Option (Nat × Bytes)
  /-- Method `bitcoin.UTXO.Read`: the record read and the bytes left. -/
  UTXORead : Bytes → Option (UTXO × Bytes)
  /-- Method `bitcoin.UTXO.Write` into a buffer. -/
  UTXOWrite : UTXO → Bytes

/-- The ledger node, `NodeInterface` of inspector.go. -/
structure NodeInterface where
  GetTx : Hash32 → Except Err MsgTx
  GetOutputs : List OutPoint → Except Err (List UTXO)

/-- The coinbase sentinel `0xffffffff`. -/
def coinbaseIndex : Nat := 0xffffffff

/-! ## Promotion -/

section Promotion
variable {A : Type}

/-- The loop of `ParseInputsFromUTXOs` over the raw inputs still to visit: `i` is
the position of the next raw input, `inputs` the slice built so far and
`offset` the next unspent-output record. -/
def parseInputsLoop (pc : ProtocolCodec A) (utxos : List UTXO) (isTest : Bool) :
    List TxIn → Nat → List (Option (Input A)) → Nat → Except Err (List (Option (Input A)))
  | [], _, inputs, _ => .ok inputs
  | txin :: rest, i, inputs, offset =>
    if txin.PreviousOutPoint.Index = coinbaseIndex then
      parseInputsLoop pc utxos isTest rest (i + 1) (inputs ++ [some (Input.empty A)]) offset
    else
      match utxos[offset]? with
      | none => .error .indexOutOfRange
      | some u =>
        if txin.PreviousOutPoint.Hash ≠ u.Hash ∨ txin.PreviousOutPoint.Index ≠ u.Index then
          .error .MismatchedUTXO
        else
          parseInputsLoop pc utxos isTest rest (i + 1)
            (inputs.set i (some ⟨u.Value, u.LockingScript, pc.Deserialize u.LockingScript isTest⟩))
            (offset + 1)

/-- Method `Transaction.ParseInputsFromUTXOs`: `Inputs` is replaced on success only. -/
def Transaction.ParseInputsFromUTXOs (pc : ProtocolCodec A) (itx : Transaction A)
    (utxos : List UTXO) (isTest : Bool) : Option Err × Transaction A :=
  match parseInputsLoop pc utxos isTest itx.MsgTx.TxIn 0
      (List.replicate itx.MsgTx.TxIn.length none) 0 with
  | .error e => (some e, itx)
  | .ok inputs => (none, { itx with Inputs := inputs })

/-- Method `Transaction.ParseOutputs`: one output per raw output, never an error. -/
def Transaction.ParseOutputs (pc : ProtocolCodec A) (itx : Transaction A)
    (isTest : Bool) : Option Err × Transaction A :=
  (none, { itx with
    Outputs := itx.MsgTx.TxOut.map fun txout => ⟨pc.Deserialize txout.LockingScript isTest⟩ })

/-- Method `Transaction.ParseInputs`: the outpoints of the non-coinbase inputs are
looked up at the node, then resolved by `ParseInputsFromUTXOs`. -/
def Transaction.ParseInputs (pc : ProtocolCodec A) (node : NodeInterface)
    (itx : Transaction A) (isTest : Bool) : Option Err × Transaction A :=
  let outpoints := (itx.MsgTx.TxIn.filter
    fun txin => txin.PreviousOutPoint.Index ≠ coinbaseIndex).map TxIn.PreviousOutPoint
  match node.GetOutputs outpoints with
  | .error e => (some e, itx)
  | .ok utxos => itx.ParseInputsFromUTXOs pc utxos isTest

/-- Method `Transaction.PromoteFromUTXOs`. -/
def Transaction.PromoteFromUTXOs (pc : ProtocolCodec A) (itx : Transaction A)
    (utxos : List UTXO) (isTest : Bool) : Option Err × Transaction A :=
  match itx.ParseInputsFromUTXOs pc utxos isTest with
  | (some e, itx1) => (some (.wrap e "parse inputs"), itx1)
  | (none, itx1) =>
    match itx1.ParseOutputs pc isTest with
    | (some e, itx2) => (some (.wrap e "parse outputs"), itx2)
    | (none, itx2) => (none, itx2)

/-- Method `Transaction.Promote`. -/
def Transaction.Promote (pc : ProtocolCodec A) (node : NodeInterface)
    (itx : Transaction A) (isTest : Bool) : Option Err × Transaction A :=
  match itx.ParseInputs pc node isTest with
  | (some e, itx1) => (some (.wrap e "parse inputs"), itx1)
  | (none, itx1) =>
    match itx1.ParseOutputs pc isTest with
    | (some e, itx2) => (some (.wrap e "parse outputs"), itx2)
    | (none, itx2) => (none, itx2)

/-- The first loop of `Setup` and the last of `Read`: an input whose locking
script decodes gets the decoded action, any other input is left as it is. -/
def setInputActions (pc : ProtocolCodec A) (isTest : Bool) :
    List (Option (Input A)) → Except Err (List (Option (Input A)))
  | [] => .ok []
  | none :: _ => .error .nilDereference
  | some input :: rest =>
    match setInputActions pc isTest rest with
    | .error e => .error e
    | .ok rest1 =>
      match pc.Deserialize input.LockingScript isTest with
      | none => .ok (some input :: rest1)
      | some action => .ok (some { input with Action := some action } :: rest1)

/-- Method `Transaction.Setup`. -/
def Transaction.Setup (pc : ProtocolCodec A) (itx : Transaction A)
    (isTest : Bool) : Option Err × Transaction A :=
  match setInputActions pc isTest itx.Inputs with
  | .error e => (some e, itx)
  | .ok inputs =>
    match ({ itx with Inputs := inputs }).ParseOutputs pc isTest with
    | (some e, itx2) => (some (.wrap e "parse outputs"), itx2)
    | (none, itx2) => (none, itx2)

/-- Method `Transaction.IsPromoted`. -/
def Transaction.IsPromoted (itx : Transaction A) : Bool :=
  decide (itx.Inputs.length > 0) && decide (itx.Outputs.length > 0)

end Promotion

/-! ## Fee queries -/

section Fee
variable {A : Type}

/-- The first loop of `fee`: the input values are added into a `uint64`. -/
def sumInputValues : List (Option (Input A)) → Nat → Except Err Nat
  | [], result => .ok result
  | none :: _, _ => .error .nilDereference
  | some input :: rest, result => sumInputValues rest ((result + input.Value) % 2 ^ 64)

/-- The second loop of `fee`: each raw output is taken off the running total. -/
def subtractOutputValues : List TxOut → Nat → Except Err Nat
  | [], result => .ok result
  | output :: rest, result =>
    if output.Value > result then .error .ErrNegativeFee
    else subtractOutputValues rest (result - output.Value)

/-- Method `Transaction.fee`. -/
def Transaction.fee (itx : Transaction A) : Except Err Nat :=
  if itx.Inputs.length ≠ itx.MsgTx.TxIn.length then .error .ErrUnpromotedTx
  else
    match sumInputValues itx.Inputs 0 with
    | .error e => .error e
    | .ok result => subtractOutputValues itx.MsgTx.TxOut result

/-- Method `Transaction.Fee`. -/
def Transaction.Fee (itx : Transaction A) : Except Err Nat :=
  itx.fee

/-- Method `Transaction.FeeRate`.  The result is the pair (fee, size) whose
quotient the Go code forms in `float32`. -/
def Transaction.FeeRate (wc : WireCodec) (itx : Transaction A) : Except Err (Nat × Nat) :=
  match itx.fee with
  | .error e => .error e
  | .ok fee =>
    let size := wc.SerializeSize itx.MsgTx
    if size = 0 then .error .ErrIncompleteTx else .ok (fee, size)

end Fee

/-! ## Construction -/

section Construction
variable {A : Type}

/-- Function `NewBaseTransactionFromHashWire`. -/
def NewBaseTransactionFromHashWire (hash : Hash32) (tx : MsgTx) : Except Err (Transaction A) :=
  .ok ⟨hash, tx, [], [], 0, ""⟩

/-- Function `NewBaseTransactionFromWire`. -/
def NewBaseTransactionFromWire (wc : WireCodec) (tx : MsgTx) : Except Err (Transaction A) :=
  .ok ⟨wc.TxHash tx, tx, [], [], 0, ""⟩

/-- Function `NewTransactionFromHashWire`. -/
def NewTransactionFromHashWire (pc : ProtocolCodec A) (hash : Hash32) (tx : MsgTx)
    (isTest : Bool) : Except Err (Transaction A) :=
  if tx.TxIn.length = 0 then .error (.wrap .ErrMissingInputs "parsing transaction")
  else if tx.TxOut.length = 0 then .error (.wrap .ErrMissingOutputs "parsing transaction")
  else
    match (Transaction.mk hash tx [] [] 0 "").Setup pc isTest with
    | (some e, _) => .error (.wrap e "setup")
    | (none, result) => .ok result

/-- Function `NewTransactionFromWire`. -/
def NewTransactionFromWire (wc : WireCodec) (pc : ProtocolCodec A) (tx : MsgTx)
    (isTest : Bool) : Except Err (Transaction A) :=
  NewTransactionFromHashWire pc (wc.TxHash tx) tx isTest

/-- Function `NewTransactionFromHash`. -/
def NewTransactionFromHash (pc : ProtocolCodec A) (node : NodeInterface) (hash : Hash32)
    (isTest : Bool) : Except Err (Transaction A) :=
  match node.GetTx hash with
  | .error e => .error e
  | .ok tx => NewTransactionFromHashWire pc hash tx isTest

/-- The value of a hexadecimal digit, as `encoding/hex` reads it. -/
def hexDigit (c : Char) : Option Nat :=
  if '0' ≤ c ∧ c ≤ '9' then some (c.toNat - '0'.toNat)
  else if 'a' ≤ c ∧ c ≤ 'f' then some (c.toNat - 'a'.toNat + 10)
  else if 'A' ≤ c ∧ c ≤ 'F' then some (c.toNat - 'A'.toNat + 10)
  else none

/-- Function `hex.DecodeString` on the characters of its argument. -/
def hexDecode : List Char → Option Bytes
  | [] => some []
  | [_] => none
  | hi :: lo :: rest =>
    match hexDigit hi, hexDigit lo, hexDecode rest with
    | some h, some l, some bs => some ((16 * h + l) :: bs)
    | _, _, _ => none

/-- The cutset test of `strings.Trim(raw, "\n ")`. -/
def isTrimmed (c : Char) : Bool := c = '\n' || c = ' '

/-- Function `strings.Trim` with the cutset of `NewTransaction`. -/
def trimRaw (raw : List Char) : List Char :=
  ((raw.dropWhile isTrimmed).reverse.dropWhile isTrimmed).reverse

/-- Function `NewTransaction`. -/
def NewTransaction (wc : WireCodec) (pc : ProtocolCodec A) (raw : String)
    (isTest : Bool) : Except Err (Transaction A) :=
  match hexDecode (trimRaw raw.toList) with
  | none => .error (.wrap .ErrDecodeFail "decoding string")
  | some b =>
    match wc.Deserialize b with
    | none => .error (.wrap .ErrDecodeFail "deserializing wire message")
    | some (tx, _) => NewTransactionFromWire wc pc tx isTest

/-- The unspent-output records `NewTransactionFromOutputs` builds: one per
non-coinbase raw input, from the previous output at the same position. -/
def utxosFromOutputs : List TxIn → List TxOut → List UTXO
  | input :: ins, output :: outs =>
    if input.PreviousOutPoint.Index = coinbaseIndex then utxosFromOutputs ins outs
    else ⟨input.PreviousOutPoint.Hash, input.PreviousOutPoint.Index, output.Value,
      output.LockingScript⟩ :: utxosFromOutputs ins outs
  | _, _ => []

/-- Function `NewTransactionFromOutputs`. -/
def NewTransactionFromOutputs (pc : ProtocolCodec A) (hash : Hash32) (tx : MsgTx)
    (outputs : List TxOut) (isTest : Bool) : Except Err (Transaction A) :=
  match (NewBaseTransactionFromHashWire hash tx : Except Err (Transaction A)) with
  | .error e => .error (.wrap e "new")
  | .ok result =>
    if tx.TxIn.length ≠ outputs.length then .error .ErrMissingOutputs
    else
      match result.PromoteFromUTXOs pc (utxosFromOutputs tx.TxIn outputs) isTest with
      | (some e, _) => .error (.wrap e "promote")
      | (none, result1) => .ok result1

end Construction

/-! ## Binary codec -/

section Codec
variable {A : Type}

/-- Function `binary.Write` with `binary.LittleEndian`: the `n` low bytes of `v`. -/
def leBytes : Nat → Nat → Bytes
  | 0, _ => []
  | n + 1, v => (v % 256) :: leBytes n (v / 256)

/-- Function `binary.Read` with `binary.LittleEndian`: the number a byte string holds. -/
def leValue : Bytes → Nat
  | [] => 0
  | b :: bs => b + 256 * leValue bs

/-- Function `io.ReadFull`: exactly `n` bytes, or a failure when fewer are left. -/
def readFull (n : Nat) (r : Bytes) : Option (Bytes × Bytes) :=
  if n ≤ r.length then some (r.take n, r.drop n) else none

/-- Method `Input.Write`. -/
def Input.Write (wc : WireCodec) (input : Input A) : Bytes :=
  leBytes 8 (input.Value % 2 ^ 64) ++ wc.WriteVarInt (input.LockingScript.length % 2 ^ 64)
    ++ input.LockingScript

/-- Method `Input.Read`: the input after the call and the bytes left. -/
def Input.Read (wc : WireCodec) (input : Input A) (version : Nat) (r : Bytes) :
    Except Err (Input A × Bytes) :=
  if version = 0 then
    match wc.Deserialize r with
    | none => .error (.wrap (.external "tx") "read tx")
    | some (_, r1) => .ok (input, r1)
  else if version = 1 ∨ version = 2 then
    match wc.UTXORead r with
    | none => .error (.wrap (.external "utxo") "read utxo")
    | some (utxo, r1) =>
      .ok ({ input with Value := utxo.Value, LockingScript := utxo.LockingScript }, r1)
  else
    match readFull 8 r with
    | none => .error (.wrap (.external "EOF") "read value")
    | some (v, r1) =>
      match wc.ReadVarInt r1 with
      | none => .error (.wrap (.external "varint") "read script length")
      | some (length, r2) =>
        match readFull length r2 with
        | none => .error (.wrap (.external "EOF") "read script")
        | some (script, r3) =>
          .ok ({ input with Value := leValue v, LockingScript := script }, r3)

/-- The input loop of `Transaction.Write`. -/
def writeInputs (wc : WireCodec) : List (Option (Input A)) → Except Err Bytes
  | [] => .ok []
  | none :: _ => .error .nilDereference
  | some input :: rest =>
    match writeInputs wc rest with
    | .error e => .error e
    | .ok bs => .ok (input.Write wc ++ bs)

/-- Method `Transaction.Write` into an empty buffer. -/
def Transaction.Write (wc : WireCodec) (itx : Transaction A) : Except Err Bytes :=
  match writeInputs wc itx.Inputs with
  | .error e => .error e
  | .ok bs =>
    .ok ([3] ++ wc.Serialize itx.MsgTx ++ leBytes 4 (itx.Inputs.length % 2 ^ 32) ++ bs
      ++ [itx.RejectCode % 256])

/-- The input loop of `Transaction.Read`: `n` inputs are still to read, `i` is the
position of the next one and `done` holds the inputs read so far.  On a failure
the slice keeps a nil pointer at every position not yet read. -/
def readInputs (wc : WireCodec) (version : Nat) :
    Nat → Nat → Bytes → List (Option (Input A)) →
      Except (Err × List (Option (Input A))) (List (Option (Input A)) × Bytes)
  | 0, _, r, done => .ok (done, r)
  | n + 1, i, r, done =>
    match Input.Read wc (Input.empty A) version r with
    | .error e => .error (.wrap e ("input " ++ toString i), done ++ List.replicate (n + 1) none)
    | .ok (input, r1) => readInputs wc version n (i + 1) r1 (done ++ [some input])

/-- Method `Transaction.Read`.  A failure carries the record as the failed call
leaves it, a success the record read and the bytes left in the reader. -/
def Transaction.Read (wc : WireCodec) (pc : ProtocolCodec A) (itx : Transaction A)
    (r : Bytes) (isTest : Bool) : Except (Err × Transaction A) (Transaction A × Bytes) :=
  match readFull 1 r with
  | none => .error (.wrap (.external "EOF") "version", itx)
  | some (version, r1) =>
    let v := version.headD 0
    if v ≠ 0 ∧ v ≠ 1 ∧ v ≠ 2 ∧ v ≠ 3 then .error (.UnknownVersion v, itx)
    else
      match wc.Deserialize r1 with
      | none => .error (.wrap (.external "tx") "tx", itx)
      | some (msg, r2) =>
        let itx1 := { itx with MsgTx := msg, Hash := wc.TxHash msg }
        let count : Except Err (Nat × Bytes) :=
          if v ≥ 2 then
            match readFull 4 r2 with
            | none => .error (.wrap (.external "EOF") "inputs count")
            | some (c, r3) => .ok (leValue c, r3)
          else .ok (msg.TxIn.length % 2 ^ 32, r2)
        match count with
        | .error e => .error (e, itx1)
        | .ok (count, r3) =>
          match readInputs wc v count 0 r3 [] with
          | .error (e, inputs) => .error (e, { itx1 with Inputs := inputs })
          | .ok (inputs, r4) =>
            let itx2 := { itx1 with Inputs := inputs }
            match readFull 1 r4 with
            | none => .error (.wrap (.external "EOF") "reject code", itx2)
            | some (rejectCode, r5) =>
              let itx3 := { itx2 with RejectCode := rejectCode.headD 0 }
              match setInputActions pc isTest itx3.Inputs with
              | .error e => .error (e, itx3)
              | .ok inputs1 =>
                match ({ itx3 with Inputs := inputs1 }).ParseOutputs pc isTest with
                | (some e, itx4) => .error (.wrap e "parse inputs", itx4)
                | (none, itx4) => .ok (itx4, r5)

/-- The comparison of two actions in `Transaction.Equal`, through their
serialization with the test flag set. -/
def equalAction (pc : ProtocolCodec A) (a b : Option A) : Option Err :=
  match a, b with
  | none, none => none
  | none, some _ => some (.external "Left missing action")
  | some _, none => some (.external "Right missing action")
  | some x, some y =>
    match pc.Serialize x true with
    | none => some (.wrap (.external "serialize") "serialize action")
    | some script =>
      match pc.Serialize y true with
      | none => some (.wrap (.external "serialize") "serialize action2")
      | some script2 => if script ≠ script2 then some (.external "Wrong action") else none

/-- The input loop of `Transaction.Equal`. -/
def equalInputs (pc : ProtocolCodec A) :
    List (Option (Input A)) → List (Option (Input A)) → Option Err
  | [], _ => none
  | _ :: _, [] => some .indexOutOfRange
  | none :: _, _ :: _ => some .nilDereference
  | some _ :: _, none :: _ => some .nilDereference
  | some input :: rest, some input2 :: rest2 =>
    if input.Value ≠ input2.Value then some (.external "Wrong input value")
    else if input.LockingScript ≠ input2.LockingScript then
      some (.external "Wrong input locking script")
    else
      match equalAction pc input.Action input2.Action with
      | some e => some e
      | none => equalInputs pc rest rest2

/-- The output loop of `Transaction.Equal`. -/
def equalOutputs (pc : ProtocolCodec A) : List (Output A) → List (Output A) → Option Err
  | [], _ => none
  | _ :: _, [] => some .indexOutOfRange
  | output :: rest, output2 :: rest2 =>
    match equalAction pc output.Action output2.Action with
    | some e => some e
    | none => equalOutputs pc rest rest2

/-- Method `Transaction.Equal` of transaction_test.go; `none` is the nil error. -/
def Transaction.Equal (wc : WireCodec) (pc : ProtocolCodec A) (itx itx2 : Transaction A) :
    Option Err :=
  if itx.Hash ≠ itx2.Hash then some (.external "Wrong hash")
  else if itx.RejectCode ≠ itx2.RejectCode then some (.external "Wrong RejectCode")
  else if wc.Serialize itx.MsgTx ≠ wc.Serialize itx2.MsgTx then some (.external "Wrong tx bytes")
  else if itx.Inputs.length ≠ itx2.Inputs.length then some (.external "Wrong Inputs count")
  else
    match equalInputs pc itx.Inputs itx2.Inputs with
    | some e => some e
    | none => equalOutputs pc itx.Outputs itx2.Outputs

end Codec

/-! ## Actions -/

/-- The dynamic type of a decoded action: the message types of the actions
package this package names, and `other` for every type it does not name. -/
inductive ActionType where
  | ContractOffer | ContractAmendment | BodyOfAgreementOffer | BodyOfAgreementAmendment
  | InstrumentDefinition | InstrumentModification | AssetDefinition | AssetModification
  | Transfer | Proposal | BallotCast | Order | ContractAddressChange
  | InstrumentCreation | AssetCreation | ContractFormation | BodyOfAgreementFormation
  | Settlement | Vote | BallotCounted | Result | Freeze | Thaw | Confiscation
  | Reconciliation | DeprecatedReconciliation | Rejection
  | other
deriving DecidableEq, Repr

/-- What the package asks of a decoded action (interface `actions.Action`) and
the one constant of the actions package it stores. -/
structure ActionOps (A : Type) where
  /-- Method `Action.Code`. -/
  Code : A → String
  /-- Method `Action.Validate`: the text of the error, `none` for a valid action. -/
  Validate : A → Option String
  /-- The dynamic type a type switch sees. -/
  TypeOf : A → ActionType
  /-- The field `Timestamp` of the message types that have one. -/
  Timestamp : A → Nat
  /-- Constant `actions.RejectionsMsgMalformed`. -/
  RejectionsMsgMalformed : Nat

/-- The action codes of the actions package that transaction.go names. -/
structure ActionCodes where
  CodeContractOffer : String
  CodeContractAmendment : String
  CodeBodyOfAgreementOffer : String
  CodeBodyOfAgreementAmendment : String
  CodeInstrumentDefinition : String
  CodeInstrumentModification : String
  CodeAssetDefinition : String
  CodeAssetModification : String
  CodeTransfer : String
  CodeProposal : String
  CodeBallotCast : String
  CodeOrder : String
  CodeContractAddressChange : String
  CodeInstrumentCreation : String
  CodeAssetCreation : String
  CodeContractFormation : String
  CodeBodyOfAgreementFormation : String
  CodeSettlement : String
  CodeVote : String
  CodeBallotCounted : String
  CodeResult : String
  CodeFreeze : String
  CodeThaw : String
  CodeConfiscation : String
  CodeReconciliation : String
  CodeRejection : String

/-- The keys of the map `requestMessageTypes`. -/
def requestMessageTypes (c : ActionCodes) : List String :=
  [c.CodeContractOffer, c.CodeContractAmendment, c.CodeBodyOfAgreementOffer,
    c.CodeBodyOfAgreementAmendment, c.CodeInstrumentDefinition, c.CodeInstrumentModification,
    c.CodeAssetDefinition, c.CodeAssetModification, c.CodeTransfer, c.CodeProposal,
    c.CodeBallotCast, c.CodeOrder, c.CodeContractAddressChange]

/-- The keys of the map `responseMessageTypes`. -/
def responseMessageTypes (c : ActionCodes) : List String :=
  [c.CodeInstrumentCreation, c.CodeAssetCreation, c.CodeContractFormation,
    c.CodeBodyOfAgreementFormation, c.CodeSettlement, c.CodeVote, c.CodeBallotCounted,
    c.CodeResult, c.CodeFreeze, c.CodeThaw, c.CodeConfiscation, c.CodeReconciliation,
    c.CodeRejection]

/-! ## Validation and queries -/

section Queries
variable {A : Type}

/-- The input loop of `Validate`: the error text of the first action that fails
its validation, `none` when the loop runs to its end. -/
def validateInputs (ops : ActionOps A) : List (Option (Input A)) → Except Err (Option String)
  | [] => .ok none
  | none :: _ => .error .nilDereference
  | some input :: rest =>
    match input.Action with
    | none => validateInputs ops rest
    | some action =>
      match ops.Validate action with
      | some text => .ok (some text)
      | none => validateInputs ops rest

/-- The output loop of `Validate`. -/
def validateOutputs (ops : ActionOps A) : List (Output A) → Option String
  | [] => none
  | output :: rest =>
    match output.Action with
    | none => validateOutputs ops rest
    | some action =>
      match ops.Validate action with
      | some text => some text
      | none => validateOutputs ops rest

/-- Method `Transaction.Validate`; the returned error is `none` for nil. -/
def Transaction.Validate (ops : ActionOps A) (itx : Transaction A) :
    Option Err × Transaction A :=
  match validateInputs ops itx.Inputs with
  | .error e => (some e, itx)
  | .ok (some text) =>
    (none, { itx with RejectCode := ops.RejectionsMsgMalformed, RejectText := text })
  | .ok none =>
    match validateOutputs ops itx.Outputs with
    | some text =>
      (none, { itx with RejectCode := ops.RejectionsMsgMalformed, RejectText := text })
    | none => (none, itx)

/-- A loop over `Inputs` that returns true at the first input passing the test
`p`; every input visited is dereferenced. -/
def scanInputs (p : Input A → Bool) : List (Option (Input A)) → Except Err Bool
  | [] => .ok false
  | none :: _ => .error .nilDereference
  | some input :: rest => if p input then .ok true else scanInputs p rest

/-- Method `Transaction.IsTokenized`. -/
def Transaction.IsTokenized (itx : Transaction A) : Except Err Bool :=
  match scanInputs (fun input => input.Action.isSome) itx.Inputs with
  | .error e => .error e
  | .ok true => .ok true
  | .ok false => .ok (itx.Outputs.any fun output => output.Action.isSome)

/-- The test both loops of `IsRequest` and of `IsResponse` make on an action:
it is there and its code is a key of the map. -/
def codeIn (ops : ActionOps A) (keys : List String) (action : Option A) : Bool :=
  match action with
  | none => false
  | some a => decide (ops.Code a ∈ keys)

/-- Method `Transaction.IsRequest`. -/
def Transaction.IsRequest (ops : ActionOps A) (c : ActionCodes) (itx : Transaction A) :
    Except Err Bool :=
  match scanInputs (fun input => codeIn ops (requestMessageTypes c) input.Action) itx.Inputs with
  | .error e => .error e
  | .ok true => .ok true
  | .ok false =>
    .ok (itx.Outputs.any fun output => codeIn ops (requestMessageTypes c) output.Action)

/-- Method `Transaction.IsResponse`. -/
def Transaction.IsResponse (ops : ActionOps A) (c : ActionCodes) (itx : Transaction A) :
    Except Err Bool :=
  match scanInputs (fun input => codeIn ops (responseMessageTypes c) input.Action) itx.Inputs with
  | .error e => .error e
  | .ok true => .ok true
  | .ok false =>
    .ok (itx.Outputs.any fun output => codeIn ops (responseMessageTypes c) output.Action)

/-- Method `Transaction.IsRelevant`; `Script.Equal` compares the bytes. -/
def Transaction.IsRelevant (itx : Transaction A) (lockingScript : Script) : Except Err Bool :=
  match scanInputs (fun input => decide (input.LockingScript = lockingScript)) itx.Inputs with
  | .error e => .error e
  | .ok true => .ok true
  | .ok false =>
    .ok (itx.MsgTx.TxOut.any fun output => decide (output.LockingScript = lockingScript))

/-- Function `appendIfDoesntExist`. -/
def appendIfDoesntExist (lockingScripts : List Script) (lockingScript : Script) : List Script :=
  if lockingScripts.any (fun script => decide (script = lockingScript)) then lockingScripts
  else lockingScripts ++ [lockingScript]

/-- The input loop of `LockingScripts`; `unspendable` is
`bitcoin.LockingScriptIsUnspendable`. -/
def lockingScriptsOfInputs (unspendable : Script → Bool) :
    List (Option (Input A)) → List Script → Except Err (List Script)
  | [], result => .ok result
  | none :: _, _ => .error .nilDereference
  | some input :: rest, result =>
    if !unspendable input.LockingScript then
      lockingScriptsOfInputs unspendable rest (appendIfDoesntExist result input.LockingScript)
    else lockingScriptsOfInputs unspendable rest result

/-- The output loop of `LockingScripts`. -/
def lockingScriptsOfOutputs (unspendable : Script → Bool) : List TxOut → List Script → List Script
  | [], result => result
  | output :: rest, result =>
    if !unspendable output.LockingScript then
      lockingScriptsOfOutputs unspendable rest (appendIfDoesntExist result output.LockingScript)
    else lockingScriptsOfOutputs unspendable rest result

/-- Method `Transaction.LockingScripts`. -/
def Transaction.LockingScripts (unspendable : Script → Bool) (itx : Transaction A) :
    Except Err (List Script) :=
  match lockingScriptsOfInputs unspendable itx.Inputs [] with
  | .error e => .error e
  | .ok result => .ok (lockingScriptsOfOutputs unspendable itx.MsgTx.TxOut result)

/-- The type switch of `Timestamp` on one action: the timestamp of the message
types the switch lists, `none` for every other type. -/
def timestampOfAction (ops : ActionOps A) (action : A) : Option Nat :=
  match ops.TypeOf action with
  | .InstrumentCreation => some (ops.Timestamp action)
  | .ContractFormation => some (ops.Timestamp action)
  | .BodyOfAgreementFormation => some (ops.Timestamp action)
  | .Freeze => some (ops.Timestamp action)
  | .Thaw => some (ops.Timestamp action)
  | .Confiscation => some (ops.Timestamp action)
  | .DeprecatedReconciliation => some (ops.Timestamp action)
  | .Vote => some (ops.Timestamp action)
  | .BallotCounted => some (ops.Timestamp action)
  | .Result => some (ops.Timestamp action)
  | .Rejection => some (ops.Timestamp action)
  | .Settlement => some (ops.Timestamp action)
  | _ => none

/-- The loop of `Timestamp` over the outputs. -/
def timestampOfOutputs (ops : ActionOps A) : List (Output A) → Option Nat
  | [] => none
  | output :: rest =>
    match output.Action with
    | none => timestampOfOutputs ops rest
    | some action =>
      match timestampOfAction ops action with
      | some t => some t
      | none => timestampOfOutputs ops rest

/-- Method `Transaction.Timestamp` of sort.go; `none` is the nil pointer. -/
def Transaction.Timestamp (ops : ActionOps A) (itx : Transaction A) : Option Nat :=
  timestampOfOutputs ops itx.Outputs

end Queries

/-! ## Legacy encodings -/

section Legacy
variable {A : Type}

/-- Method `Input.Write_v2` of transaction_test.go: an unspent-output record with
index 1 and the hash `hash`, which the Go code draws at random. -/
def Input.Write_v2 (wc : WireCodec) (hash : Hash32) (input : Input A) : Bytes :=
  wc.UTXOWrite ⟨hash, 1, input.Value, input.LockingScript⟩

/-- The input loop of `Transaction.Write_v2`; `rnd i` is the hash drawn for the
input at position `i`. -/
def writeInputs_v2 (wc : WireCodec) (rnd : Nat → Hash32) :
    List (Option (Input A)) → Nat → Except Err Bytes
  | [], _ => .ok []
  | none :: _, _ => .error .nilDereference
  | some input :: rest, i =>
    match writeInputs_v2 wc rnd rest (i + 1) with
    | .error e => .error e
    | .ok bs => .ok (input.Write_v2 wc (rnd i) ++ bs)

/-- Method `Transaction.Write_v2` of transaction_test.go into an empty buffer. -/
def Transaction.Write_v2 (wc : WireCodec) (rnd : Nat → Hash32) (itx : Transaction A) :
    Except Err Bytes :=
  match writeInputs_v2 wc rnd itx.Inputs 0 with
  | .error e => .error e
  | .ok bs =>
    .ok ([2] ++ wc.Serialize itx.MsgTx ++ leBytes 4 (itx.Inputs.length % 2 ^ 32) ++ bs
      ++ [itx.RejectCode % 256])

/-- The input records of a legacy encoding, in the spec's words: one
unspent-output record per input, carrying the value and the locking script of
the input under whatever transaction id and index `ids` gives for its position. -/
def specLegacyInputs (wc : WireCodec) (ids : Nat → Hash32 × Nat) : List (Input A) → Nat → Bytes
  | [], _ => []
  | input :: rest, i =>
    wc.UTXOWrite ⟨(ids i).1, (ids i).2, input.Value, input.LockingScript⟩
      ++ specLegacyInputs wc ids rest (i + 1)

/-- The legacy encodings of a record, in the spec's words: the version tag, the
raw transaction, the 4-byte little-endian input count for versions from 2 on
only, one unspent-output record per input, and the rejection-code byte. -/
def specEncodeLegacy (wc : WireCodec) (version : Nat) (ids : Nat → Hash32 × Nat) (tx : MsgTx)
    (inputs : List (Input A)) (rejectCode : Nat) : Bytes :=
  [version] ++ wc.Serialize tx
    ++ (if version ≥ 2 then leBytes 4 (inputs.length % 2 ^ 32) else [])
    ++ specLegacyInputs wc ids inputs 0 ++ [rejectCode % 256]

end Legacy

/-! ## Construction from known previous outputs -/

section ConstructionFromOutputs
variable {A : Type}

/-- The fields of `txbuilder.InputSupplement` the package reads. -/
structure InputSupplement where
  Value : Nat
  LockingScript : Script
deriving DecidableEq, Repr

/-- The fields of `txbuilder.TxBuilder` the package reads. -/
structure TxBuilder where
  MsgTx : MsgTx
  Inputs : List InputSupplement

/-- The loop of `NewTransactionFromTxBuilder`: `tx.MsgTx.TxIn[i]` is read for
every position `i` of `tx.Inputs`. -/
def builderUTXOs : List TxIn → List InputSupplement → Except Err (List UTXO)
  | _, [] => .ok []
  | [], _ :: _ => .error .indexOutOfRange
  | txin :: ins, input :: rest =>
    match builderUTXOs ins rest with
    | .error e => .error e
    | .ok utxos =>
      if txin.PreviousOutPoint.Index = coinbaseIndex then .ok utxos
      else .ok (⟨txin.PreviousOutPoint.Hash, txin.PreviousOutPoint.Index, input.Value,
        input.LockingScript⟩ :: utxos)

/-- Function `NewTransactionFromTxBuilder`: the record and the error returned. -/
def NewTransactionFromTxBuilder (wc : WireCodec) (pc : ProtocolCodec A) (tx : TxBuilder)
    (isTest : Bool) : Option (Transaction A) × Option Err :=
  match NewTransactionFromWire wc pc tx.MsgTx isTest with
  | .error e => (none, some (.wrap e "new from wire"))
  | .ok result =>
    match builderUTXOs tx.MsgTx.TxIn tx.Inputs with
    | .error e => (none, some e)
    | .ok utxos =>
      match result.PromoteFromUTXOs pc utxos isTest with
      | (some e, result1) => (some result1, some (.wrap e "promote"))
      | (none, result1) => (some result1, none)

/-- Interface `expanded_tx.TransactionWithOutputs`. -/
structure TransactionWithOutputs where
  GetMsgTx : MsgTx
  InputCount : Nat
  Input : Nat → TxIn
  InputOutput : Nat → Except Err TxOut

/-- The loop of `NewTransactionFromTransactionWithOutputs`: `n` positions are
still to visit, `i` is the next one. -/
def viewUTXOs (tx : TransactionWithOutputs) : Nat → Nat → Except Err (List UTXO)
  | 0, _ => .ok []
  | n + 1, i =>
    match tx.InputOutput i with
    | .error e => .error (.wrap e ("input " ++ toString i))
    | .ok output =>
      match viewUTXOs tx n (i + 1) with
      | .error e => .error e
      | .ok utxos =>
        if (tx.Input i).PreviousOutPoint.Index = coinbaseIndex then .ok utxos
        else .ok (⟨(tx.Input i).PreviousOutPoint.Hash, (tx.Input i).PreviousOutPoint.Index,
          output.Value, output.LockingScript⟩ :: utxos)

/-- Function `NewTransactionFromTransactionWithOutputs`: the record and the
error returned. -/
def NewTransactionFromTransactionWithOutputs (wc : WireCodec) (pc : ProtocolCodec A)
    (tx : TransactionWithOutputs) (isTest : Bool) : Option (Transaction A) × Option Err :=
  match NewTransactionFromWire wc pc tx.GetMsgTx isTest with
  | .error e => (none, some (.wrap e "new from wire"))
  | .ok result =>
    match viewUTXOs tx tx.InputCount 0 with
    | .error e => (none, some e)
    | .ok utxos =>
      match result.PromoteFromUTXOs pc utxos isTest with
      | (some e, result1) => (some result1, some (.wrap e "promote"))
      | (none, result1) => (some result1, none)

end ConstructionFromOutputs

/-! ## Unspent outputs and ordering -/

section UnspentOutputs
variable {A : Type}

/-- The loop of `Transaction.UTXOs`: `i` is the position of the next raw output,
stored as a `uint32`. -/
def utxosOfOutputs (hash : Hash32) : List TxOut → Nat → List UTXO
  | [], _ => []
  | output :: rest, i =>
    ⟨hash, i % 2 ^ 32, output.Value, output.LockingScript⟩ :: utxosOfOutputs hash rest (i + 1)

/-- Method `Transaction.UTXOs`. -/
def Transaction.UTXOs (itx : Transaction A) : List UTXO :=
  utxosOfOutputs itx.Hash itx.MsgTx.TxOut 0

/-- The loop of `UTXOs.Value`: the values are added into a `uint64`. -/
def sumUTXOValues : List UTXO → Nat → Nat
  | [], v => v
  | utxo :: rest, v => sumUTXOValues rest ((v + utxo.Value) % 2 ^ 64)

/-- Method `UTXOs.Value` of models.go. -/
def UTXOs.Value (utxos : List UTXO) : Nat :=
  sumUTXOValues utxos 0

/-- Method `UTXOs.ForLockingScript` of models.go; its error is always nil. -/
def UTXOs.ForLockingScript (utxos : List UTXO) (lockingScript : Script) : List UTXO :=
  utxos.filter fun utxo => decide (utxo.LockingScript = lockingScript)

/-- Method `TransactionList.Len` of sort.go. -/
def TransactionList.Len (s : List (Transaction A)) : Nat :=
  s.length

/-- Method `TransactionList.Less` of sort.go: the timestamp of element `j` is
looked at only when element `i` has one. -/
def TransactionList.Less (ops : ActionOps A) (s : List (Transaction A)) (i j : Nat) :
    Except Err Bool :=
  match s[i]? with
  | none => .error .indexOutOfRange
  | some ti =>
    match ti.Timestamp ops with
    | none => .ok false
    | some iTime =>
      match s[j]? with
      | none => .error .indexOutOfRange
      | some tj =>
        match tj.Timestamp ops with
        | none => .ok false
        | some jTime => .ok (decide (iTime < jTime))

end UnspentOutputs

/-! ## The lock of the record -/

section Lock
variable {A : Type}

/-- The state of a `sync.RWMutex` as one caller after the other sees it: the
exclusive holder flag and the count of shared holders. -/
structure RWMutex where
  writer : Bool
  readers : Nat
deriving DecidableEq, Repr

/-- What stops a lock operation: the caller waits for a holder that is never
going to release (`blocked`), or the runtime aborts on a release of a lock that
is not held (`fatal`). -/
inductive LockFault where
  | blocked
  | fatal
deriving DecidableEq, Repr

/-- The lock no one holds. -/
def RWMutex.free : RWMutex := ⟨false, 0⟩

/-- Method `RWMutex.Lock`. -/
def RWMutex.Lock (m : RWMutex) : Except LockFault RWMutex :=
  if m.writer = true ∨ m.readers > 0 then .error .blocked else .ok ⟨true, m.readers⟩

/-- Method `RWMutex.Unlock`. -/
def RWMutex.Unlock (m : RWMutex) : Except LockFault RWMutex :=
  if m.writer = true then .ok ⟨false, m.readers⟩ else .error .fatal

/-- Method `RWMutex.RLock`. -/
def RWMutex.RLock (m : RWMutex) : Except LockFault RWMutex :=
  if m.writer = true then .error .blocked else .ok ⟨m.writer, m.readers + 1⟩

/-- Method `RWMutex.RUnlock`. -/
def RWMutex.RUnlock (m : RWMutex) : Except LockFault RWMutex :=
  if m.readers = 0 then .error .fatal else .ok ⟨m.writer, m.readers - 1⟩

/-- The errors that stand for a run-time panic of Go. -/
def Err.isPanic : Err → Bool
  | .nilDereference => true
  | .indexOutOfRange => true
  | _ => false

/-- Method `Transaction.Setup` with its lock operations: the error returned, the
record and the lock when the call ends.  The release that `defer` registers
runs at every end of the call, also after the explicit release on the failure
path and while a panic unwinds. -/
def Transaction.SetupLocked (pc : ProtocolCodec A) (itx : Transaction A) (m : RWMutex)
    (isTest : Bool) : Except LockFault (Option Err × Transaction A × RWMutex) :=
  match m.Lock with
  | .error f => .error f
  | .ok m1 =>
    match setInputActions pc isTest itx.Inputs with
    | .error e =>
      match m1.Unlock with
      | .error f => .error f
      | .ok m2 => .ok (some e, itx, m2)
    | .ok inputs =>
      match ({ itx with Inputs := inputs }).ParseOutputs pc isTest with
      | (some e, itx2) =>
        match m1.Unlock with
        | .error f => .error f
        | .ok m2 =>
          match m2.Unlock with
          | .error f => .error f
          | .ok m3 => .ok (some (.wrap e "parse outputs"), itx2, m3)
      | (none, itx2) =>
        match m1.Unlock with
        | .error f => .error f
        | .ok m2 => .ok (none, itx2, m2)

/-- The lock operations of `PromoteFromUTXOs` and of `Promote` around the
outcome `res` of input resolution: a release on each failure path, a release
followed by a shared acquisition on the success path, and no release at all
when the resolution panics. -/
def promoteLocked (pc : ProtocolCodec A) (isTest : Bool) (m1 : RWMutex)
    (res : Option Err × Transaction A) :
    Except LockFault (Option Err × Transaction A × RWMutex) :=
  match res with
  | (some e, itx1) =>
    if e.isPanic then .ok (some e, itx1, m1)
    else
      match m1.Unlock with
      | .error f => .error f
      | .ok m2 => .ok (some (.wrap e "parse inputs"), itx1, m2)
  | (none, itx1) =>
    match itx1.ParseOutputs pc isTest with
    | (some e, itx2) =>
      match m1.Unlock with
      | .error f => .error f
      | .ok m2 => .ok (some (.wrap e "parse outputs"), itx2, m2)
    | (none, itx2) =>
      match m1.Unlock with
      | .error f => .error f
      | .ok m2 =>
        match m2.RLock with
        | .error f => .error f
        | .ok m3 => .ok (none, itx2, m3)

/-- Method `Transaction.PromoteFromUTXOs` with its lock operations. -/
def Transaction.PromoteFromUTXOsLocked (pc : ProtocolCodec A) (itx : Transaction A)
    (m : RWMutex) (utxos : List UTXO) (isTest : Bool) :
    Except LockFault (Option Err × Transaction A × RWMutex) :=
  match m.Lock with
  | .error f => .error f
  | .ok m1 => promoteLocked pc isTest m1 (itx.ParseInputsFromUTXOs pc utxos isTest)

/-- Method `Transaction.Promote` with its lock operations. -/
def Transaction.PromoteLocked (pc : ProtocolCodec A) (node : NodeInterface)
    (itx : Transaction A) (m : RWMutex) (isTest : Bool) :
    Except LockFault (Option Err × Transaction A × RWMutex) :=
  match m.Lock with
  | .error f => .error f
  | .ok m1 => promoteLocked pc isTest m1 (itx.ParseInputs pc node isTest)

end Lock

/-! ## Vocabulary of the statements -/

section Vocabulary
variable {A : Type}

/-- The raw inputs that spend a real output, in input order. -/
def nonCoinbase (ins : List TxIn) : List TxIn :=
  ins.filter fun txin => txin.PreviousOutPoint.Index ≠ coinbaseIndex

/-- The raw inputs carrying the coinbase sentinel, in input order. -/
def coinbaseInputs (ins : List TxIn) : List TxIn :=
  ins.filter fun txin => txin.PreviousOutPoint.Index = coinbaseIndex

/-- A raw input and an unspent-output record name the same output. -/
def outpointMatches (txin : TxIn) (u : UTXO) : Prop :=
  txin.PreviousOutPoint.Hash = u.Hash ∧ txin.PreviousOutPoint.Index = u.Index

/-- The input `ParseInputsFromUTXOs` stores for the record `u`. -/
def inputOfUTXO (pc : ProtocolCodec A) (isTest : Bool) (u : UTXO) : Input A :=
  ⟨u.Value, u.LockingScript, pc.Deserialize u.LockingScript isTest⟩

/-- What the positions of the raw inputs hold after a successful
`ParseInputsFromUTXOs`, records being consumed from `offset` on: the nil pointer
at a coinbase input, the input of the next record elsewhere. -/
def resolvedSlots (pc : ProtocolCodec A) (utxos : List UTXO) (isTest : Bool) :
    List TxIn → Nat → List (Option (Input A))
  | [], _ => []
  | txin :: rest, offset =>
    if txin.PreviousOutPoint.Index = coinbaseIndex then
      none :: resolvedSlots pc utxos isTest rest offset
    else
      (utxos[offset]?.map (inputOfUTXO pc isTest)) :: resolvedSlots pc utxos isTest rest (offset + 1)

/-- The part of an input that `Input.Write` encodes: the action is left out. -/
def Input.stored (input : Input A) : Input A :=
  ⟨input.Value, input.LockingScript, none⟩

/-- The locking scripts of the inputs, then of the raw outputs, in order, the
unspendable ones left out. -/
def spendableScripts (unspendable : Script → Bool) (ins : List (Input A)) (outs : List TxOut) :
    List Script :=
  (ins.map Input.LockingScript ++ outs.map TxOut.LockingScript).filter fun s => !unspendable s

/-- The position at which the script `s` occurs first in a list; the length of
the list when it does not occur. -/
def firstIndex (s : Script) : List Script → Nat
  | [] => 0
  | x :: rest => if x = s then 0 else firstIndex s rest + 1

/-- The message types whose timestamp orders the responses: the types the
claim about `Timestamp` lists. -/
def timestampedTypes : List ActionType :=
  [.InstrumentCreation, .ContractFormation, .BodyOfAgreementFormation, .Freeze, .Thaw,
    .Confiscation, .DeprecatedReconciliation, .Vote, .BallotCounted, .Result, .Rejection,
    .Settlement]

/-- An input as `Read` leaves it: value and script as stored, the action decoded
from the script. -/
def Input.decoded (pc : ProtocolCodec A) (isTest : Bool) (input : Input A) : Input A :=
  ⟨input.Value, input.LockingScript, pc.Deserialize input.LockingScript isTest⟩

/-- The record a successful `Read` on `itx0` yields for an encoding of the raw
transaction `tx`, the inputs `ins` and the rejection-code byte `rc`. -/
def readRecord (wc : WireCodec) (pc : ProtocolCodec A) (itx0 : Transaction A) (tx : MsgTx)
    (ins : List (Input A)) (rc : Nat) (isTest : Bool) : Transaction A :=
  ⟨wc.TxHash tx, tx, ins.map fun input => some (input.decoded pc isTest),
    tx.TxOut.map fun txout => ⟨pc.Deserialize txout.LockingScript isTest⟩, rc, itx0.RejectText⟩

/-- The exact integer sum of the values of the resolved inputs. -/
def inputTotal (inputs : List (Option (Input A))) : Nat :=
  (inputs.map fun input => (input.map Input.Value).getD 0).sum

/-- The exact integer sum of the values of the raw outputs. -/
def outputTotal (outs : List TxOut) : Nat :=
  (outs.map TxOut.Value).sum

end Vocabulary

/-! ## A concrete instance of the collaborators, for evaluation -/

section Example

/-- A variable length integer in the layout of the Bitcoin wire format. -/
def exampleWriteVarInt (n : Nat) : Bytes :=
  if n < 0xfd then [n]
  else if n ≤ 0xffff then 0xfd :: leBytes 2 n
  else if n ≤ 0xffffffff then 0xfe :: leBytes 4 n
  else 0xff :: leBytes 8 n

/-- The reader of `exampleWriteVarInt`. -/
def exampleReadVarInt : Bytes → Option (Nat × Bytes)
  | [] => none
  | b :: r =>
    if b < 0xfd then some (b, r)
    else
      let n := if b = 0xfd then 2 else if b = 0xfe then 4 else 8
      match readFull n r with
      | none => none
      | some (bs, r1) => some (leValue bs, r1)

/-- A byte string behind its length. -/
def exampleWriteBytes (bs : Bytes) : Bytes :=
  exampleWriteVarInt bs.length ++ bs

/-- The reader of `exampleWriteBytes`. -/
def exampleReadBytes (r : Bytes) : Option (Bytes × Bytes) :=
  match exampleReadVarInt r with
  | none => none
  | some (n, r1) => readFull n r1

/-- One raw input of the example layout. -/
def exampleWriteTxIn (txin : TxIn) : Bytes :=
  exampleWriteBytes txin.PreviousOutPoint.Hash ++ leBytes 4 txin.PreviousOutPoint.Index
    ++ exampleWriteBytes txin.UnlockingScript ++ leBytes 4 txin.Sequence

/-- One raw output of the example layout. -/
def exampleWriteTxOut (txout : TxOut) : Bytes :=
  leBytes 8 txout.Value ++ exampleWriteBytes txout.LockingScript

/-- The example layout of a raw transaction. -/
def exampleSerialize (tx : MsgTx) : Bytes :=
  leBytes 4 tx.Version ++ exampleWriteVarInt tx.TxIn.length
    ++ (tx.TxIn.map exampleWriteTxIn).flatten
    ++ exampleWriteVarInt tx.TxOut.length ++ (tx.TxOut.map exampleWriteTxOut).flatten
    ++ leBytes 4 tx.LockTime

/-- The reader of `exampleWriteTxIn`. -/
def exampleReadTxIn (r : Bytes) : Option (TxIn × Bytes) :=
  match exampleReadBytes r with
  | none => none
  | some (hash, r1) =>
    match readFull 4 r1 with
    | none => none
    | some (index, r2) =>
      match exampleReadBytes r2 with
      | none => none
      | some (script, r3) =>
        match readFull 4 r3 with
        | none => none
        | some (sequence, r4) => some (⟨⟨hash, leValue index⟩, script, leValue sequence⟩, r4)

/-- The reader of `exampleWriteTxOut`. -/
def exampleReadTxOut (r : Bytes) : Option (TxOut × Bytes) :=
  match readFull 8 r with
  | none => none
  | some (value, r1) =>
    match exampleReadBytes r1 with
    | none => none
    | some (script, r2) => some (⟨leValue value, script⟩, r2)

/-- Reads `n` items one after the other. -/
def exampleReadMany {α : Type} (item : Bytes → Option (α × Bytes)) :
    Nat → Bytes → Option (List α × Bytes)
  | 0, r => some ([], r)
  | n + 1, r =>
    match item r with
    | none => none
    | some (a, r1) =>
      match exampleReadMany item n r1 with
      | none => none
      | some (as, r2) => some (a :: as, r2)

/-- The reader of `exampleSerialize`. -/
def exampleDeserialize (r : Bytes) : Option (MsgTx × Bytes) :=
  match readFull 4 r with
  | none => none
  | some (version, r1) =>
    match exampleReadVarInt r1 with
    | none => none
    | some (nin, r2) =>
      match exampleReadMany exampleReadTxIn nin r2 with
      | none => none
      | some (ins, r3) =>
        match exampleReadVarInt r3 with
        | none => none
        | some (nout, r4) =>
          match exampleReadMany exampleReadTxOut nout r4 with
          | none => none
          | some (outs, r5) =>
            match readFull 4 r5 with
            | none => none
            | some (lockTime, r6) => some (⟨leValue version, ins, outs, leValue lockTime⟩, r6)

/-- The reader of an unspent-output record in the example layout. -/
def exampleUTXORead (r : Bytes) : Option (UTXO × Bytes) :=
  match exampleReadBytes r with
  | none => none
  | some (hash, r1) =>
    match readFull 4 r1 with
    | none => none
    | some (index, r2) =>
      match readFull 8 r2 with
      | none => none
      | some (value, r3) =>
        match exampleReadBytes r3 with
        | none => none
        | some (script, r4) => some (⟨hash, leValue index, leValue value, script⟩, r4)

/-- The writer of an unspent-output record in the example layout. -/
def exampleUTXOWrite (u : UTXO) : Bytes :=
  exampleWriteBytes u.Hash ++ leBytes 4 u.Index ++ leBytes 8 u.Value
    ++ exampleWriteBytes u.LockingScript

/-- A transaction codec to evaluate the model with. -/
def exampleWire : WireCodec where
  Serialize := exampleSerialize
  Deserialize := exampleDeserialize
  TxHash := fun tx => (exampleSerialize tx).take 4
  SerializeSize := fun tx => (exampleSerialize tx).length
  WriteVarInt := exampleWriteVarInt
  ReadVarInt := exampleReadVarInt
  UTXORead := exampleUTXORead
  UTXOWrite := exampleUTXOWrite

/-- The decoder of the example protocol: an action is a number, carried by a
script of three bytes whose second byte tells the network. -/
def exampleDecode (script : Script) (isTest : Bool) : Option Nat :=
  match script with
  | [op, tag, a] => if op = 0x6a ∧ tag = (if isTest then 1 else 2) then some a else none
  | _ => none

/-- The encoder of the example protocol. -/
def exampleEncode (a : Nat) (isTest : Bool) : Option Script :=
  some [0x6a, if isTest then 1 else 2, a]

/-- A protocol codec to evaluate the model with. -/
def exampleProtocol : ProtocolCodec Nat where
  Deserialize := exampleDecode
  Serialize := exampleEncode

/-- A raw input spending output `index` of the transaction `[hash]`. -/
def exampleTxIn (hash index : Nat) : TxIn := ⟨⟨[hash], index⟩, [], 0⟩

/-- A raw transaction with one spending input and one output of value 9000. -/
def exampleTx : MsgTx := ⟨1, [exampleTxIn 7 1], [⟨9000, [0x76, 0xa9]⟩], 0⟩

/-- A raw transaction with one coinbase input and one output. -/
def exampleCoinbaseTx : MsgTx := ⟨1, [exampleTxIn 0 coinbaseIndex], [⟨5000, [0x76, 0xa9]⟩], 0⟩

/-- The record of `exampleTx` before promotion. -/
def exampleBase : Transaction Nat := ⟨[4], exampleTx, [], [], 0, ""⟩

/-- The record of `exampleCoinbaseTx` before promotion. -/
def exampleCoinbaseBase : Transaction Nat := ⟨[5], exampleCoinbaseTx, [], [], 0, ""⟩

/-- The zero record `&Transaction{}` that `Read` is called on. -/
def exampleZero : Transaction Nat := ⟨[], ⟨0, [], [], 0⟩, [], [], 0, ""⟩

/-- The record of `exampleTx` as `NewBaseTransactionFromWire` builds it, promoted
with the previous output of its input, a script that carries the action 5. -/
def examplePromoted : Transaction Nat :=
  ((Transaction.mk (exampleWire.TxHash exampleTx) exampleTx [] [] 0 "").PromoteFromUTXOs
    exampleProtocol [⟨[7], 1, 10000, [0x6a, 1, 5]⟩] true).2

/-- The promoted example record carrying the rejection code 256. -/
def exampleRejected : Transaction Nat := { examplePromoted with RejectCode := 256 }

/-- The operations on the actions of the example protocol: action 5 is a
contract offer, action 6 a settlement, action 9 fails its validation. -/
def exampleOps : ActionOps Nat where
  Code := fun a => if a = 5 then "ContractOffer" else if a = 6 then "Settlement" else "Other"
  Validate := fun a => if a = 9 then some "invalid action" else none
  TypeOf := fun a =>
    if a = 5 then .ContractOffer else if a = 6 then .Settlement else .other
  Timestamp := fun a => 1000 + a
  RejectionsMsgMalformed := 1

/-- Action codes to evaluate the model with: every code is the name of its
message type. -/
def exampleCodes : ActionCodes :=
  ⟨"ContractOffer", "ContractAmendment", "BodyOfAgreementOffer", "BodyOfAgreementAmendment",
    "InstrumentDefinition", "InstrumentModification", "AssetDefinition", "AssetModification",
    "Transfer", "Proposal", "BallotCast", "Order", "ContractAddressChange",
    "InstrumentCreation", "AssetCreation", "ContractFormation", "BodyOfAgreementFormation",
    "Settlement", "Vote", "BallotCounted", "Result", "Freeze", "Thaw", "Confiscation",
    "Reconciliation", "Rejection"⟩

/-- A raw transaction with one coinbase input and one output whose script
carries the action 5. -/
def exampleCoinbaseTokenTx : MsgTx :=
  ⟨1, [exampleTxIn 0 coinbaseIndex], [⟨0, [0x6a, 1, 5]⟩], 0⟩

/-- The record `PromoteFromUTXOs` leaves for `exampleCoinbaseTokenTx`. -/
def exampleCoinbasePromoted : Transaction Nat :=
  ((Transaction.mk [5] exampleCoinbaseTokenTx [] [] 0 "").PromoteFromUTXOs
    exampleProtocol [] true).2

/-- Operations on actions to evaluate the ordering with: the action 0 has no
timestamp, every other action is a settlement whose timestamp is its number. -/
def exampleSortOps : ActionOps Nat where
  Code := fun _ => "Settlement"
  Validate := fun _ => none
  TypeOf := fun a => if a = 0 then .other else .Settlement
  Timestamp := fun a => a
  RejectionsMsgMalformed := 1

/-- A record whose single output carries the action `a`. -/
def exampleStamped (a : Nat) : Transaction Nat :=
  ⟨[a], exampleTx, [], [⟨some a⟩], 0, ""⟩

/-- A node that knows the example transaction and the previous output of its
input. -/
def exampleNode : NodeInterface where
  GetTx := fun _ => .ok exampleTx
  GetOutputs := fun _ => .ok [⟨[7], 1, 10000, [0x6a, 1, 5]⟩]

end Example

/-! ## Resolution of the inputs -/

section Resolution
variable {A : Type}

theorem nonCoinbase_cons_coinbase (txin : TxIn) (rest : List TxIn)
    (h : txin.PreviousOutPoint.Index = coinbaseIndex) :
    nonCoinbase (txin :: rest) = nonCoinbase rest := by
  simp [nonCoinbase, h]

theorem nonCoinbase_cons_spend (txin : TxIn) (rest : List TxIn)
    (h : txin.PreviousOutPoint.Index ≠ coinbaseIndex) :
    nonCoinbase (txin :: rest) = txin :: nonCoinbase rest := by
  simp [nonCoinbase, h]

theorem coinbaseInputs_cons_coinbase (txin : TxIn) (rest : List TxIn)
    (h : txin.PreviousOutPoint.Index = coinbaseIndex) :
    coinbaseInputs (txin :: rest) = txin :: coinbaseInputs rest := by
  simp [coinbaseInputs, h]

theorem coinbaseInputs_cons_spend (txin : TxIn) (rest : List TxIn)
    (h : txin.PreviousOutPoint.Index ≠ coinbaseIndex) :
    coinbaseInputs (txin :: rest) = coinbaseInputs rest := by
  simp [coinbaseInputs, h]

theorem resolvedSlots_length (pc : ProtocolCodec A) (utxos : List UTXO) (isTest : Bool)
    (ins : List TxIn) : ∀ offset, (resolvedSlots pc utxos isTest ins offset).length = ins.length := by
  induction ins with
  | nil => intro offset; rfl
  | cons txin rest ih =>
    intro offset
    unfold resolvedSlots
    split <;> simp [ih]

/-- The slice a successful run of the loop returns: the positions of the raw
inputs hold `resolvedSlots`, and one empty input per coinbase input has been
appended behind everything else. -/
theorem parseInputsLoop_ok (pc : ProtocolCodec A) (utxos : List UTXO) (isTest : Bool) :
    ∀ (rest : List TxIn) (i offset : Nat) (pre post inputs out : List (Option (Input A))),
      pre.length = i → inputs = pre ++ List.replicate rest.length none ++ post →
      offset ≤ utxos.length →
      parseInputsLoop pc utxos isTest rest i inputs offset = .ok out →
      out = pre ++ resolvedSlots pc utxos isTest rest offset ++ post
          ++ List.replicate (coinbaseInputs rest).length (some (Input.empty A))
        ∧ (nonCoinbase rest).length + offset ≤ utxos.length := by
  intro rest
  induction rest with
  | nil =>
    intro i offset pre post inputs out _ hin hoff hrun
    simp only [parseInputsLoop, Except.ok.injEq] at hrun
    subst hrun
    simp [hin, resolvedSlots, coinbaseInputs, nonCoinbase, hoff]
  | cons txin rest ih =>
    intro i offset pre post inputs out hpre hin hoff hrun
    by_cases hcb : txin.PreviousOutPoint.Index = coinbaseIndex
    · simp only [parseInputsLoop, hcb, if_true] at hrun
      have h := ih (i + 1) offset (pre ++ [none]) (post ++ [some (Input.empty A)])
        (inputs ++ [some (Input.empty A)]) out (by simp [hpre])
        (by simp [hin, List.replicate_succ]) hoff hrun
      rw [nonCoinbase_cons_coinbase _ _ hcb, coinbaseInputs_cons_coinbase _ _ hcb]
      refine ⟨?_, h.2⟩
      rw [h.1]
      simp [resolvedSlots, hcb, List.replicate_succ]
    · simp only [parseInputsLoop, hcb, if_false] at hrun
      cases hu : utxos[offset]? with
      | none => simp [hu] at hrun
      | some u =>
        simp only [hu] at hrun
        split at hrun
        · simp at hrun
        · have hset : inputs.set i (some ⟨u.Value, u.LockingScript,
              pc.Deserialize u.LockingScript isTest⟩)
              = (pre ++ [some (inputOfUTXO pc isTest u)]) ++ List.replicate rest.length none
                ++ post := by
            subst hin
            subst hpre
            simp [List.replicate_succ, inputOfUTXO, List.set_append]
          have hlt : offset < utxos.length := by
            rcases Nat.lt_or_ge offset utxos.length with hlt | hge
            · exact hlt
            · rw [List.getElem?_eq_none hge] at hu
              cases hu
          have h := ih (i + 1) (offset + 1) (pre ++ [some (inputOfUTXO pc isTest u)]) post
            _ out (by simp [hpre]) hset hlt hrun
          rw [nonCoinbase_cons_spend _ _ hcb, coinbaseInputs_cons_spend _ _ hcb]
          refine ⟨?_, ?_⟩
          · rw [h.1]
            simp [resolvedSlots, hcb, hu]
          · have := h.2
            simp only [List.length_cons]
            omega

/-- With a record for every spending input the loop either reports the first
pair that does not match or runs to its end, every pair matching. -/
theorem parseInputsLoop_outcome (pc : ProtocolCodec A) (utxos : List UTXO) (isTest : Bool) :
    ∀ (rest : List TxIn) (i offset : Nat) (inputs : List (Option (Input A))),
      (nonCoinbase rest).length + offset ≤ utxos.length →
      (parseInputsLoop pc utxos isTest rest i inputs offset = .error .MismatchedUTXO
          ∧ ∃ k txin u, (nonCoinbase rest)[k]? = some txin ∧ utxos[offset + k]? = some u
              ∧ ¬ outpointMatches txin u)
        ∨ ((∃ out, parseInputsLoop pc utxos isTest rest i inputs offset = .ok out)
          ∧ ∀ k txin u, (nonCoinbase rest)[k]? = some txin → utxos[offset + k]? = some u →
              outpointMatches txin u) := by
  intro rest
  induction rest with
  | nil =>
    intro i offset inputs _
    right
    refine ⟨⟨inputs, rfl⟩, ?_⟩
    intro k txin u hk
    simp [nonCoinbase] at hk
  | cons txin rest ih =>
    intro i offset inputs hlen
    by_cases hcb : txin.PreviousOutPoint.Index = coinbaseIndex
    · rw [nonCoinbase_cons_coinbase _ _ hcb] at hlen ⊢
      simp only [parseInputsLoop, hcb, if_true]
      exact ih (i + 1) offset _ hlen
    · rw [nonCoinbase_cons_spend _ _ hcb] at hlen ⊢
      simp only [List.length_cons] at hlen
      have hlt : offset < utxos.length := by omega
      have hu : utxos[offset]? = some utxos[offset] := List.getElem?_eq_getElem hlt
      simp only [parseInputsLoop, hcb, if_false, hu]
      by_cases hm : txin.PreviousOutPoint.Hash ≠ utxos[offset].Hash
          ∨ txin.PreviousOutPoint.Index ≠ utxos[offset].Index
      · left
        refine ⟨by simp only [if_pos hm], 0, txin, utxos[offset], by simp, by simp, ?_⟩
        intro hmatch
        rcases hm with h | h
        · exact h hmatch.1
        · exact h hmatch.2
      · simp only [if_neg hm]
        have hmatch : outpointMatches txin utxos[offset] := by
          constructor
          · by_contra h
            exact hm (Or.inl h)
          · by_contra h
            exact hm (Or.inr h)
        rcases ih (i + 1) (offset + 1)
          (inputs.set i (some ⟨utxos[offset].Value, utxos[offset].LockingScript,
            pc.Deserialize utxos[offset].LockingScript isTest⟩)) (by omega) with h | h
        · left
          obtain ⟨herr, k, t, u, hk, huk, hno⟩ := h
          refine ⟨herr, k + 1, t, u, by simpa using hk, ?_, hno⟩
          rw [← huk]
          congr 1
          omega
        · right
          refine ⟨h.1, ?_⟩
          intro k t u hk huk
          cases k with
          | zero =>
            simp only [List.getElem?_cons_zero, Option.some.injEq] at hk
            simp only [Nat.add_zero, hu, Option.some.injEq] at huk
            subst hk
            subst huk
            exact hmatch
          | succ k =>
            refine h.2 k t u (by simpa using hk) ?_
            rw [← huk]
            congr 1
            omega

/-- The slot of a raw input in `resolvedSlots`: the nil pointer at a coinbase
input, elsewhere the input of the record whose number is the count of the
spending inputs before it. -/
theorem resolvedSlots_getElem (pc : ProtocolCodec A) (utxos : List UTXO) (isTest : Bool) :
    ∀ (ins : List TxIn) (offset i : Nat) (txin : TxIn), ins[i]? = some txin →
      (resolvedSlots pc utxos isTest ins offset)[i]? =
        some (if txin.PreviousOutPoint.Index = coinbaseIndex then none
          else utxos[offset + (nonCoinbase (ins.take i)).length]?.map (inputOfUTXO pc isTest)) := by
  intro ins
  induction ins with
  | nil => intro offset i txin hi; simp at hi
  | cons t rest ih =>
    intro offset i txin hi
    cases i with
    | zero =>
      simp only [List.getElem?_cons_zero, Option.some.injEq] at hi
      subst hi
      by_cases hcb : t.PreviousOutPoint.Index = coinbaseIndex
      · simp [resolvedSlots, hcb]
      · simp [resolvedSlots, hcb, nonCoinbase]
    | succ i =>
      simp only [List.getElem?_cons_succ] at hi
      by_cases hcb : t.PreviousOutPoint.Index = coinbaseIndex
      · simp only [resolvedSlots, hcb, if_true, List.getElem?_cons_succ, List.take_succ_cons]
        rw [ih offset i txin hi, nonCoinbase_cons_coinbase _ _ hcb]
      · simp only [resolvedSlots, hcb, if_false, List.getElem?_cons_succ, List.take_succ_cons]
        rw [ih (offset + 1) i txin hi, nonCoinbase_cons_spend _ _ hcb]
        simp only [List.length_cons]
        have : offset + 1 + (nonCoinbase (List.take i rest)).length
            = offset + ((nonCoinbase (List.take i rest)).length + 1) := by omega
        rw [this]

/-- The slice `ParseInputsFromUTXOs` stores on success. -/
theorem ParseInputsFromUTXOs_ok (pc : ProtocolCodec A) (itx : Transaction A)
    (utxos : List UTXO) (isTest : Bool)
    (hok : (itx.ParseInputsFromUTXOs pc utxos isTest).1 = none) :
    (itx.ParseInputsFromUTXOs pc utxos isTest).2 =
        { itx with Inputs := resolvedSlots pc utxos isTest itx.MsgTx.TxIn 0
            ++ List.replicate (coinbaseInputs itx.MsgTx.TxIn).length (some (Input.empty A)) }
      ∧ (nonCoinbase itx.MsgTx.TxIn).length ≤ utxos.length := by
  unfold Transaction.ParseInputsFromUTXOs at hok ⊢
  cases hrun : parseInputsLoop pc utxos isTest itx.MsgTx.TxIn 0
      (List.replicate itx.MsgTx.TxIn.length none) 0 with
  | error e => simp [hrun] at hok
  | ok out =>
    have h := parseInputsLoop_ok pc utxos isTest itx.MsgTx.TxIn 0 0 [] [] _ out rfl
      (by simp) (Nat.zero_le _) hrun
    simp only [List.nil_append, List.append_nil, Nat.add_zero] at h
    exact ⟨by simp [h.1], h.2⟩

/-- C2: with at least one record per non-coinbase input, `ParseInputsFromUTXOs`
returns the "Mismatched UTXO" error exactly when, for some `k`, the outpoint of
the `k`-th non-coinbase raw input differs in hash or in index from the `k`-th
record, and it succeeds exactly when every such pair matches: records are taken
strictly in order, none is skipped and none is tried at another position. -/
theorem ParseInputsFromUTXOs_mismatch_iff (pc : ProtocolCodec A) (itx : Transaction A)
    (utxos : List UTXO) (isTest : Bool)
    (hlen : (nonCoinbase itx.MsgTx.TxIn).length ≤ utxos.length) :
    ((itx.ParseInputsFromUTXOs pc utxos isTest).1 = some .MismatchedUTXO ↔
        ∃ (k : Nat) (txin : TxIn) (u : UTXO),
          (nonCoinbase itx.MsgTx.TxIn)[k]? = some txin ∧ utxos[k]? = some u ∧
          (txin.PreviousOutPoint.Hash ≠ u.Hash ∨ txin.PreviousOutPoint.Index ≠ u.Index))
      ∧ ((itx.ParseInputsFromUTXOs pc utxos isTest).1 = none ↔
        ∀ (k : Nat) (txin : TxIn) (u : UTXO),
          (nonCoinbase itx.MsgTx.TxIn)[k]? = some txin → utxos[k]? = some u →
          (txin.PreviousOutPoint.Hash = u.Hash ∧ txin.PreviousOutPoint.Index = u.Index)) := by
  have hcases := parseInputsLoop_outcome pc utxos isTest itx.MsgTx.TxIn 0 0
    (List.replicate itx.MsgTx.TxIn.length none) (by simpa using hlen)
  simp only [Nat.zero_add] at hcases
  unfold Transaction.ParseInputsFromUTXOs
  rcases hcases with ⟨herr, k, txin, u, hk, hu, hno⟩ | ⟨⟨out, hrun⟩, hall⟩
  · rw [herr]
    have hbad : txin.PreviousOutPoint.Hash ≠ u.Hash ∨ txin.PreviousOutPoint.Index ≠ u.Index := by
      by_contra hcon
      apply hno
      constructor
      · by_contra h
        exact hcon (Or.inl h)
      · by_contra h
        exact hcon (Or.inr h)
    refine ⟨⟨fun _ => ⟨k, txin, u, hk, hu, hbad⟩, fun _ => rfl⟩, ⟨fun h => (nomatch h), ?_⟩⟩
    intro hall
    have hm := hall k txin u hk hu
    rcases hbad with h | h
    · exact absurd hm.1 h
    · exact absurd hm.2 h
  · rw [hrun]
    refine ⟨⟨fun h => (nomatch h), ?_⟩, ⟨fun _ => hall, fun _ => rfl⟩⟩
    rintro ⟨k, txin, u, hk, hu, hbad⟩
    have hm := hall k txin u hk hu
    rcases hbad with h | h
    · exact absurd hm.1 h
    · exact absurd hm.2 h

/-- C2, at a record whose only input spends output 1 of transaction `[7]` while
the record supplied names transaction `[8]`. -/
theorem ParseInputsFromUTXOs_mismatch_iff_witness :
    (nonCoinbase exampleBase.MsgTx.TxIn).length ≤ [(⟨[8], 1, 10000, []⟩ : UTXO)].length
      ∧ (exampleBase.ParseInputsFromUTXOs exampleProtocol [⟨[8], 1, 10000, []⟩] true).1
          = some .MismatchedUTXO :=
  ⟨by decide,
    ((ParseInputsFromUTXOs_mismatch_iff exampleProtocol exampleBase [⟨[8], 1, 10000, []⟩] true
      (by decide)).1).2 ⟨0, exampleTxIn 7 1, ⟨[8], 1, 10000, []⟩, by decide, by decide,
        Or.inl (by decide)⟩⟩

/-- C3: after a successful `ParseInputsFromUTXOs`, a non-coinbase raw input at
position `i` that is the `k`-th non-coinbase input (`k` counts the non-coinbase
inputs before it) has `Inputs[i]` holding the value and the locking script of
`utxos[k]`, and as action the protocol decode of that script: the decoded
action when the decode succeeds, none when it fails. -/
theorem ParseInputsFromUTXOs_resolves (pc : ProtocolCodec A) (itx : Transaction A)
    (utxos : List UTXO) (isTest : Bool)
    (hok : (itx.ParseInputsFromUTXOs pc utxos isTest).1 = none)
    (i : Nat) (txin : TxIn) (hi : itx.MsgTx.TxIn[i]? = some txin)
    (hspend : txin.PreviousOutPoint.Index ≠ coinbaseIndex) :
    ∃ u, utxos[(nonCoinbase (itx.MsgTx.TxIn.take i)).length]? = some u ∧
      (itx.ParseInputsFromUTXOs pc utxos isTest).2.Inputs[i]? =
        some (some ⟨u.Value, u.LockingScript, pc.Deserialize u.LockingScript isTest⟩) := by
  obtain ⟨hres, hlen⟩ := ParseInputsFromUTXOs_ok pc itx utxos isTest hok
  have hilt : i < itx.MsgTx.TxIn.length := by
    rcases Nat.lt_or_ge i itx.MsgTx.TxIn.length with h | h
    · exact h
    · rw [List.getElem?_eq_none h] at hi
      cases hi
  have hk : (nonCoinbase (itx.MsgTx.TxIn.take i)).length < (nonCoinbase itx.MsgTx.TxIn).length := by
    have hsplit : itx.MsgTx.TxIn = itx.MsgTx.TxIn.take i ++ txin :: itx.MsgTx.TxIn.drop (i + 1) := by
      have h1 : itx.MsgTx.TxIn.drop i = txin :: itx.MsgTx.TxIn.drop (i + 1) := by
        rw [List.drop_eq_getElem_cons hilt]
        congr 1
        rw [List.getElem?_eq_getElem hilt] at hi
        exact Option.some.inj hi
      rw [← h1, List.take_append_drop]
    have : nonCoinbase itx.MsgTx.TxIn
        = nonCoinbase (itx.MsgTx.TxIn.take i) ++ txin :: nonCoinbase (itx.MsgTx.TxIn.drop (i + 1)) := by
      conv_lhs => rw [hsplit]
      simp [nonCoinbase, hspend]
    rw [this]
    simp
  have hlt : (nonCoinbase (itx.MsgTx.TxIn.take i)).length < utxos.length := by omega
  refine ⟨utxos[(nonCoinbase (itx.MsgTx.TxIn.take i)).length], List.getElem?_eq_getElem hlt, ?_⟩
  rw [hres]
  have hslot := resolvedSlots_getElem pc utxos isTest itx.MsgTx.TxIn 0 i txin hi
  simp only [hspend, if_false, Nat.zero_add, List.getElem?_eq_getElem hlt, Option.map_some'] at hslot
  have hin : i < (resolvedSlots pc utxos isTest itx.MsgTx.TxIn 0).length := by
    rw [resolvedSlots_length]
    exact hilt
  show (resolvedSlots pc utxos isTest itx.MsgTx.TxIn 0 ++ _)[i]? = _
  rw [List.getElem?_append_left hin, hslot]
  rfl

/-- C3, at a transaction whose input 0 is a coinbase input and whose input 1
spends a real output: the single record lands at position 1. -/
theorem ParseInputsFromUTXOs_resolves_witness :
    ((Transaction.mk [4] ⟨1, [exampleTxIn 0 coinbaseIndex, exampleTxIn 7 1], [], 0⟩ [] [] 0 ""
        : Transaction Nat).ParseInputsFromUTXOs exampleProtocol
          [⟨[7], 1, 10000, [0x6a, 1, 5]⟩] true).1 = none
      ∧ ∃ u, [(⟨[7], 1, 10000, [0x6a, 1, 5]⟩ : UTXO)][(nonCoinbase
            ([exampleTxIn 0 coinbaseIndex, exampleTxIn 7 1].take 1)).length]? = some u ∧
          ((Transaction.mk [4] ⟨1, [exampleTxIn 0 coinbaseIndex, exampleTxIn 7 1], [], 0⟩ [] [] 0 ""
            : Transaction Nat).ParseInputsFromUTXOs exampleProtocol
              [⟨[7], 1, 10000, [0x6a, 1, 5]⟩] true).2.Inputs[1]? =
            some (some ⟨u.Value, u.LockingScript,
              exampleProtocol.Deserialize u.LockingScript true⟩) :=
  ⟨by decide,
    ParseInputsFromUTXOs_resolves exampleProtocol
      (Transaction.mk [4] ⟨1, [exampleTxIn 0 coinbaseIndex, exampleTxIn 7 1], [], 0⟩ [] [] 0 "")
      [⟨[7], 1, 10000, [0x6a, 1, 5]⟩] true (by decide) 1 (exampleTxIn 7 1) (by decide)
      (by decide)⟩

/-- After a successful `ParseInputsFromUTXOs` the position of a coinbase raw
input holds the nil pointer. -/
theorem ParseInputsFromUTXOs_coinbase_slot (pc : ProtocolCodec A) (itx : Transaction A)
    (utxos : List UTXO) (isTest : Bool)
    (hok : (itx.ParseInputsFromUTXOs pc utxos isTest).1 = none)
    (i : Nat) (txin : TxIn) (hi : itx.MsgTx.TxIn[i]? = some txin)
    (hcb : txin.PreviousOutPoint.Index = coinbaseIndex) :
    (itx.ParseInputsFromUTXOs pc utxos isTest).2.Inputs[i]? = some none := by
  obtain ⟨hres, _⟩ := ParseInputsFromUTXOs_ok pc itx utxos isTest hok
  have hilt : i < itx.MsgTx.TxIn.length := by
    rcases Nat.lt_or_ge i itx.MsgTx.TxIn.length with h | h
    · exact h
    · rw [List.getElem?_eq_none h] at hi
      cases hi
  rw [hres]
  have hslot := resolvedSlots_getElem pc utxos isTest itx.MsgTx.TxIn 0 i txin hi
  simp only [hcb, if_true] at hslot
  have hin : i < (resolvedSlots pc utxos isTest itx.MsgTx.TxIn 0).length := by
    rw [resolvedSlots_length]
    exact hilt
  show (resolvedSlots pc utxos isTest itx.MsgTx.TxIn 0 ++ _)[i]? = _
  rw [List.getElem?_append_left hin, hslot]

/-- After a successful `ParseInputsFromUTXOs` the slice of inputs is longer than
the raw inputs by the number of coinbase inputs. -/
theorem ParseInputsFromUTXOs_length (pc : ProtocolCodec A) (itx : Transaction A)
    (utxos : List UTXO) (isTest : Bool)
    (hok : (itx.ParseInputsFromUTXOs pc utxos isTest).1 = none) :
    (itx.ParseInputsFromUTXOs pc utxos isTest).2.Inputs.length
      = itx.MsgTx.TxIn.length + (coinbaseInputs itx.MsgTx.TxIn).length := by
  obtain ⟨hres, _⟩ := ParseInputsFromUTXOs_ok pc itx utxos isTest hok
  rw [hres]
  simp [resolvedSlots_length]

/-- After a successful `PromoteFromUTXOs` there is one output per raw output, and
one input per raw input plus one more for every coinbase input. -/
theorem PromoteFromUTXOs_lengths (pc : ProtocolCodec A) (itx : Transaction A)
    (utxos : List UTXO) (isTest : Bool)
    (hok : (itx.PromoteFromUTXOs pc utxos isTest).1 = none) :
    (itx.PromoteFromUTXOs pc utxos isTest).2.Inputs.length
        = itx.MsgTx.TxIn.length + (coinbaseInputs itx.MsgTx.TxIn).length
      ∧ (itx.PromoteFromUTXOs pc utxos isTest).2.Outputs.length = itx.MsgTx.TxOut.length := by
  unfold Transaction.PromoteFromUTXOs at hok ⊢
  cases hp : (itx.ParseInputsFromUTXOs pc utxos isTest).1 with
  | some e =>
    have hpair : itx.ParseInputsFromUTXOs pc utxos isTest
        = (some e, (itx.ParseInputsFromUTXOs pc utxos isTest).2) := Prod.ext hp rfl
    rw [hpair] at hok
    simp at hok
  | none =>
    have hpair : itx.ParseInputsFromUTXOs pc utxos isTest
        = (none, (itx.ParseInputsFromUTXOs pc utxos isTest).2) := Prod.ext hp rfl
    have hlen := ParseInputsFromUTXOs_length pc itx utxos isTest hp
    obtain ⟨hres, _⟩ := ParseInputsFromUTXOs_ok pc itx utxos isTest hp
    rw [hpair]
    simp only [Transaction.ParseOutputs, List.length_map]
    exact ⟨hlen, by rw [hres]⟩

/-- After a successful `Promote` the lengths are those `PromoteFromUTXOs` leaves
for the records the node returned. -/
theorem Promote_lengths (pc : ProtocolCodec A) (node : NodeInterface) (itx : Transaction A)
    (isTest : Bool) (hok : (itx.Promote pc node isTest).1 = none) :
    (itx.Promote pc node isTest).2.Inputs.length
        = itx.MsgTx.TxIn.length + (coinbaseInputs itx.MsgTx.TxIn).length
      ∧ (itx.Promote pc node isTest).2.Outputs.length = itx.MsgTx.TxOut.length := by
  have hsame : ∀ utxos, node.GetOutputs ((itx.MsgTx.TxIn.filter
      fun txin => txin.PreviousOutPoint.Index ≠ coinbaseIndex).map TxIn.PreviousOutPoint)
        = .ok utxos →
      itx.Promote pc node isTest = itx.PromoteFromUTXOs pc utxos isTest := by
    intro utxos hget
    simp only [Transaction.Promote, Transaction.ParseInputs, hget, Transaction.PromoteFromUTXOs]
  cases hget : node.GetOutputs ((itx.MsgTx.TxIn.filter
      fun txin => txin.PreviousOutPoint.Index ≠ coinbaseIndex).map TxIn.PreviousOutPoint) with
  | error e =>
    simp only [Transaction.Promote, Transaction.ParseInputs, hget] at hok
    exact nomatch hok
  | ok utxos =>
    rw [hsame utxos hget] at hok ⊢
    exact PromoteFromUTXOs_lengths pc itx utxos isTest hok

/-- C4: the code at a transaction whose only input is a coinbase input, resolved
with no record at all.  The call succeeds, so the coinbase input consumes no
record; but position 0 of `Inputs` holds the nil pointer, and the empty input
the claim expects there sits behind the positions of the raw inputs. -/
theorem ParseInputsFromUTXOs_coinbase_nil :
    exampleCoinbaseBase.ParseInputsFromUTXOs exampleProtocol [] true
        = (none, { exampleCoinbaseBase with Inputs := [none, some (Input.empty Nat)] })
      ∧ (exampleCoinbaseBase.ParseInputsFromUTXOs exampleProtocol [] true).2.Inputs[0]?
        ≠ some (some (Input.empty Nat)) := by
  decide

/-- C5: the code at a transaction whose only input is a coinbase input.
`PromoteFromUTXOs` succeeds, one output per raw output, but with two elements
in `Inputs` for the single raw input. -/
theorem PromoteFromUTXOs_coinbase_length :
    (exampleCoinbaseBase.PromoteFromUTXOs exampleProtocol [] true).1 = none
      ∧ (exampleCoinbaseBase.PromoteFromUTXOs exampleProtocol [] true).2.Inputs.length = 2
      ∧ exampleCoinbaseBase.MsgTx.TxIn.length = 1
      ∧ (exampleCoinbaseBase.PromoteFromUTXOs exampleProtocol [] true).2.Outputs.length
        = exampleCoinbaseBase.MsgTx.TxOut.length := by
  decide

end Resolution

/-! ## Fee -/

section FeeProofs
variable {A : Type}

theorem sumInputValues_eq : ∀ (inputs : List (Option (Input A))) (result : Nat),
    (∀ x ∈ inputs, x ≠ none) → result < 2 ^ 64 →
    sumInputValues inputs result = .ok ((result + inputTotal inputs) % 2 ^ 64) := by
  intro inputs
  induction inputs with
  | nil =>
    intro result _ hr
    simp only [sumInputValues, inputTotal, List.map_nil, List.sum_nil, Nat.add_zero]
    rw [Nat.mod_eq_of_lt hr]
  | cons x rest ih =>
    intro result hall hr
    cases x with
    | none => exact absurd rfl (hall none (List.mem_cons_self _ _))
    | some input =>
      have hrest : ∀ y ∈ rest, y ≠ none := fun y hy => hall y (List.mem_cons_of_mem _ hy)
      have hlt : (result + input.Value) % 2 ^ 64 < 2 ^ 64 := Nat.mod_lt _ (by norm_num)
      simp only [sumInputValues]
      rw [ih _ hrest hlt]
      have htot : inputTotal (some input :: rest) = input.Value + inputTotal rest := by
        simp [inputTotal]
      rw [htot, Nat.mod_add_mod, Nat.add_assoc]

theorem sumInputValues_error : ∀ (inputs : List (Option (Input A))) (result : Nat) (e : Err),
    sumInputValues inputs result = .error e → e = .nilDereference := by
  intro inputs
  induction inputs with
  | nil => intro result e h; simp [sumInputValues] at h
  | cons x rest ih =>
    intro result e h
    cases x with
    | none =>
      simp only [sumInputValues, Except.error.injEq] at h
      exact h.symm
    | some input =>
      simp only [sumInputValues] at h
      exact ih _ e h

theorem subtractOutputValues_eq : ∀ (outs : List TxOut) (result : Nat),
    subtractOutputValues outs result =
      if outputTotal outs ≤ result then .ok (result - outputTotal outs)
      else .error .ErrNegativeFee := by
  intro outs
  induction outs with
  | nil => intro result; simp [subtractOutputValues, outputTotal]
  | cons o rest ih =>
    intro result
    have htot : outputTotal (o :: rest) = o.Value + outputTotal rest := by
      simp [outputTotal]
    simp only [subtractOutputValues, htot]
    by_cases hgt : o.Value > result
    · rw [if_pos hgt, if_neg (by omega)]
    · rw [if_neg hgt, ih]
      by_cases hle : outputTotal rest ≤ result - o.Value
      · rw [if_pos hle, if_pos (by omega)]
        congr 1
        omega
      · rw [if_neg hle, if_neg (by omega)]

/-- C6, as the code has it: on a record with `len(Inputs) = len(MsgTx.TxIn)`
and no nil input, `V_in` and `V_out` being the exact integer sums of the input
values and of the raw output values, `Fee` returns `V_in - V_out` when
`V_out ≤ V_in` and `V_in` fits 64 bits, and returns `ErrNegativeFee` whenever
`V_out > V_in`. -/
theorem Fee_arithmetic (itx : Transaction A)
    (hlen : itx.Inputs.length = itx.MsgTx.TxIn.length)
    (hnil : ∀ x ∈ itx.Inputs, x ≠ none) :
    (inputTotal itx.Inputs < 2 ^ 64 → outputTotal itx.MsgTx.TxOut ≤ inputTotal itx.Inputs →
        itx.Fee = .ok (inputTotal itx.Inputs - outputTotal itx.MsgTx.TxOut))
      ∧ (inputTotal itx.Inputs < outputTotal itx.MsgTx.TxOut →
        itx.Fee = .error .ErrNegativeFee) := by
  have hsum := sumInputValues_eq itx.Inputs 0 hnil (by norm_num)
  rw [Nat.zero_add] at hsum
  have hfee : itx.Fee = subtractOutputValues itx.MsgTx.TxOut (inputTotal itx.Inputs % 2 ^ 64) := by
    simp only [Transaction.Fee, Transaction.fee, hlen, ne_eq, not_true_eq_false, if_false, hsum]
  constructor
  · intro hfit hle
    rw [hfee, Nat.mod_eq_of_lt hfit, subtractOutputValues_eq, if_pos hle]
  · intro hlt
    have hmod : inputTotal itx.Inputs % 2 ^ 64 ≤ inputTotal itx.Inputs := Nat.mod_le _ _
    rw [hfee, subtractOutputValues_eq, if_neg (by omega)]

/-- C6 at a record with one input of 10000 and one raw output of 9000: the fee
is 1000. -/
theorem Fee_arithmetic_witness :
    ((Transaction.mk [4] exampleTx [some ⟨10000, [], none⟩] [⟨none⟩] 0 ""
        : Transaction Nat).Inputs.length = exampleTx.TxIn.length)
      ∧ (Transaction.mk [4] exampleTx [some ⟨10000, [], none⟩] [⟨none⟩] 0 ""
        : Transaction Nat).Fee = .ok 1000 :=
  ⟨by decide,
    (Fee_arithmetic (Transaction.mk [4] exampleTx [some ⟨10000, [], none⟩] [⟨none⟩] 0 ""
        : Transaction Nat) (by decide) (by decide)).1 (by decide) (by decide)⟩

/-- C6 as stated fails: two inputs of `2 ^ 63` each and one raw output of 1 give
`V_out = 1 ≤ V_in = 2 ^ 64`, yet the 64-bit sum of the inputs is 0 and `Fee`
returns `ErrNegativeFee`. -/
theorem Fee_arithmetic_counterexample :
    (Transaction.mk [4] ⟨1, [exampleTxIn 7 0, exampleTxIn 7 1], [⟨1, []⟩], 0⟩
        [some ⟨2 ^ 63, [], none⟩, some ⟨2 ^ 63, [], none⟩] [⟨none⟩] 0 ""
        : Transaction Nat).Inputs.length = 2
      ∧ outputTotal [(⟨1, []⟩ : TxOut)]
        ≤ inputTotal [some (⟨2 ^ 63, [], none⟩ : Input Nat), some ⟨2 ^ 63, [], none⟩]
      ∧ (Transaction.mk [4] ⟨1, [exampleTxIn 7 0, exampleTxIn 7 1], [⟨1, []⟩], 0⟩
        [some ⟨2 ^ 63, [], none⟩, some ⟨2 ^ 63, [], none⟩] [⟨none⟩] 0 ""
        : Transaction Nat).Fee = .error .ErrNegativeFee := by
  decide

/-- C7: `Fee` returns `ErrUnpromotedTx` exactly when `len(Inputs)` differs from
`len(MsgTx.TxIn)`, and so does `FeeRate`: the length check comes first, hence
no other error (`ErrNegativeFee`, `ErrIncompleteTx`) is returned in its place. -/
theorem Fee_unpromoted_iff (wc : WireCodec) (itx : Transaction A) :
    (itx.Fee = .error .ErrUnpromotedTx ↔ itx.Inputs.length ≠ itx.MsgTx.TxIn.length)
      ∧ (itx.FeeRate wc = .error .ErrUnpromotedTx ↔
        itx.Inputs.length ≠ itx.MsgTx.TxIn.length) := by
  have hfee : itx.fee = .error .ErrUnpromotedTx ↔ itx.Inputs.length ≠ itx.MsgTx.TxIn.length := by
    unfold Transaction.fee
    by_cases hlen : itx.Inputs.length ≠ itx.MsgTx.TxIn.length
    · simp [hlen]
    · simp only [if_neg hlen, hlen, iff_false]
      cases hsum : sumInputValues itx.Inputs 0 with
      | error e =>
        have := sumInputValues_error _ _ _ hsum
        subst this
        simp
      | ok result =>
        simp only [subtractOutputValues_eq]
        by_cases hle : outputTotal itx.MsgTx.TxOut ≤ result
        · rw [if_pos hle]
          exact fun h => nomatch h
        · rw [if_neg hle]
          exact fun h => nomatch h
  refine ⟨hfee, ?_⟩
  rw [← hfee]
  unfold Transaction.FeeRate
  cases h : itx.fee with
  | error e => simp
  | ok fee =>
    simp only
    split <;> simp

end FeeProofs

/-! ## Construction -/

section ConstructionProofs
variable {A : Type}

/-- The record `NewTransactionFromHashWire` returns for a raw transaction with
inputs and outputs: the outputs are parsed, the inputs are not resolved. -/
theorem NewTransactionFromHashWire_ok (pc : ProtocolCodec A) (hash : Hash32) (tx : MsgTx)
    (isTest : Bool) (hin : tx.TxIn ≠ []) (hout : tx.TxOut ≠ []) :
    NewTransactionFromHashWire pc hash tx isTest =
      .ok ⟨hash, tx, [], tx.TxOut.map fun txout => ⟨pc.Deserialize txout.LockingScript isTest⟩,
        0, ""⟩ := by
  have h1 : ¬ tx.TxIn.length = 0 := fun h => hin (List.length_eq_zero.mp h)
  have h2 : ¬ tx.TxOut.length = 0 := fun h => hout (List.length_eq_zero.mp h)
  simp only [NewTransactionFromHashWire, if_neg h1, if_neg h2, Transaction.Setup,
    setInputActions, Transaction.ParseOutputs]

/-- C8, as the code has it: for a raw transaction with at least one input and
at least one output the record returned by `NewTransactionFromHashWire`, and by
`NewTransactionFromWire` through it, has one parsed output per raw output and
no resolved input at all; `IsPromoted` is false on it and `Fee` returns
`ErrUnpromotedTx`. -/
theorem NewTransactionFromHashWire_unpromoted (wc : WireCodec) (pc : ProtocolCodec A)
    (hash : Hash32) (tx : MsgTx) (isTest : Bool) (hin : tx.TxIn ≠ []) (hout : tx.TxOut ≠ []) :
    (∃ r, NewTransactionFromHashWire pc hash tx isTest = .ok r ∧ r.Inputs = []
        ∧ r.Outputs.length = tx.TxOut.length ∧ r.IsPromoted = false
        ∧ r.Fee = .error .ErrUnpromotedTx)
      ∧ NewTransactionFromWire wc pc tx isTest
        = NewTransactionFromHashWire pc (wc.TxHash tx) tx isTest
      ∧ (∀ node : NodeInterface, node.GetTx hash = .ok tx →
        NewTransactionFromHash pc node hash isTest
          = NewTransactionFromHashWire pc hash tx isTest)
      ∧ (∀ (raw : String) (b rest : Bytes), hexDecode (trimRaw raw.toList) = some b →
        wc.Deserialize b = some (tx, rest) →
        NewTransaction wc pc raw isTest = NewTransactionFromWire wc pc tx isTest) := by
  refine ⟨⟨_, NewTransactionFromHashWire_ok pc hash tx isTest hin hout, rfl, by simp, ?_, ?_⟩,
    rfl, ?_, ?_⟩
  rotate_left 2
  · intro node hget
    simp only [NewTransactionFromHash, hget]
  · intro raw b rest hhex hde
    simp only [NewTransaction, hhex, hde]
  · simp [Transaction.IsPromoted]
  · have h1 : ¬ tx.TxIn.length = 0 := fun h => hin (List.length_eq_zero.mp h)
    have h3 : ¬ (0 = tx.TxIn.length) := fun h => h1 h.symm
    simp only [Transaction.Fee, Transaction.fee, List.length_nil, ne_eq]
    rw [if_pos h3]

/-- C8 at the example transaction. -/
theorem NewTransactionFromHashWire_unpromoted_witness :
    exampleTx.TxIn ≠ [] ∧ exampleTx.TxOut ≠ []
      ∧ ∃ r, NewTransactionFromHashWire exampleProtocol [4] exampleTx true = .ok r ∧ r.Inputs = []
        ∧ r.Outputs.length = exampleTx.TxOut.length ∧ r.IsPromoted = false
        ∧ r.Fee = .error .ErrUnpromotedTx :=
  ⟨by decide, by decide,
    (NewTransactionFromHashWire_unpromoted exampleWire exampleProtocol [4] exampleTx true
      (by decide) (by decide)).1⟩

/-- C8 as stated fails: the record `NewTransactionFromWire` returns for the
example transaction, one input and one output, is not promoted, its `Inputs`
are fewer than its raw inputs and `Fee` returns `ErrUnpromotedTx`. -/
theorem NewTransactionFromWire_counterexample :
    ∃ r, NewTransactionFromWire exampleWire exampleProtocol exampleTx true = .ok r
      ∧ r.IsPromoted = false ∧ r.Inputs.length ≠ r.MsgTx.TxIn.length
      ∧ r.Fee = .error .ErrUnpromotedTx :=
  ⟨⟨exampleWire.TxHash exampleTx, exampleTx, [], [⟨none⟩], 0, ""⟩, by decide, by decide,
    by decide, by decide⟩

/-- C9: `NewTransactionFromHashWire` fails with `ErrMissingInputs` (wrapped) when
the raw transaction has no input, with `ErrMissingOutputs` (wrapped) when it has
an input but no output, and otherwise succeeds with the supplied hash as `Hash`
and the supplied raw transaction as `MsgTx`; `NewTransactionFromWire` is the
same call with the hash the transaction codec computes. -/
theorem NewTransactionFromHashWire_outcome (wc : WireCodec) (pc : ProtocolCodec A)
    (hash : Hash32) (tx : MsgTx) (isTest : Bool) :
    (tx.TxIn = [] → ∃ e, NewTransactionFromHashWire pc hash tx isTest = .error e
        ∧ e.cause = .ErrMissingInputs)
      ∧ (tx.TxIn ≠ [] → tx.TxOut = [] → ∃ e, NewTransactionFromHashWire pc hash tx isTest = .error e
        ∧ e.cause = .ErrMissingOutputs)
      ∧ (tx.TxIn ≠ [] → tx.TxOut ≠ [] → ∃ r, NewTransactionFromHashWire pc hash tx isTest = .ok r
        ∧ r.Hash = hash ∧ r.MsgTx = tx)
      ∧ NewTransactionFromWire wc pc tx isTest
        = NewTransactionFromHashWire pc (wc.TxHash tx) tx isTest := by
  refine ⟨?_, ?_, ?_, rfl⟩
  · intro h
    exact ⟨.wrap .ErrMissingInputs "parsing transaction",
      by simp [NewTransactionFromHashWire, h], rfl⟩
  · intro h1 h2
    have h3 : ¬ tx.TxIn.length = 0 := fun h => h1 (List.length_eq_zero.mp h)
    exact ⟨.wrap .ErrMissingOutputs "parsing transaction",
      by simp [NewTransactionFromHashWire, h3, h2], rfl⟩
  · intro h1 h2
    exact ⟨_, NewTransactionFromHashWire_ok pc hash tx isTest h1 h2, rfl, rfl⟩

/-- C9 at the example transaction, and at the same transaction without its
output and without its input. -/
theorem NewTransactionFromHashWire_outcome_witness :
    (∃ r, NewTransactionFromHashWire exampleProtocol [4] exampleTx true = .ok r
        ∧ r.Hash = [4] ∧ r.MsgTx = exampleTx)
      ∧ (∃ e, NewTransactionFromHashWire exampleProtocol [4] ⟨1, [exampleTxIn 7 1], [], 0⟩ true
          = .error e ∧ e.cause = .ErrMissingOutputs)
      ∧ (∃ e, NewTransactionFromHashWire exampleProtocol [4] ⟨1, [], [⟨9000, []⟩], 0⟩ true
          = .error e ∧ e.cause = .ErrMissingInputs) :=
  ⟨(NewTransactionFromHashWire_outcome exampleWire exampleProtocol [4] exampleTx true).2.2.1
      (by decide) (by decide),
    (NewTransactionFromHashWire_outcome exampleWire exampleProtocol [4]
      ⟨1, [exampleTxIn 7 1], [], 0⟩ true).2.1 (by decide) (by decide),
    (NewTransactionFromHashWire_outcome exampleWire exampleProtocol [4]
      ⟨1, [], [⟨9000, []⟩], 0⟩ true).1 (by decide)⟩

/-- With a record for every spending input, each matching its input in order,
`ParseInputsFromUTXOs` succeeds. -/
theorem ParseInputsFromUTXOs_ok_of_matches (pc : ProtocolCodec A) (itx : Transaction A)
    (utxos : List UTXO) (isTest : Bool)
    (hlen : (nonCoinbase itx.MsgTx.TxIn).length ≤ utxos.length)
    (hall : ∀ (k : Nat) (txin : TxIn) (u : UTXO),
      (nonCoinbase itx.MsgTx.TxIn)[k]? = some txin → utxos[k]? = some u →
        outpointMatches txin u) :
    (itx.ParseInputsFromUTXOs pc utxos isTest).1 = none := by
  have hcases := parseInputsLoop_outcome pc utxos isTest itx.MsgTx.TxIn 0 0
    (List.replicate itx.MsgTx.TxIn.length none) (by simpa using hlen)
  simp only [Nat.zero_add] at hcases
  unfold Transaction.ParseInputsFromUTXOs
  rcases hcases with ⟨_, k, txin, u, hk, hu, hno⟩ | ⟨⟨out, hrun⟩, _⟩
  · exact absurd (hall k txin u hk hu) hno
  · rw [hrun]

theorem nonCoinbase_of_all_spend : ∀ (ins : List TxIn),
    (∀ t ∈ ins, t.PreviousOutPoint.Index ≠ coinbaseIndex) →
    nonCoinbase ins = ins ∧ coinbaseInputs ins = [] := by
  intro ins h
  constructor
  · simp only [nonCoinbase, List.filter_eq_self]
    intro t ht
    simpa using h t ht
  · simp only [coinbaseInputs, List.filter_eq_nil_iff]
    intro t ht
    simpa using h t ht

/-- The record `NewTransactionFromOutputs` builds for position `k` when no raw
input is a coinbase input. -/
theorem utxosFromOutputs_getElem : ∀ (ins : List TxIn) (outs : List TxOut),
    (∀ t ∈ ins, t.PreviousOutPoint.Index ≠ coinbaseIndex) → ins.length = outs.length →
    ∀ (k : Nat) (txin : TxIn), ins[k]? = some txin →
      ∃ o, outs[k]? = some o ∧ (utxosFromOutputs ins outs)[k]? =
        some ⟨txin.PreviousOutPoint.Hash, txin.PreviousOutPoint.Index, o.Value,
          o.LockingScript⟩ := by
  intro ins
  induction ins with
  | nil => intro outs _ _ k txin hk; simp at hk
  | cons t rest ih =>
    intro outs hall hlen k txin hk
    cases outs with
    | nil => simp at hlen
    | cons o outs =>
      have ht : t.PreviousOutPoint.Index ≠ coinbaseIndex := hall t (List.mem_cons_self _ _)
      have hrest : ∀ x ∈ rest, x.PreviousOutPoint.Index ≠ coinbaseIndex :=
        fun x hx => hall x (List.mem_cons_of_mem _ hx)
      simp only [utxosFromOutputs, if_neg ht]
      cases k with
      | zero =>
        simp only [List.getElem?_cons_zero, Option.some.injEq] at hk
        subst hk
        exact ⟨o, by simp, by simp⟩
      | succ k =>
        simp only [List.getElem?_cons_succ] at hk ⊢
        exact ih outs hrest (by simpa using hlen) k txin hk

theorem utxosFromOutputs_length : ∀ (ins : List TxIn) (outs : List TxOut),
    (∀ t ∈ ins, t.PreviousOutPoint.Index ≠ coinbaseIndex) → ins.length = outs.length →
    (utxosFromOutputs ins outs).length = ins.length := by
  intro ins
  induction ins with
  | nil => intro outs _ _; cases outs <;> rfl
  | cons t rest ih =>
    intro outs hall hlen
    cases outs with
    | nil => simp at hlen
    | cons o outs =>
      have ht : t.PreviousOutPoint.Index ≠ coinbaseIndex := hall t (List.mem_cons_self _ _)
      have hrest : ∀ x ∈ rest, x.PreviousOutPoint.Index ≠ coinbaseIndex :=
        fun x hx => hall x (List.mem_cons_of_mem _ hx)
      simp only [utxosFromOutputs, if_neg ht, List.length_cons]
      rw [ih outs hrest (by simpa using hlen)]

/-- C10: `NewTransactionFromOutputs` fails with `ErrMissingOutputs` whenever the
number of previous outputs differs from the number of raw inputs; when the
numbers agree and no raw input is a coinbase input it succeeds (so no
"Mismatched UTXO" is reported), `Inputs` has one element per previous output
and `Inputs[i]` carries the value and the locking script of `outputs[i]`. -/
theorem NewTransactionFromOutputs_outcome (pc : ProtocolCodec A) (hash : Hash32) (tx : MsgTx)
    (outputs : List TxOut) (isTest : Bool) :
    (tx.TxIn.length ≠ outputs.length →
        NewTransactionFromOutputs pc hash tx outputs isTest = .error .ErrMissingOutputs)
      ∧ (tx.TxIn.length = outputs.length →
        (∀ t ∈ tx.TxIn, t.PreviousOutPoint.Index ≠ coinbaseIndex) →
        ∃ r, NewTransactionFromOutputs pc hash tx outputs isTest = .ok r
          ∧ r.Inputs.length = outputs.length
          ∧ ∀ (i : Nat) (o : TxOut), outputs[i]? = some o →
            ∃ input, r.Inputs[i]? = some (some input) ∧ input.Value = o.Value
              ∧ input.LockingScript = o.LockingScript) := by
  constructor
  · intro hne
    simp only [NewTransactionFromOutputs, NewBaseTransactionFromHashWire, if_pos hne]
  · intro hlen hall
    obtain ⟨hnc, hcb⟩ := nonCoinbase_of_all_spend tx.TxIn hall
    have hulen := utxosFromOutputs_length tx.TxIn outputs hall hlen
    let base : Transaction A := ⟨hash, tx, [], [], 0, ""⟩
    have hbase : base.MsgTx = tx := rfl
    have hnclen : (nonCoinbase base.MsgTx.TxIn).length
        ≤ (utxosFromOutputs tx.TxIn outputs).length := by
      rw [hbase, hnc, hulen]
    have hok : (base.ParseInputsFromUTXOs pc (utxosFromOutputs tx.TxIn outputs) isTest).1
        = none := by
      apply ParseInputsFromUTXOs_ok_of_matches pc base _ isTest hnclen
      intro k txin u hk hu
      rw [hbase, hnc] at hk
      obtain ⟨o, _, hget⟩ := utxosFromOutputs_getElem tx.TxIn outputs hall hlen k txin hk
      rw [hget] at hu
      cases hu
      exact ⟨rfl, rfl⟩
    obtain ⟨hres, _⟩ := ParseInputsFromUTXOs_ok pc base _ isTest hok
    have hpair : base.ParseInputsFromUTXOs pc (utxosFromOutputs tx.TxIn outputs) isTest
        = (none, (base.ParseInputsFromUTXOs pc (utxosFromOutputs tx.TxIn outputs) isTest).2) :=
      Prod.ext hok rfl
    have hres2 : (base.ParseInputsFromUTXOs pc (utxosFromOutputs tx.TxIn outputs) isTest).2
        = ⟨hash, tx, resolvedSlots pc (utxosFromOutputs tx.TxIn outputs) isTest tx.TxIn 0,
            [], 0, ""⟩ := by
      rw [hres]
      simp [base, hcb]
    refine ⟨⟨hash, tx, resolvedSlots pc (utxosFromOutputs tx.TxIn outputs) isTest tx.TxIn 0,
      tx.TxOut.map fun txout => ⟨pc.Deserialize txout.LockingScript isTest⟩, 0, ""⟩, ?_, ?_, ?_⟩
    · simp only [NewTransactionFromOutputs, NewBaseTransactionFromHashWire, hlen, ne_eq,
        not_true_eq_false, if_false, Transaction.PromoteFromUTXOs]
      rw [hpair, hres2]
      simp only [Transaction.ParseOutputs]
    · simp only [resolvedSlots_length, hlen]
    · intro i o hio
      have hilt : i < tx.TxIn.length := by
        rw [hlen]
        rcases Nat.lt_or_ge i outputs.length with h | h
        · exact h
        · rw [List.getElem?_eq_none h] at hio
          cases hio
      have hti : tx.TxIn[i]? = some tx.TxIn[i] := List.getElem?_eq_getElem hilt
      obtain ⟨o2, ho2, hget⟩ := utxosFromOutputs_getElem tx.TxIn outputs hall hlen i _ hti
      rw [hio] at ho2
      cases ho2
      have hslot := resolvedSlots_getElem pc (utxosFromOutputs tx.TxIn outputs) isTest
        tx.TxIn 0 i _ hti
      have htake : (nonCoinbase (tx.TxIn.take i)).length = i := by
        have hsub : ∀ t ∈ tx.TxIn.take i, t.PreviousOutPoint.Index ≠ coinbaseIndex :=
          fun t ht => hall t (List.mem_of_mem_take ht)
        rw [(nonCoinbase_of_all_spend _ hsub).1, List.length_take]
        omega
      have hspend : tx.TxIn[i].PreviousOutPoint.Index ≠ coinbaseIndex :=
        hall _ (List.getElem_mem _)
      simp only [if_neg hspend, Nat.zero_add, htake, hget, Option.map_some'] at hslot
      exact ⟨inputOfUTXO pc isTest ⟨tx.TxIn[i].PreviousOutPoint.Hash,
        tx.TxIn[i].PreviousOutPoint.Index, o.Value, o.LockingScript⟩, hslot, rfl, rfl⟩

/-- C10 at the example transaction with the previous output of its input, and
with no previous output at all. -/
theorem NewTransactionFromOutputs_outcome_witness :
    (NewTransactionFromOutputs exampleProtocol [4] exampleTx [] true = .error .ErrMissingOutputs)
      ∧ ∃ r, NewTransactionFromOutputs exampleProtocol [4] exampleTx [⟨10000, [0x76]⟩] true = .ok r
          ∧ r.Inputs.length = [(⟨10000, [0x76]⟩ : TxOut)].length
          ∧ ∀ (i : Nat) (o : TxOut), [(⟨10000, [0x76]⟩ : TxOut)][i]? = some o →
            ∃ input, r.Inputs[i]? = some (some input) ∧ input.Value = o.Value
              ∧ input.LockingScript = o.LockingScript :=
  ⟨(NewTransactionFromOutputs_outcome exampleProtocol [4] exampleTx [] true).1 (by decide),
    (NewTransactionFromOutputs_outcome exampleProtocol [4] exampleTx [⟨10000, [0x76]⟩] true).2
      (by decide) (by decide)⟩

end ConstructionProofs

/-! ## Binary codec -/

section CodecProofs
variable {A : Type}

theorem leBytes_length : ∀ (n v : Nat), (leBytes n v).length = n := by
  intro n
  induction n with
  | zero => intro v; rfl
  | succ n ih => intro v; simp [leBytes, ih]

theorem leValue_leBytes : ∀ (n v : Nat), leValue (leBytes n v) = v % 256 ^ n := by
  intro n
  induction n with
  | zero => intro v; simp [leBytes, leValue, Nat.mod_one]
  | succ n ih =>
    intro v
    simp only [leBytes, leValue, ih]
    rw [pow_succ', Nat.mod_mul]

theorem readFull_append (a rest : Bytes) (n : Nat) (h : a.length = n) :
    readFull n (a ++ rest) = some (a, rest) := by
  subst h
  simp [readFull]

/-- Reading back one input written by `Input.Write`: value and script return,
the bytes that follow are left unread. -/
theorem Input_Read_Write (wc : WireCodec) (input : Input A) (rest : Bytes)
    (hv : input.Value < 2 ^ 64) (hl : input.LockingScript.length < 2 ^ 64)
    (hvar : ∀ tail, wc.ReadVarInt (wc.WriteVarInt input.LockingScript.length ++ tail)
      = some (input.LockingScript.length, tail)) :
    Input.Read wc (Input.empty A) 3 (input.Write wc ++ rest) = .ok (input.stored, rest) := by
  have h8 : readFull 8 (input.Write wc ++ rest)
      = some (leBytes 8 input.Value,
          wc.WriteVarInt input.LockingScript.length ++ (input.LockingScript ++ rest)) := by
    have : input.Write wc ++ rest = leBytes 8 input.Value
        ++ (wc.WriteVarInt input.LockingScript.length ++ (input.LockingScript ++ rest)) := by
      have e1 : input.Value % 2 ^ 64 = input.Value := Nat.mod_eq_of_lt hv
      have e2 : input.LockingScript.length % 2 ^ 64 = input.LockingScript.length :=
        Nat.mod_eq_of_lt hl
      simp only [Input.Write, e1, e2, List.append_assoc]
    rw [this]
    exact readFull_append _ _ 8 (leBytes_length 8 _)
  have hval : leValue (leBytes 8 input.Value) = input.Value := by
    rw [leValue_leBytes]
    exact Nat.mod_eq_of_lt (by simpa using hv)
  have hscript : readFull input.LockingScript.length (input.LockingScript ++ rest)
      = some (input.LockingScript, rest) := readFull_append _ _ _ rfl
  simp [Input.Read, h8, hvar, hscript, hval, Input.stored, Input.empty]

/-- Reading back the inputs `Transaction.Write` emits. -/
theorem readInputs_writeInputs (wc : WireCodec) :
    ∀ (inputs : List (Option (Input A))),
      (∀ x ∈ inputs, ∃ input, x = some input ∧ input.Value < 2 ^ 64
        ∧ input.LockingScript.length < 2 ^ 64
        ∧ ∀ tail, wc.ReadVarInt (wc.WriteVarInt input.LockingScript.length ++ tail)
          = some (input.LockingScript.length, tail)) →
      ∃ bs, writeInputs wc inputs = .ok bs ∧
        ∀ (i : Nat) (rest : Bytes) (done : List (Option (Input A))),
          readInputs wc 3 inputs.length i (bs ++ rest) done
            = .ok (done ++ inputs.map (Option.map Input.stored), rest) := by
  intro inputs
  induction inputs with
  | nil =>
    intro _
    exact ⟨[], rfl, fun i rest done => by simp [readInputs]⟩
  | cons x xs ih =>
    intro hall
    obtain ⟨input, hx, hv, hl, hvar⟩ := hall x (List.mem_cons_self _ _)
    subst hx
    obtain ⟨bs, hbs, hread⟩ := ih (fun y hy => hall y (List.mem_cons_of_mem _ hy))
    refine ⟨input.Write wc ++ bs, by simp [writeInputs, hbs], ?_⟩
    intro i rest done
    simp only [List.length_cons, readInputs, List.append_assoc]
    rw [Input_Read_Write wc input (bs ++ rest) hv hl hvar]
    simp only
    rw [hread]
    simp

/-- The decode pass over freshly read inputs restores the actions of inputs
whose action is the decode of their script. -/
theorem setInputActions_stored (pc : ProtocolCodec A) (isTest : Bool) :
    ∀ (inputs : List (Option (Input A))),
      (∀ x ∈ inputs, ∃ input, x = some input
        ∧ input.Action = pc.Deserialize input.LockingScript isTest) →
      setInputActions pc isTest (inputs.map (Option.map Input.stored)) = .ok inputs := by
  intro inputs
  induction inputs with
  | nil => intro _; rfl
  | cons x xs ih =>
    intro hall
    obtain ⟨input, hx, hact⟩ := hall x (List.mem_cons_self _ _)
    subst hx
    have hrest := ih (fun y hy => hall y (List.mem_cons_of_mem _ hy))
    simp only [List.map_cons, Option.map_some', setInputActions, hrest, Input.stored]
    cases hdec : pc.Deserialize input.LockingScript isTest with
    | none =>
      simp only
      rw [hdec] at hact
      cases input
      simp_all
    | some action =>
      simp only
      rw [hdec] at hact
      cases input
      simp_all

theorem equalAction_self (pc : ProtocolCodec A) (a : Option A)
    (hser : ∀ x, a = some x → pc.Serialize x true ≠ none) : equalAction pc a a = none := by
  cases a with
  | none => rfl
  | some x =>
    cases hx : pc.Serialize x true with
    | none => exact absurd hx (hser x rfl)
    | some script => simp [equalAction, hx]

theorem equalInputs_self (pc : ProtocolCodec A) : ∀ (inputs : List (Option (Input A))),
    (∀ x ∈ inputs, ∃ input, x = some input
      ∧ ∀ a, input.Action = some a → pc.Serialize a true ≠ none) →
    equalInputs pc inputs inputs = none := by
  intro inputs
  induction inputs with
  | nil => intro _; rfl
  | cons x xs ih =>
    intro hall
    obtain ⟨input, hx, hser⟩ := hall x (List.mem_cons_self _ _)
    subst hx
    simp [equalInputs, equalAction_self pc input.Action hser,
      ih (fun y hy => hall y (List.mem_cons_of_mem _ hy))]

theorem equalOutputs_self (pc : ProtocolCodec A) : ∀ (outputs : List (Output A)),
    (∀ o ∈ outputs, ∀ a, o.Action = some a → pc.Serialize a true ≠ none) →
    equalOutputs pc outputs outputs = none := by
  intro outputs
  induction outputs with
  | nil => intro _; rfl
  | cons o os ih =>
    intro hall
    simp [equalOutputs, equalAction_self pc o.Action (hall o (List.mem_cons_self _ _)),
      ih (fun y hy => hall y (List.mem_cons_of_mem _ hy))]

/-- C1, as the code has it.  Let `r` be a record promoted under the flag `t`:
every element of `Inputs` is an input (no nil pointer) whose action is the
protocol decode under `t` of its locking script, and `Outputs` is what
`ParseOutputs` yields under `t`.  Let moreover `Hash` be the hash of `MsgTx`,
`RejectCode` fit one byte, the inputs be fewer than `2 ^ 32`, and the transaction
codec read back what it writes for `MsgTx` and for script lengths.  Then `Write`
succeeds and `Read` with flag `t` of the bytes written succeeds, consumes them
all, and yields a record with the same `Hash`, `MsgTx` (hence the same
serialized raw transaction), `RejectCode`, `Inputs` (same number, each with the
same value, script and action) and `Outputs`; and `Equal` finds the two records
equal whenever the protocol codec can encode what it decoded. -/
theorem Read_Write_roundtrip (wc : WireCodec) (pc : ProtocolCodec A)
    (r itx0 : Transaction A) (t : Bool)
    (hcodec : ∀ tail, wc.Deserialize (wc.Serialize r.MsgTx ++ tail) = some (r.MsgTx, tail))
    (hvarint : ∀ n tail, n < 2 ^ 64 → wc.ReadVarInt (wc.WriteVarInt n ++ tail) = some (n, tail))
    (hhash : r.Hash = wc.TxHash r.MsgTx)
    (hreject : r.RejectCode < 256)
    (hcount : r.Inputs.length < 2 ^ 32)
    (hinputs : ∀ x ∈ r.Inputs, ∃ input, x = some input ∧ input.Value < 2 ^ 64
      ∧ input.LockingScript.length < 2 ^ 64
      ∧ input.Action = pc.Deserialize input.LockingScript t)
    (houtputs : r.Outputs
      = r.MsgTx.TxOut.map fun txout => ⟨pc.Deserialize txout.LockingScript t⟩) :
    ∃ bytes r', r.Write wc = .ok bytes ∧ itx0.Read wc pc bytes t = .ok (r', [])
      ∧ r'.Hash = r.Hash ∧ r'.MsgTx = r.MsgTx ∧ wc.Serialize r'.MsgTx = wc.Serialize r.MsgTx
      ∧ r'.RejectCode = r.RejectCode ∧ r'.Inputs = r.Inputs ∧ r'.Outputs = r.Outputs
      ∧ ((∀ a s, pc.Deserialize s t = some a → pc.Serialize a true ≠ none) →
        r.Equal wc pc r' = none) := by
  obtain ⟨bs, hbs, hread⟩ := readInputs_writeInputs wc r.Inputs (fun x hx => by
    obtain ⟨input, h1, h2, h3, _⟩ := hinputs x hx
    exact ⟨input, h1, h2, h3, fun tail => hvarint _ tail h3⟩)
  have hact := setInputActions_stored pc t r.Inputs (fun x hx => by
    obtain ⟨input, h1, _, _, h4⟩ := hinputs x hx
    exact ⟨input, h1, h4⟩)
  have hc : r.Inputs.length % 2 ^ 32 = r.Inputs.length := Nat.mod_eq_of_lt hcount
  have hrc : r.RejectCode % 256 = r.RejectCode := Nat.mod_eq_of_lt hreject
  have h1 : readFull 1 ([3] ++ wc.Serialize r.MsgTx ++ leBytes 4 r.Inputs.length ++ bs
      ++ [r.RejectCode])
      = some ([3], wc.Serialize r.MsgTx ++ (leBytes 4 r.Inputs.length ++ (bs ++ [r.RejectCode]))) := by
    simp [readFull]
  have h4 : readFull 4 (leBytes 4 r.Inputs.length ++ (bs ++ [r.RejectCode]))
      = some (leBytes 4 r.Inputs.length, bs ++ [r.RejectCode]) :=
    readFull_append _ _ 4 (leBytes_length 4 _)
  have hlev : leValue (leBytes 4 r.Inputs.length) = r.Inputs.length := by
    rw [leValue_leBytes]
    exact Nat.mod_eq_of_lt (by simpa using hcount)
  have h5 : readFull 1 [r.RejectCode] = some ([r.RejectCode], []) := by
    simp [readFull]
  refine ⟨[3] ++ wc.Serialize r.MsgTx ++ leBytes 4 r.Inputs.length ++ bs ++ [r.RejectCode],
    ⟨r.Hash, r.MsgTx, r.Inputs, r.Outputs, r.RejectCode, itx0.RejectText⟩,
    by simp only [Transaction.Write, hbs, hc, hrc], ?_, rfl, rfl, rfl, rfl, rfl, rfl, ?_⟩
  · have hread0 := hread 0 [r.RejectCode] []
    simp only [List.nil_append] at hread0
    simp only [Transaction.Read, h1, List.headD_cons, hcodec, h4, hlev, Transaction.ParseOutputs,
      ← hhash, ← houtputs]
    simp only [ne_eq, OfNat.ofNat_ne_zero, not_false_eq_true, OfNat.ofNat_ne_one, and_false,
      not_true_eq_false, if_false, ge_iff_le, Nat.reduceLeDiff, if_true, hread0, h5, hact,
      List.headD_cons, Nat.reduceEqDiff, and_self]
  · intro hser
    have hin : equalInputs pc r.Inputs r.Inputs = none :=
      equalInputs_self pc r.Inputs (fun x hx => by
        obtain ⟨input, h1, _, _, h4⟩ := hinputs x hx
        exact ⟨input, h1, fun a ha => hser a input.LockingScript (by rw [← h4, ha])⟩)
    have hout : equalOutputs pc r.Outputs r.Outputs = none :=
      equalOutputs_self pc r.Outputs (fun o ho a ha => by
        rw [houtputs] at ho
        obtain ⟨txout, _, hto⟩ := List.mem_map.mp ho
        subst hto
        exact hser a txout.LockingScript ha)
    simp [Transaction.Equal, hin, hout]

/-- The example reader of variable length integers reads back what the example
writer wrote. -/
theorem exampleVarInt_roundtrip (n : Nat) (tail : Bytes) (hn : n < 2 ^ 64) :
    exampleReadVarInt (exampleWriteVarInt n ++ tail) = some (n, tail) := by
  unfold exampleWriteVarInt
  by_cases h1 : n < 0xfd
  · simp [h1, exampleReadVarInt]
  · rw [if_neg h1]
    by_cases h2 : n ≤ 0xffff
    · rw [if_pos h2]
      have hr := readFull_append (leBytes 2 n) tail 2 (leBytes_length 2 n)
      have hv : leValue (leBytes 2 n) = n := by
        rw [leValue_leBytes]
        exact Nat.mod_eq_of_lt (by norm_num; omega)
      simp [exampleReadVarInt, hr, hv]
    · rw [if_neg h2]
      by_cases h3 : n ≤ 0xffffffff
      · rw [if_pos h3]
        have hr := readFull_append (leBytes 4 n) tail 4 (leBytes_length 4 n)
        have hv : leValue (leBytes 4 n) = n := by
          rw [leValue_leBytes]
          exact Nat.mod_eq_of_lt (by norm_num; omega)
        simp [exampleReadVarInt, hr, hv]
      · rw [if_neg h3]
        have hr := readFull_append (leBytes 8 n) tail 8 (leBytes_length 8 n)
        have hv : leValue (leBytes 8 n) = n := by
          rw [leValue_leBytes]
          exact Nat.mod_eq_of_lt (by norm_num; omega)
        simp [exampleReadVarInt, hr, hv]

/-- The example transaction codec reads back the example transaction, whatever
follows it. -/
theorem exampleDeserialize_exampleTx (tail : Bytes) :
    exampleDeserialize (exampleSerialize exampleTx ++ tail) = some (exampleTx, tail) := by
  simp [exampleDeserialize, exampleSerialize, exampleTx, exampleTxIn, exampleWriteTxIn,
    exampleWriteTxOut, exampleWriteBytes, exampleWriteVarInt, leBytes, readFull,
    exampleReadVarInt, exampleReadMany, exampleReadTxIn, exampleReadTxOut, exampleReadBytes,
    leValue]

/-- The promoted example record, field by field. -/
theorem examplePromoted_eq :
    examplePromoted = ⟨[1, 0, 0, 0], exampleTx, [some ⟨10000, [0x6a, 1, 5], some 5⟩],
      [⟨none⟩], 0, ""⟩ := by
  decide

/-- C1 at the promoted example record: its encoding is read back, under the test
flag it was promoted with, to the same record. -/
theorem Read_Write_roundtrip_witness :
    examplePromoted.IsPromoted = true
      ∧ ∃ bytes r', examplePromoted.Write exampleWire = .ok bytes
        ∧ exampleZero.Read exampleWire exampleProtocol bytes true = .ok (r', [])
        ∧ r'.Hash = examplePromoted.Hash ∧ r'.MsgTx = examplePromoted.MsgTx
        ∧ exampleWire.Serialize r'.MsgTx = exampleWire.Serialize examplePromoted.MsgTx
        ∧ r'.RejectCode = examplePromoted.RejectCode ∧ r'.Inputs = examplePromoted.Inputs
        ∧ r'.Outputs = examplePromoted.Outputs
        ∧ ((∀ a s, exampleProtocol.Deserialize s true = some a →
            exampleProtocol.Serialize a true ≠ none) →
          examplePromoted.Equal exampleWire exampleProtocol r' = none) :=
  ⟨by decide,
    Read_Write_roundtrip exampleWire exampleProtocol examplePromoted exampleZero true
      (fun tail => exampleDeserialize_exampleTx tail)
      (fun n tail hn => exampleVarInt_roundtrip n tail hn)
      (by decide) (by decide) (by decide)
      (by
        rw [examplePromoted_eq]
        intro x hx
        simp only [List.mem_singleton] at hx
        subst hx
        exact ⟨_, rfl, by decide, by decide, by decide⟩)
      (by decide)⟩

/-- C1 as stated fails: the promoted example record with rejection code 256 is
written with the code byte 0, so the record read back has `RejectCode` 0 and
`Equal` reports a wrong rejection code. -/
theorem Read_Write_counterexample :
    exampleRejected.IsPromoted = true ∧ exampleRejected.RejectCode = 256
      ∧ exampleRejected.Write exampleWire
        = .ok [3, 1, 0, 0, 0, 1, 1, 7, 1, 0, 0, 0, 0, 0, 0, 0, 0, 1, 40, 35, 0, 0, 0, 0, 0, 0, 2,
            118, 169, 0, 0, 0, 0, 1, 0, 0, 0, 16, 39, 0, 0, 0, 0, 0, 0, 3, 106, 1, 5, 0]
      ∧ exampleZero.Read exampleWire exampleProtocol
          [3, 1, 0, 0, 0, 1, 1, 7, 1, 0, 0, 0, 0, 0, 0, 0, 0, 1, 40, 35, 0, 0, 0, 0, 0, 0, 2,
            118, 169, 0, 0, 0, 0, 1, 0, 0, 0, 16, 39, 0, 0, 0, 0, 0, 0, 3, 106, 1, 5, 0] true
        = .ok ({ exampleRejected with RejectCode := 0 }, [])
      ∧ exampleRejected.Equal exampleWire exampleProtocol { exampleRejected with RejectCode := 0 }
        = some (.external "Wrong RejectCode") := by
  refine ⟨by decide, by decide, by decide, by decide, by decide⟩

end CodecProofs

/-! ## Construction: the checks on the raw transaction -/

section ConstructionChecks
variable {A : Type}

/-- The constructors that go through `NewTransactionFromHashWire` refuse a raw
transaction without inputs, and one with inputs but without outputs. -/
theorem constructors_through_wire_check (wc : WireCodec) (pc : ProtocolCodec A)
    (tx : MsgTx) (isTest : Bool) :
    (tx.TxIn = [] → NewTransactionFromWire wc pc tx isTest
        = .error (.wrap .ErrMissingInputs "parsing transaction"))
      ∧ (tx.TxIn ≠ [] → tx.TxOut = [] → NewTransactionFromWire wc pc tx isTest
        = .error (.wrap .ErrMissingOutputs "parsing transaction")) := by
  constructor
  · intro h
    simp [NewTransactionFromWire, NewTransactionFromHashWire, h]
  · intro h1 h2
    have h3 : ¬ tx.TxIn.length = 0 := fun h => h1 (List.length_eq_zero.mp h)
    simp [NewTransactionFromWire, NewTransactionFromHashWire, h3, h2]

/-- The two constructors that promote from previous outputs carried by a
builder or by a view go through `NewTransactionFromWire` and so make its checks:
they return no record, and an error whose cause is `ErrMissingInputs` or
`ErrMissingOutputs`. -/
theorem constructors_from_outputs_check (wc : WireCodec) (pc : ProtocolCodec A)
    (isTest : Bool) (b : TxBuilder) (v : TransactionWithOutputs) :
    (b.MsgTx.TxIn = [] → ∃ e, NewTransactionFromTxBuilder wc pc b isTest = (none, some e)
        ∧ e.cause = .ErrMissingInputs)
      ∧ (b.MsgTx.TxIn ≠ [] → b.MsgTx.TxOut = [] →
        ∃ e, NewTransactionFromTxBuilder wc pc b isTest = (none, some e)
          ∧ e.cause = .ErrMissingOutputs)
      ∧ (v.GetMsgTx.TxIn = [] →
        ∃ e, NewTransactionFromTransactionWithOutputs wc pc v isTest = (none, some e)
          ∧ e.cause = .ErrMissingInputs)
      ∧ (v.GetMsgTx.TxIn ≠ [] → v.GetMsgTx.TxOut = [] →
        ∃ e, NewTransactionFromTransactionWithOutputs wc pc v isTest = (none, some e)
          ∧ e.cause = .ErrMissingOutputs) := by
  refine ⟨?_, ?_, ?_, ?_⟩
  · intro h
    refine ⟨.wrap (.wrap .ErrMissingInputs "parsing transaction") "new from wire", ?_, rfl⟩
    simp only [NewTransactionFromTxBuilder, (constructors_through_wire_check wc pc _ isTest).1 h]
  · intro h1 h2
    refine ⟨.wrap (.wrap .ErrMissingOutputs "parsing transaction") "new from wire", ?_, rfl⟩
    simp only [NewTransactionFromTxBuilder,
      (constructors_through_wire_check wc pc _ isTest).2 h1 h2]
  · intro h
    refine ⟨.wrap (.wrap .ErrMissingInputs "parsing transaction") "new from wire", ?_, rfl⟩
    simp only [NewTransactionFromTransactionWithOutputs,
      (constructors_through_wire_check wc pc _ isTest).1 h]
  · intro h1 h2
    refine ⟨.wrap (.wrap .ErrMissingOutputs "parsing transaction") "new from wire", ?_, rfl⟩
    simp only [NewTransactionFromTransactionWithOutputs,
      (constructors_through_wire_check wc pc _ isTest).2 h1 h2]

/-- The constructor `NewTransactionFromOutputs` makes neither check: given as many
previous outputs as raw inputs, it returns a record for a raw transaction
without inputs and for one without outputs. -/
theorem NewTransactionFromOutputs_unchecked (pc : ProtocolCodec A) (hash : Hash32)
    (tx : MsgTx) (outputs : List TxOut) (isTest : Bool)
    (hlen : tx.TxIn.length = outputs.length)
    (hall : ∀ t ∈ tx.TxIn, t.PreviousOutPoint.Index ≠ coinbaseIndex)
    (hempty : tx.TxIn = [] ∨ tx.TxOut = []) :
    ∃ r, NewTransactionFromOutputs pc hash tx outputs isTest = .ok r ∧ r.MsgTx = tx
      ∧ (r.MsgTx.TxIn = [] ∨ r.MsgTx.TxOut = []) := by
  let base : Transaction A := ⟨hash, tx, [], [], 0, ""⟩
  obtain ⟨hnc, _⟩ := nonCoinbase_of_all_spend tx.TxIn hall
  have hulen := utxosFromOutputs_length tx.TxIn outputs hall hlen
  have hok : (base.ParseInputsFromUTXOs pc (utxosFromOutputs tx.TxIn outputs) isTest).1
      = none := by
    apply ParseInputsFromUTXOs_ok_of_matches pc base _ isTest
    · show (nonCoinbase tx.TxIn).length ≤ _
      rw [hnc, hulen]
    · intro k txin u hk hu
      have hk2 : tx.TxIn[k]? = some txin := by
        have : (nonCoinbase base.MsgTx.TxIn) = tx.TxIn := hnc
        rw [this] at hk
        exact hk
      obtain ⟨o, _, hget⟩ := utxosFromOutputs_getElem tx.TxIn outputs hall hlen k txin hk2
      rw [hget] at hu
      cases hu
      exact ⟨rfl, rfl⟩
  obtain ⟨hres, _⟩ := ParseInputsFromUTXOs_ok pc base _ isTest hok
  have hpair : base.ParseInputsFromUTXOs pc (utxosFromOutputs tx.TxIn outputs) isTest
      = (none, (base.ParseInputsFromUTXOs pc (utxosFromOutputs tx.TxIn outputs) isTest).2) :=
    Prod.ext hok rfl
  refine ⟨{ (base.ParseInputsFromUTXOs pc (utxosFromOutputs tx.TxIn outputs) isTest).2 with
    Outputs := tx.TxOut.map fun txout => ⟨pc.Deserialize txout.LockingScript isTest⟩ }, ?_, ?_, ?_⟩
  · simp only [NewTransactionFromOutputs, NewBaseTransactionFromHashWire, hlen, ne_eq,
      not_true_eq_false, if_false, Transaction.PromoteFromUTXOs]
    rw [hpair]
    simp only [Transaction.ParseOutputs]
    rw [hres]
  · simp only [hres]
  · simp only [hres]
    exact hempty

/-- C11: the code at two raw transactions.  `NewTransactionFromOutputs` returns a
record, and no error, for a raw transaction with an output and no input (no
previous output supplied), and for a raw transaction with an input and no
output (the previous output of the input supplied); the claim expects
`ErrMissingInputs` and `ErrMissingOutputs`. -/
theorem NewTransactionFromOutputs_missing_checks :
    NewTransactionFromOutputs exampleProtocol [4] ⟨1, [], [⟨9000, [0x76, 0xa9]⟩], 0⟩ [] true
        = .ok ⟨[4], ⟨1, [], [⟨9000, [0x76, 0xa9]⟩], 0⟩, [], [⟨none⟩], 0, ""⟩
      ∧ NewTransactionFromOutputs exampleProtocol [4] ⟨1, [exampleTxIn 7 1], [], 0⟩
          [⟨10000, [0x76]⟩] true
        = .ok ⟨[4], ⟨1, [exampleTxIn 7 1], [], 0⟩, [some ⟨10000, [0x76], none⟩], [], 0, ""⟩ := by
  constructor <;> decide

end ConstructionChecks

/-! ## Reading: the version tag -/

section VersionTag
variable {A : Type}

/-- An error of the input loop of `Read` is a wrapped error. -/
theorem readInputs_error_wrapped (wc : WireCodec) (version : Nat) :
    ∀ (n i : Nat) (r : Bytes) (done : List (Option (Input A))) (e : Err)
      (left : List (Option (Input A))),
      readInputs wc version n i r done = .error (e, left) → ∃ c m, e = .wrap c m := by
  intro n
  induction n with
  | zero => intro i r done e left h; simp [readInputs] at h
  | succ n ih =>
    intro i r done e left h
    simp only [readInputs] at h
    split at h
    · simp only [Except.error.injEq, Prod.mk.injEq] at h
      exact ⟨_, _, h.1.symm⟩
    · exact ih _ _ _ e left h

/-- An error of the decode pass over the inputs is a nil dereference. -/
theorem setInputActions_error (pc : ProtocolCodec A) (isTest : Bool) :
    ∀ (inputs : List (Option (Input A))) (e : Err),
      setInputActions pc isTest inputs = .error e → e = .nilDereference := by
  intro inputs
  induction inputs with
  | nil => intro e h; simp [setInputActions] at h
  | cons x rest ih =>
    intro e h
    cases x with
    | none =>
      simp only [setInputActions, Except.error.injEq] at h
      exact h.symm
    | some input =>
      simp only [setInputActions] at h
      split at h
      · rename_i e1 he1
        simp only [Except.error.injEq] at h
        subst h
        exact ih e1 he1
      · split at h <;> simp at h

/-- Past the version check `Read` never fails with the unknown-version error. -/
theorem Read_known_version (wc : WireCodec) (pc : ProtocolCodec A) (itx : Transaction A)
    (b : Nat) (rest : Bytes) (isTest : Bool) (hb : ¬ (b ≠ 0 ∧ b ≠ 1 ∧ b ≠ 2 ∧ b ≠ 3))
    (v : Nat) (left : Transaction A) :
    itx.Read wc pc (b :: rest) isTest ≠ .error (.UnknownVersion v, left) := by
  intro h
  have h1 : readFull 1 (b :: rest) = some ([b], rest) := by simp [readFull]
  simp only [Transaction.Read, h1, List.headD_cons, if_neg hb] at h
  split at h
  · simp at h
  · split at h
    · rename_i e hcount
      have hwrap : ∃ c m, e = .wrap c m := by
        split at hcount
        · split at hcount
          · simp only [Except.error.injEq] at hcount
            exact ⟨_, _, hcount.symm⟩
          · simp at hcount
        · simp at hcount
      obtain ⟨c, m, hc⟩ := hwrap
      subst hc
      simp at h
    · split at h
      · rename_i e inputs hread
        obtain ⟨c, m, hc⟩ := readInputs_error_wrapped wc b _ _ _ _ e inputs hread
        subst hc
        simp at h
      · split at h
        · simp at h
        · split at h
          · rename_i e hact
            have := setInputActions_error pc isTest _ e hact
            subst this
            simp at h
          · simp [Transaction.ParseOutputs] at h

/-- C12: on a stream that starts with the byte `b`, `Read` fails with the
unknown-version error exactly when `b` is none of 0, 1, 2, 3; the error then
names `b`, and the record the failed call leaves is the record it was called
on, no field assigned. -/
theorem Read_unknown_version_iff (wc : WireCodec) (pc : ProtocolCodec A) (itx : Transaction A)
    (b : Nat) (rest : Bytes) (isTest : Bool) :
    ((∃ v left, itx.Read wc pc (b :: rest) isTest = .error (.UnknownVersion v, left))
        ↔ (b ≠ 0 ∧ b ≠ 1 ∧ b ≠ 2 ∧ b ≠ 3))
      ∧ ((b ≠ 0 ∧ b ≠ 1 ∧ b ≠ 2 ∧ b ≠ 3)
        ↔ itx.Read wc pc (b :: rest) isTest = .error (.UnknownVersion b, itx)) := by
  have h1 : readFull 1 (b :: rest) = some ([b], rest) := by simp [readFull]
  have hfail : (b ≠ 0 ∧ b ≠ 1 ∧ b ≠ 2 ∧ b ≠ 3) →
      itx.Read wc pc (b :: rest) isTest = .error (.UnknownVersion b, itx) := by
    intro hb
    simp only [Transaction.Read, h1, List.headD_cons, if_pos hb]
  constructor
  · constructor
    · rintro ⟨v, left, h⟩
      by_contra hb
      exact Read_known_version wc pc itx b rest isTest hb v left h
    · intro hb
      exact ⟨b, itx, hfail hb⟩
  · constructor
    · exact hfail
    · intro h
      by_contra hb
      exact Read_known_version wc pc itx b rest isTest hb b itx h

end VersionTag

/-! ## Queries on a record without nil inputs -/

section QueryProofs
variable {A : Type}

/-- A scan over inputs none of which is nil is the disjunction of the test. -/
theorem scanInputs_map_some (p : Input A → Bool) :
    ∀ (ins : List (Input A)), scanInputs p (ins.map some) = .ok (ins.any p) := by
  intro ins
  induction ins with
  | nil => rfl
  | cons input rest ih =>
    simp only [List.map_cons, scanInputs, List.any_cons]
    by_cases hp : p input = true
    · simp [hp]
    · simp only [hp, Bool.false_eq_true, if_false, ih, Bool.false_or]

/-- A scan that starts at a nil input fails with a nil dereference. -/
theorem scanInputs_nil_first (p : Input A → Bool) (rest : List (Option (Input A))) :
    scanInputs p (none :: rest) = .error .nilDereference := rfl

/-- On a record without nil input, `IsTokenized` returns true exactly when an
input or an output carries a decoded action, and false otherwise. -/
theorem IsTokenized_of_inputs (itx : Transaction A) (ins : List (Input A))
    (hins : itx.Inputs = ins.map some) :
    (itx.IsTokenized = .ok true ∨ itx.IsTokenized = .ok false)
      ∧ (itx.IsTokenized = .ok true ↔
        (∃ input ∈ ins, input.Action ≠ none) ∨ (∃ output ∈ itx.Outputs, output.Action ≠ none)) := by
  have hval : itx.IsTokenized = .ok (ins.any (fun input => input.Action.isSome)
      || itx.Outputs.any fun output => output.Action.isSome) := by
    simp only [Transaction.IsTokenized, hins, scanInputs_map_some]
    cases ins.any (fun input => input.Action.isSome) <;> simp
  rw [hval]
  constructor
  · cases (ins.any (fun input => input.Action.isSome)
      || itx.Outputs.any fun output => output.Action.isSome) <;> simp
  · simp only [Except.ok.injEq, Bool.or_eq_true, List.any_eq_true, Option.isSome_iff_ne_none]

/-- A record `NewTransactionFromHashWire` builds from a raw transaction none of
whose output scripts the protocol codec recognises is not tokenized. -/
theorem IsTokenized_unrecognised (pc : ProtocolCodec A) (hash : Hash32) (tx : MsgTx)
    (isTest : Bool) (hin : tx.TxIn ≠ []) (hout : tx.TxOut ≠ [])
    (hnone : ∀ txout ∈ tx.TxOut, pc.Deserialize txout.LockingScript isTest = none) :
    ∃ r, NewTransactionFromHashWire pc hash tx isTest = .ok r ∧ r.IsTokenized = .ok false := by
  refine ⟨_, NewTransactionFromHashWire_ok pc hash tx isTest hin hout, ?_⟩
  simp only [Transaction.IsTokenized, scanInputs]
  congr 1
  rw [List.any_eq_false]
  intro output ho
  obtain ⟨txout, ht, hto⟩ := List.mem_map.mp ho
  subst hto
  simp [hnone txout ht]

/-- The test on an action that `IsRequest` and `IsResponse` make, as a
statement. -/
theorem codeIn_iff (ops : ActionOps A) (keys : List String) (action : Option A) :
    codeIn ops keys action = true ↔ ∃ a, action = some a ∧ ops.Code a ∈ keys := by
  cases action with
  | none => simp [codeIn]
  | some a => simp [codeIn]

/-- On a record without nil input, `IsRequest` returns true exactly when an
input or an output carries an action whose code is a key of
`requestMessageTypes`, and false otherwise; likewise `IsResponse` with
`responseMessageTypes`. -/
theorem IsRequest_IsResponse_of_inputs (ops : ActionOps A) (c : ActionCodes)
    (itx : Transaction A) (ins : List (Input A)) (hins : itx.Inputs = ins.map some) :
    (itx.IsRequest ops c = .ok true ∨ itx.IsRequest ops c = .ok false)
      ∧ (itx.IsRequest ops c = .ok true ↔
        (∃ input ∈ ins, ∃ a, input.Action = some a ∧ ops.Code a ∈ requestMessageTypes c)
          ∨ (∃ output ∈ itx.Outputs, ∃ a, output.Action = some a
            ∧ ops.Code a ∈ requestMessageTypes c))
      ∧ (itx.IsResponse ops c = .ok true ∨ itx.IsResponse ops c = .ok false)
      ∧ (itx.IsResponse ops c = .ok true ↔
        (∃ input ∈ ins, ∃ a, input.Action = some a ∧ ops.Code a ∈ responseMessageTypes c)
          ∨ (∃ output ∈ itx.Outputs, ∃ a, output.Action = some a
            ∧ ops.Code a ∈ responseMessageTypes c)) := by
  have hreq : itx.IsRequest ops c = .ok (ins.any (fun input =>
      codeIn ops (requestMessageTypes c) input.Action)
      || itx.Outputs.any fun output => codeIn ops (requestMessageTypes c) output.Action) := by
    simp only [Transaction.IsRequest, hins, scanInputs_map_some]
    cases ins.any (fun input => codeIn ops (requestMessageTypes c) input.Action) <;> simp
  have hres : itx.IsResponse ops c = .ok (ins.any (fun input =>
      codeIn ops (responseMessageTypes c) input.Action)
      || itx.Outputs.any fun output => codeIn ops (responseMessageTypes c) output.Action) := by
    simp only [Transaction.IsResponse, hins, scanInputs_map_some]
    cases ins.any (fun input => codeIn ops (responseMessageTypes c) input.Action) <;> simp
  rw [hreq, hres]
  refine ⟨?_, ?_, ?_, ?_⟩
  · cases (ins.any (fun input => codeIn ops (requestMessageTypes c) input.Action)
      || itx.Outputs.any fun output => codeIn ops (requestMessageTypes c) output.Action) <;> simp
  · simp only [Except.ok.injEq, Bool.or_eq_true, List.any_eq_true, codeIn_iff]
  · cases (ins.any (fun input => codeIn ops (responseMessageTypes c) input.Action)
      || itx.Outputs.any fun output => codeIn ops (responseMessageTypes c) output.Action) <;> simp
  · simp only [Except.ok.injEq, Bool.or_eq_true, List.any_eq_true, codeIn_iff]

/-- On a record without nil input, `IsRelevant` returns true exactly when the
script is the locking script of an input or of a raw output, and false
otherwise. -/
theorem IsRelevant_of_inputs (itx : Transaction A) (ins : List (Input A))
    (hins : itx.Inputs = ins.map some) (s : Script) :
    (itx.IsRelevant s = .ok true ∨ itx.IsRelevant s = .ok false)
      ∧ (itx.IsRelevant s = .ok true ↔
        (∃ input ∈ ins, input.LockingScript = s)
          ∨ (∃ output ∈ itx.MsgTx.TxOut, output.LockingScript = s)) := by
  have hval : itx.IsRelevant s = .ok (ins.any (fun input => decide (input.LockingScript = s))
      || itx.MsgTx.TxOut.any fun output => decide (output.LockingScript = s)) := by
    simp only [Transaction.IsRelevant, hins, scanInputs_map_some]
    cases ins.any (fun input => decide (input.LockingScript = s)) <;> simp
  rw [hval]
  constructor
  · cases (ins.any (fun input => decide (input.LockingScript = s))
      || itx.MsgTx.TxOut.any fun output => decide (output.LockingScript = s)) <;> simp
  · simp only [Except.ok.injEq, Bool.or_eq_true, List.any_eq_true, decide_eq_true_eq]

theorem validateInputs_map_some (ops : ActionOps A) : ∀ (ins : List (Input A)),
    validateInputs ops (ins.map some)
      = .ok ((ins.filterMap Input.Action).findSome? ops.Validate) := by
  intro ins
  induction ins with
  | nil => rfl
  | cons input rest ih =>
    simp only [List.map_cons, validateInputs]
    cases ha : input.Action with
    | none => simp only [ih, List.filterMap_cons, ha]
    | some a =>
      simp only [List.filterMap_cons, ha, List.findSome?_cons]
      cases hv : ops.Validate a with
      | none => simp only [ih]
      | some text => rfl

theorem validateOutputs_eq (ops : ActionOps A) : ∀ (outs : List (Output A)),
    validateOutputs ops outs = (outs.filterMap Output.Action).findSome? ops.Validate := by
  intro outs
  induction outs with
  | nil => rfl
  | cons output rest ih =>
    simp only [validateOutputs]
    cases ha : output.Action with
    | none => simp only [ih, List.filterMap_cons, ha]
    | some a =>
      simp only [List.filterMap_cons, ha, List.findSome?_cons]
      cases hv : ops.Validate a with
      | none => simp only [ih]
      | some text => rfl

/-- On a record without nil input, `Validate` returns nil; it stores
`RejectionsMsgMalformed` and the error text of the first action that fails its
validation, the actions of the inputs taken in order before those of the
outputs, and changes nothing when no action fails. -/
theorem Validate_of_inputs (ops : ActionOps A) (itx : Transaction A) (ins : List (Input A))
    (hins : itx.Inputs = ins.map some) :
    itx.Validate ops = (none,
      match (ins.filterMap Input.Action ++ itx.Outputs.filterMap Output.Action).findSome?
          ops.Validate with
      | some text => { itx with RejectCode := ops.RejectionsMsgMalformed, RejectText := text }
      | none => itx) := by
  simp only [Transaction.Validate, hins, validateInputs_map_some, validateOutputs_eq,
    List.findSome?_append]
  cases (ins.filterMap Input.Action).findSome? ops.Validate with
  | some text => rfl
  | none =>
    simp only [Option.or]
    cases (itx.Outputs.filterMap Output.Action).findSome? ops.Validate <;> rfl

theorem writeInputs_map_some (wc : WireCodec) : ∀ (ins : List (Input A)),
    writeInputs wc (ins.map some) = .ok (ins.map (Input.Write wc)).flatten := by
  intro ins
  induction ins with
  | nil => rfl
  | cons input rest ih => simp only [List.map_cons, writeInputs, ih, List.flatten_cons]

/-- On a record without nil input, `Write` emits the byte 3, the encoding of
`MsgTx`, the number of inputs in 4 little-endian bytes, then for every input in
order its value in 8 little-endian bytes, the variable length encoding of the
length of its script and the script, then the low 8 bits of `RejectCode`. -/
theorem Write_of_inputs (wc : WireCodec) (itx : Transaction A) (ins : List (Input A))
    (hins : itx.Inputs = ins.map some) :
    itx.Write wc = .ok ([3] ++ wc.Serialize itx.MsgTx ++ leBytes 4 (ins.length % 2 ^ 32)
        ++ (ins.map fun input => leBytes 8 (input.Value % 2 ^ 64)
            ++ wc.WriteVarInt (input.LockingScript.length % 2 ^ 64)
            ++ input.LockingScript).flatten
        ++ [itx.RejectCode % 256])
      ∧ (leBytes 4 (ins.length % 2 ^ 32)).length = 4
      ∧ ∀ input ∈ ins, (leBytes 8 (input.Value % 2 ^ 64)).length = 8 := by
  refine ⟨?_, leBytes_length _ _, fun _ _ => leBytes_length _ _⟩
  simp only [Transaction.Write, hins, writeInputs_map_some, List.length_map]
  rfl

theorem appendIfDoesntExist_eq (acc : List Script) (x : Script) :
    appendIfDoesntExist acc x = if x ∈ acc then acc else acc ++ [x] := by
  unfold appendIfDoesntExist
  by_cases hx : x ∈ acc
  · have : acc.any (fun script => decide (script = x)) = true := by
      rw [List.any_eq_true]
      exact ⟨x, hx, by simp⟩
    rw [if_pos this, if_pos hx]
  · have : ¬ acc.any (fun script => decide (script = x)) = true := by
      rw [List.any_eq_true]
      rintro ⟨y, hy, hyx⟩
      simp only [decide_eq_true_eq] at hyx
      subst hyx
      exact hx hy
    rw [if_neg this, if_neg hx]

theorem firstIndex_lt_length (s : Script) : ∀ (l : List Script), s ∈ l →
    firstIndex s l < l.length := by
  intro l
  induction l with
  | nil => intro h; simp at h
  | cons x rest ih =>
    intro h
    simp only [firstIndex, List.length_cons]
    by_cases hx : x = s
    · simp [hx]
    · rw [if_neg hx]
      have hrest : s ∈ rest := by
        rcases List.mem_cons.mp h with h1 | h1
        · exact absurd h1.symm hx
        · exact h1
      have := ih hrest
      omega

theorem firstIndex_append_of_mem (s : Script) (l2 : List Script) : ∀ (l1 : List Script),
    s ∈ l1 → firstIndex s (l1 ++ l2) = firstIndex s l1 := by
  intro l1
  induction l1 with
  | nil => intro h; simp at h
  | cons x rest ih =>
    intro h
    simp only [List.cons_append, firstIndex]
    by_cases hx : x = s
    · simp [hx]
    · rw [if_neg hx, if_neg hx]
      have hrest : s ∈ rest := by
        rcases List.mem_cons.mp h with h1 | h1
        · exact absurd h1.symm hx
        · exact h1
      simp only [List.append_eq]
      rw [ih hrest]

theorem firstIndex_append_of_not_mem (s : Script) (l2 : List Script) : ∀ (l1 : List Script),
    s ∉ l1 → firstIndex s (l1 ++ l2) = l1.length + firstIndex s l2 := by
  intro l1
  induction l1 with
  | nil => intro _; simp
  | cons x rest ih =>
    intro h
    have hx : ¬ x = s := fun hxs => h (by simp [hxs])
    have hrest : s ∉ rest := fun hr => h (List.mem_cons_of_mem _ hr)
    simp only [List.cons_append, firstIndex, if_neg hx, List.append_eq, ih hrest,
      List.length_cons]
    omega

/-- Appending the scripts of `l` one by one, each only when it is not there yet,
to a duplicate-free list `acc` that holds the scripts of `pre` in the order of
their first occurrence: the result holds the scripts of `pre ++ l`, none twice,
in the order of their first occurrence. -/
theorem foldl_appendIfDoesntExist (full : List Script) :
    ∀ (l pre acc : List Script), full = pre ++ l → acc.Nodup → (∀ s, s ∈ acc ↔ s ∈ pre) →
      acc.Pairwise (fun a b => firstIndex a full < firstIndex b full) →
      (l.foldl appendIfDoesntExist acc).Nodup
        ∧ (∀ s, s ∈ l.foldl appendIfDoesntExist acc ↔ s ∈ full)
        ∧ (l.foldl appendIfDoesntExist acc).Pairwise
          (fun a b => firstIndex a full < firstIndex b full) := by
  intro l
  induction l with
  | nil =>
    intro pre acc hfull hnd hmem hord
    simp only [List.append_nil] at hfull
    subst hfull
    exact ⟨hnd, hmem, hord⟩
  | cons x rest ih =>
    intro pre acc hfull hnd hmem hord
    have hfull2 : full = (pre ++ [x]) ++ rest := by simp [hfull]
    simp only [List.foldl_cons, appendIfDoesntExist_eq]
    by_cases hx : x ∈ acc
    · rw [if_pos hx]
      refine ih (pre ++ [x]) acc hfull2 hnd ?_ hord
      intro s
      simp only [List.mem_append, List.mem_singleton]
      constructor
      · intro hs
        exact Or.inl ((hmem s).mp hs)
      · rintro (hs | hs)
        · exact (hmem s).mpr hs
        · subst hs
          exact hx
    · rw [if_neg hx]
      have hxpre : x ∉ pre := fun h => hx ((hmem x).mpr h)
      refine ih (pre ++ [x]) (acc ++ [x]) hfull2 ?_ ?_ ?_
      · rw [List.nodup_append]
        refine ⟨hnd, List.nodup_singleton x, ?_⟩
        intro a ha hb
        simp only [List.mem_singleton] at hb
        subst hb
        exact hx ha
      · intro s
        simp only [List.mem_append, List.mem_singleton, hmem s]
      · rw [List.pairwise_append]
        refine ⟨hord, List.pairwise_singleton _ _, ?_⟩
        intro a ha b hb
        simp only [List.mem_singleton] at hb
        subst hb
        have hapre : a ∈ pre := (hmem a).mp ha
        rw [hfull, firstIndex_append_of_mem a _ pre hapre,
          firstIndex_append_of_not_mem b _ pre hxpre]
        have := firstIndex_lt_length a pre hapre
        omega

theorem lockingScriptsOfInputs_map_some (unspendable : Script → Bool) :
    ∀ (ins : List (Input A)) (acc : List Script),
      lockingScriptsOfInputs unspendable (ins.map some) acc
        = .ok (((ins.map Input.LockingScript).filter fun s => !unspendable s).foldl
            appendIfDoesntExist acc) := by
  intro ins
  induction ins with
  | nil => intro acc; rfl
  | cons input rest ih =>
    intro acc
    simp only [List.map_cons, lockingScriptsOfInputs]
    by_cases hu : unspendable input.LockingScript = true
    · simp [hu, ih, List.filter_cons]
    · simp [hu, ih, List.filter_cons]

theorem lockingScriptsOfOutputs_eq (unspendable : Script → Bool) :
    ∀ (outs : List TxOut) (acc : List Script),
      lockingScriptsOfOutputs unspendable outs acc
        = ((outs.map TxOut.LockingScript).filter fun s => !unspendable s).foldl
            appendIfDoesntExist acc := by
  intro outs
  induction outs with
  | nil => intro acc; rfl
  | cons output rest ih =>
    intro acc
    simp only [List.map_cons, lockingScriptsOfOutputs]
    by_cases hu : unspendable output.LockingScript = true
    · simp [hu, ih, List.filter_cons]
    · simp [hu, ih, List.filter_cons]

/-- On a record without nil input, `LockingScripts` returns a list without
duplicates, whose members are exactly the locking scripts of the inputs and of
the raw outputs that are not unspendable, in the order of their first
occurrence, inputs first. -/
theorem LockingScripts_of_inputs (unspendable : Script → Bool) (itx : Transaction A)
    (ins : List (Input A)) (hins : itx.Inputs = ins.map some) :
    ∃ result, itx.LockingScripts unspendable = .ok result ∧ result.Nodup
      ∧ (∀ s, s ∈ result ↔ s ∈ spendableScripts unspendable ins itx.MsgTx.TxOut)
      ∧ result.Pairwise fun a b =>
        firstIndex a (spendableScripts unspendable ins itx.MsgTx.TxOut)
          < firstIndex b (spendableScripts unspendable ins itx.MsgTx.TxOut) := by
  have hval : itx.LockingScripts unspendable
      = .ok ((spendableScripts unspendable ins itx.MsgTx.TxOut).foldl appendIfDoesntExist []) := by
    simp only [Transaction.LockingScripts, hins, lockingScriptsOfInputs_map_some,
      lockingScriptsOfOutputs_eq, spendableScripts, List.filter_append, List.foldl_append]
  refine ⟨_, hval, ?_⟩
  exact foldl_appendIfDoesntExist _ _ [] [] (by simp) List.nodup_nil (by simp)
    List.Pairwise.nil

/-- The promoted coinbase example record, field by field: the nil pointer at the
position of the coinbase input, an empty input behind it. -/
theorem exampleCoinbasePromoted_eq :
    ((Transaction.mk [5] exampleCoinbaseTokenTx [] [] 0 "").PromoteFromUTXOs
        exampleProtocol [] true).1 = none
      ∧ exampleCoinbasePromoted
        = ⟨[5], exampleCoinbaseTokenTx, [none, some (Input.empty Nat)], [⟨some 5⟩], 0, ""⟩ := by
  decide

/-- C13: the code at the record `PromoteFromUTXOs` leaves for a transaction with
one coinbase input (promotion succeeds, `Inputs` is a nil pointer followed by
an empty input).  `Write` dereferences the nil pointer: it does not return, and
the bytes the claim describes are not emitted. -/
theorem Write_coinbase_promoted :
    exampleCoinbasePromoted.Inputs = [none, some (Input.empty Nat)]
      ∧ exampleCoinbasePromoted.Write exampleWire = .error .nilDereference := by
  decide

/-- C15: the code at the record `PromoteFromUTXOs` leaves for a transaction with
one coinbase input.  `Validate` dereferences the nil pointer at position 0 of
`Inputs` and does not return nil. -/
theorem Validate_coinbase_promoted :
    exampleCoinbasePromoted.Inputs = [none, some (Input.empty Nat)]
      ∧ (exampleCoinbasePromoted.Validate exampleOps).1 = some .nilDereference := by
  decide

/-- C16: the code at the record `PromoteFromUTXOs` leaves for a transaction with
one coinbase input and an output that carries a contract offer.  The code of
that action is a key of `requestMessageTypes`, yet `IsRequest` does not return
true, and `IsResponse` returns no answer either: both dereference the nil
pointer at position 0 of `Inputs`. -/
theorem IsRequest_coinbase_promoted :
    exampleCoinbasePromoted.Outputs = [⟨some 5⟩]
      ∧ exampleOps.Code 5 ∈ requestMessageTypes exampleCodes
      ∧ exampleCoinbasePromoted.IsRequest exampleOps exampleCodes = .error .nilDereference
      ∧ exampleCoinbasePromoted.IsResponse exampleOps exampleCodes = .error .nilDereference := by
  decide

/-- C17: the code at the record `PromoteFromUTXOs` leaves for a transaction with
one coinbase input and an output that carries an action.  An element of
`Outputs` carries a decoded action, yet `IsTokenized` does not return true: it
dereferences the nil pointer at position 0 of `Inputs`. -/
theorem IsTokenized_coinbase_promoted :
    (∃ output ∈ exampleCoinbasePromoted.Outputs, output.Action ≠ none)
      ∧ exampleCoinbasePromoted.IsTokenized = .error .nilDereference :=
  ⟨⟨⟨some 5⟩, by decide, by decide⟩, by decide⟩

/-- C18: the code at the record `PromoteFromUTXOs` leaves for a transaction with
one coinbase input.  The script asked for is the locking script of the raw
output, yet `IsRelevant` does not return true: it dereferences the nil pointer
at position 0 of `Inputs`. -/
theorem IsRelevant_coinbase_promoted :
    (∃ output ∈ exampleCoinbasePromoted.MsgTx.TxOut, output.LockingScript = [0x6a, 1, 5])
      ∧ exampleCoinbasePromoted.IsRelevant [0x6a, 1, 5] = .error .nilDereference :=
  ⟨⟨⟨0, [0x6a, 1, 5]⟩, by decide, by decide⟩, by decide⟩

/-- C19: the code at the record `PromoteFromUTXOs` leaves for a transaction with
one coinbase input, no script being unspendable.  `LockingScripts` returns no
list: it dereferences the nil pointer at position 0 of `Inputs`. -/
theorem LockingScripts_coinbase_promoted :
    exampleCoinbasePromoted.Inputs = [none, some (Input.empty Nat)]
      ∧ exampleCoinbasePromoted.LockingScripts (fun _ => false) = .error .nilDereference := by
  decide

theorem timestampOfAction_eq (ops : ActionOps A) (a : A) :
    timestampOfAction ops a
      = if ops.TypeOf a ∈ timestampedTypes then some (ops.Timestamp a) else none := by
  unfold timestampOfAction
  cases ops.TypeOf a <;> simp [timestampedTypes]

/-- C20: `Timestamp` returns the timestamp of the first output, in output order,
whose decoded action has one of the types InstrumentCreation, ContractFormation,
BodyOfAgreementFormation, Freeze, Thaw, Confiscation, DeprecatedReconciliation,
Vote, BallotCounted, Result, Rejection, Settlement, and nil when there is none:
among the decoded actions of the outputs (outputs without action drop out) the
first of such a type is looked for, actions of other types being passed over;
the inputs play no part. -/
theorem Timestamp_first_timestamped (ops : ActionOps A) (itx : Transaction A) :
    itx.Timestamp ops
      = ((itx.Outputs.filterMap Output.Action).find?
          fun a => decide (ops.TypeOf a ∈ timestampedTypes)).map ops.Timestamp := by
  unfold Transaction.Timestamp
  induction itx.Outputs with
  | nil => rfl
  | cons output rest ih =>
    simp only [timestampOfOutputs]
    cases ha : output.Action with
    | none => simp only [ih, List.filterMap_cons, ha]
    | some a =>
      simp only [List.filterMap_cons, ha, List.find?_cons, timestampOfAction_eq]
      by_cases ht : ops.TypeOf a ∈ timestampedTypes
      · simp [ht]
      · simp [ht, ih]

end QueryProofs

/-! ## Reading the legacy encodings -/

section LegacyProofs
variable {A : Type}

/-- Reading one input of a version 1 or 2 encoding: value and script of the
unspent-output record, whatever its hash and index. -/
theorem Input_Read_legacy (wc : WireCodec) (version : Nat) (hv : version = 1 ∨ version = 2)
    (u : UTXO) (rest : Bytes)
    (hutxo : wc.UTXORead (wc.UTXOWrite u ++ rest) = some (u, rest)) :
    Input.Read wc (Input.empty A) version (wc.UTXOWrite u ++ rest)
      = .ok (⟨u.Value, u.LockingScript, none⟩, rest) := by
  have h0 : ¬ version = 0 := by omega
  simp only [Input.Read, if_neg h0, if_pos hv, hutxo, Input.empty]

/-- Reading the input records of a legacy encoding. -/
theorem readInputs_legacy (wc : WireCodec) (version : Nat) (hv : version = 1 ∨ version = 2)
    (ids : Nat → Hash32 × Nat) :
    ∀ (ins : List (Input A)) (j i : Nat) (rest : Bytes) (done : List (Option (Input A))),
      (∀ (k : Nat) (input : Input A) (tail : Bytes), input ∈ ins →
        wc.UTXORead (wc.UTXOWrite ⟨(ids k).1, (ids k).2, input.Value, input.LockingScript⟩
          ++ tail) = some (⟨(ids k).1, (ids k).2, input.Value, input.LockingScript⟩, tail)) →
      readInputs wc version ins.length i (specLegacyInputs wc ids ins j ++ rest) done
        = .ok (done ++ ins.map (fun input => some input.stored), rest) := by
  intro ins
  induction ins with
  | nil => intro j i rest done _; simp [readInputs, specLegacyInputs]
  | cons input tl ih =>
    intro j i rest done hutxo
    simp only [List.length_cons, readInputs, specLegacyInputs, List.append_assoc]
    rw [Input_Read_legacy wc version hv _ _ (hutxo j input _ (List.mem_cons_self _ _))]
    simp only
    rw [ih (j + 1) (i + 1) rest _ (fun k x tail hx => hutxo k x tail (List.mem_cons_of_mem _ hx))]
    simp [Input.stored]

/-- The decode pass over freshly read inputs. -/
theorem setInputActions_fresh (pc : ProtocolCodec A) (isTest : Bool) :
    ∀ (ins : List (Input A)),
      setInputActions pc isTest (ins.map fun input => some input.stored)
        = .ok (ins.map fun input => some (input.decoded pc isTest)) := by
  intro ins
  induction ins with
  | nil => rfl
  | cons input rest ih =>
    simp only [List.map_cons, setInputActions]
    rw [ih]
    simp only [Input.stored, Input.decoded]
    cases pc.Deserialize input.LockingScript isTest <;> rfl

/-- Reading an encoding of any version from 1 to 3: the tag, the raw
transaction, the count bytes of the version, input records the input loop reads
back, and the rejection-code byte. -/
theorem Read_layout (wc : WireCodec) (pc : ProtocolCodec A) (itx0 : Transaction A)
    (isTest : Bool) (version : Nat) (hv : version = 1 ∨ version = 2 ∨ version = 3) (tx : MsgTx)
    (ins : List (Input A)) (countBytes inputBytes : Bytes) (rc : Nat)
    (hcodec : ∀ tail, wc.Deserialize (wc.Serialize tx ++ tail) = some (tx, tail))
    (hcount : (version ≥ 2 ∧ countBytes = leBytes 4 ins.length ∧ ins.length < 2 ^ 32)
      ∨ (version < 2 ∧ countBytes = [] ∧ tx.TxIn.length % 2 ^ 32 = ins.length))
    (hread : ∀ rest, readInputs wc version ins.length 0 (inputBytes ++ rest) []
      = .ok (ins.map (fun input => some input.stored), rest)) :
    itx0.Read wc pc ([version] ++ wc.Serialize tx ++ countBytes ++ inputBytes ++ [rc]) isTest
      = .ok (readRecord wc pc itx0 tx ins rc isTest, []) := by
  have h1 : readFull 1 ([version] ++ wc.Serialize tx ++ countBytes ++ inputBytes ++ [rc])
      = some ([version], wc.Serialize tx ++ (countBytes ++ (inputBytes ++ [rc]))) := by
    simp [readFull]
  have hknown : ¬ (version ≠ 0 ∧ version ≠ 1 ∧ version ≠ 2 ∧ version ≠ 3) := by omega
  have h5 : readFull 1 [rc] = some ([rc], []) := by simp [readFull]
  have hact := setInputActions_fresh pc isTest ins
  have hread0 := hread [rc]
  rcases hcount with ⟨hge, hcb, hlt⟩ | ⟨hlt, hcb, hlen⟩
  · subst hcb
    have h4 : readFull 4 (leBytes 4 ins.length ++ (inputBytes ++ [rc]))
        = some (leBytes 4 ins.length, inputBytes ++ [rc]) :=
      readFull_append _ _ 4 (leBytes_length 4 _)
    have hlev : leValue (leBytes 4 ins.length) = ins.length := by
      rw [leValue_leBytes]
      exact Nat.mod_eq_of_lt (by simpa using hlt)
    simp only [Transaction.Read, h1, List.headD_cons, if_neg hknown, hcodec, if_pos hge, h4, hlev,
      hread0, h5, hact, Transaction.ParseOutputs, readRecord]
  · subst hcb
    have hnge : ¬ version ≥ 2 := by omega
    simp only [Transaction.Read, h1, List.headD_cons, if_neg hknown, hcodec, if_neg hnge,
      List.nil_append, hlen, hread0, h5, hact, Transaction.ParseOutputs, readRecord]

theorem writeInputs_v2_map_some (wc : WireCodec) (rnd : Nat → Hash32) :
    ∀ (ins : List (Input A)) (j : Nat),
      writeInputs_v2 wc rnd (ins.map some) j
        = .ok (specLegacyInputs wc (fun i => (rnd i, 1)) ins j) := by
  intro ins
  induction ins with
  | nil => intro j; rfl
  | cons input rest ih =>
    intro j
    simp only [List.map_cons, writeInputs_v2, ih, specLegacyInputs, Input.Write_v2]

/-- C14: let `r` be a record with `len(Inputs) = len(MsgTx.TxIn)`, its inputs
`ins` (no nil pointer, fewer than `2 ^ 32`, values and script lengths within 64
bits), and let the transaction codec read back what it writes.  Then `Write`
succeeds, and `Read` of a version 1 encoding (one unspent-output record per
input, no count) and of a version 2 encoding (the same with the 4-byte count)
returns exactly what `Read` of the bytes `Write` produced returns: the record
with the hash and the raw transaction of `r`, the inputs of `r` with their
actions decoded afresh, the outputs decoded afresh and the rejection-code byte,
whatever transaction id and index `ids` puts in the unspent-output records.
The bytes `Write_v2` produces are the version 2 encoding with index 1 and the
hashes it drew. -/
theorem Read_legacy_same_record (wc : WireCodec) (pc : ProtocolCodec A)
    (r itx0 : Transaction A) (isTest : Bool) (ins : List (Input A)) (ids : Nat → Hash32 × Nat)
    (hins : r.Inputs = ins.map some)
    (hlen : r.Inputs.length = r.MsgTx.TxIn.length)
    (hcount : ins.length < 2 ^ 32)
    (hbounds : ∀ input ∈ ins, input.Value < 2 ^ 64 ∧ input.LockingScript.length < 2 ^ 64)
    (hcodec : ∀ tail, wc.Deserialize (wc.Serialize r.MsgTx ++ tail) = some (r.MsgTx, tail))
    (hvarint : ∀ n tail, n < 2 ^ 64 → wc.ReadVarInt (wc.WriteVarInt n ++ tail) = some (n, tail))
    (hutxo : ∀ (k : Nat) (input : Input A) (tail : Bytes), input ∈ ins →
      wc.UTXORead (wc.UTXOWrite ⟨(ids k).1, (ids k).2, input.Value, input.LockingScript⟩ ++ tail)
        = some (⟨(ids k).1, (ids k).2, input.Value, input.LockingScript⟩, tail)) :
    ∃ current, r.Write wc = .ok current
      ∧ itx0.Read wc pc current isTest
        = .ok (readRecord wc pc itx0 r.MsgTx ins (r.RejectCode % 256) isTest, [])
      ∧ itx0.Read wc pc (specEncodeLegacy wc 1 ids r.MsgTx ins r.RejectCode) isTest
        = itx0.Read wc pc current isTest
      ∧ itx0.Read wc pc (specEncodeLegacy wc 2 ids r.MsgTx ins r.RejectCode) isTest
        = itx0.Read wc pc current isTest
      ∧ (∀ rnd : Nat → Hash32, (∀ i, ids i = (rnd i, 1)) →
        r.Write_v2 wc rnd = .ok (specEncodeLegacy wc 2 ids r.MsgTx ins r.RejectCode)) := by
  have hilen : ins.length = r.MsgTx.TxIn.length := by
    rw [← hlen, hins, List.length_map]
  have hmod : ins.length % 2 ^ 32 = ins.length := Nat.mod_eq_of_lt hcount
  -- the current encoding
  obtain ⟨bs, hbs, hread3⟩ := readInputs_writeInputs wc (ins.map some) (fun x hx => by
    obtain ⟨input, hin, hxe⟩ := List.mem_map.mp hx
    exact ⟨input, hxe.symm, (hbounds input hin).1, (hbounds input hin).2,
      fun tail => hvarint _ tail (hbounds input hin).2⟩)
  have hwrite : r.Write wc = .ok ([3] ++ wc.Serialize r.MsgTx ++ leBytes 4 ins.length ++ bs
      ++ [r.RejectCode % 256]) := by
    simp only [Transaction.Write, hins, hbs, List.length_map, hmod]
  have hcurrent : itx0.Read wc pc ([3] ++ wc.Serialize r.MsgTx ++ leBytes 4 ins.length ++ bs
      ++ [r.RejectCode % 256]) isTest
      = .ok (readRecord wc pc itx0 r.MsgTx ins (r.RejectCode % 256) isTest, []) := by
    apply Read_layout wc pc itx0 isTest 3 (Or.inr (Or.inr rfl)) r.MsgTx ins _ bs _ hcodec
      (Or.inl ⟨by norm_num, rfl, hcount⟩)
    intro rest
    have h := hread3 0 rest []
    simp only [List.length_map, List.nil_append, List.map_map] at h
    rw [h]
    rfl
  have hlegacy : ∀ rest, ∀ version, version = 1 ∨ version = 2 →
      readInputs wc version ins.length 0 (specLegacyInputs wc ids ins 0 ++ rest) []
        = .ok (ins.map (fun input => some input.stored), rest) := by
    intro rest version hv
    have h := readInputs_legacy wc version hv ids ins 0 0 rest [] hutxo
    simpa using h
  refine ⟨_, hwrite, hcurrent, ?_, ?_, ?_⟩
  · rw [hcurrent]
    have h := Read_layout wc pc itx0 isTest 1 (Or.inl rfl) r.MsgTx ins [] _ (r.RejectCode % 256)
      hcodec (Or.inr ⟨by norm_num, rfl, by rw [← hilen, hmod]⟩)
      (fun rest => hlegacy rest 1 (Or.inl rfl))
    simpa [specEncodeLegacy] using h
  · rw [hcurrent]
    have h := Read_layout wc pc itx0 isTest 2 (Or.inr (Or.inl rfl)) r.MsgTx ins
      (leBytes 4 ins.length) _ (r.RejectCode % 256) hcodec (Or.inl ⟨by norm_num, rfl, hcount⟩)
      (fun rest => hlegacy rest 2 (Or.inr rfl))
    have henc : specEncodeLegacy wc 2 ids r.MsgTx ins r.RejectCode
        = [2] ++ wc.Serialize r.MsgTx ++ leBytes 4 ins.length ++ specLegacyInputs wc ids ins 0
          ++ [r.RejectCode % 256] := by
      simp only [specEncodeLegacy, ge_iff_le, le_refl, if_true]
      rw [hmod]
    rw [henc]
    exact h
  · intro rnd hids
    have hfun : ids = fun i => (rnd i, 1) := funext hids
    subst hfun
    simp only [Transaction.Write_v2, hins, writeInputs_v2_map_some, List.length_map,
      specEncodeLegacy, ge_iff_le, le_refl, if_true]

/-- The example codec reads back a byte string written behind its length. -/
theorem exampleReadBytes_roundtrip (bs tail : Bytes) (h : bs.length < 2 ^ 64) :
    exampleReadBytes (exampleWriteBytes bs ++ tail) = some (bs, tail) := by
  simp only [exampleReadBytes, exampleWriteBytes, List.append_assoc,
    exampleVarInt_roundtrip bs.length (bs ++ tail) h, readFull_append bs tail bs.length rfl]

/-- The example codec reads back an unspent-output record whose fields fit their
widths. -/
theorem exampleUTXO_roundtrip (u : UTXO) (tail : Bytes) (hh : u.Hash.length < 2 ^ 64)
    (hi : u.Index < 2 ^ 32) (hv : u.Value < 2 ^ 64) (hs : u.LockingScript.length < 2 ^ 64) :
    exampleUTXORead (exampleUTXOWrite u ++ tail) = some (u, tail) := by
  have e1 : leValue (leBytes 4 u.Index) = u.Index := by
    rw [leValue_leBytes]
    exact Nat.mod_eq_of_lt (by simpa using hi)
  have e2 : leValue (leBytes 8 u.Value) = u.Value := by
    rw [leValue_leBytes]
    exact Nat.mod_eq_of_lt (by simpa using hv)
  simp only [exampleUTXORead, exampleUTXOWrite, List.append_assoc,
    exampleReadBytes_roundtrip u.Hash _ hh, readFull_append _ _ 4 (leBytes_length 4 _),
    readFull_append _ _ 8 (leBytes_length 8 _), exampleReadBytes_roundtrip u.LockingScript _ hs,
    e1, e2]

/-- C14 at the promoted example record, with the transaction id `[9]` and the
index 1 in every unspent-output record. -/
theorem Read_legacy_same_record_witness :
    examplePromoted.Inputs.length = examplePromoted.MsgTx.TxIn.length
      ∧ ∃ current, examplePromoted.Write exampleWire = .ok current
        ∧ exampleZero.Read exampleWire exampleProtocol current true
          = .ok (readRecord exampleWire exampleProtocol exampleZero examplePromoted.MsgTx
              [⟨10000, [0x6a, 1, 5], some 5⟩] (examplePromoted.RejectCode % 256) true, [])
        ∧ exampleZero.Read exampleWire exampleProtocol
            (specEncodeLegacy exampleWire 1 (fun _ => ([9], 1)) examplePromoted.MsgTx
              [(⟨10000, [0x6a, 1, 5], some 5⟩ : Input Nat)] examplePromoted.RejectCode) true
          = exampleZero.Read exampleWire exampleProtocol current true
        ∧ exampleZero.Read exampleWire exampleProtocol
            (specEncodeLegacy exampleWire 2 (fun _ => ([9], 1)) examplePromoted.MsgTx
              [(⟨10000, [0x6a, 1, 5], some 5⟩ : Input Nat)] examplePromoted.RejectCode) true
          = exampleZero.Read exampleWire exampleProtocol current true
        ∧ (∀ rnd : Nat → Hash32, (∀ i, (fun _ => (([9], 1) : Hash32 × Nat)) i = (rnd i, 1)) →
          examplePromoted.Write_v2 exampleWire rnd
            = .ok (specEncodeLegacy exampleWire 2 (fun _ => ([9], 1)) examplePromoted.MsgTx
              [(⟨10000, [0x6a, 1, 5], some 5⟩ : Input Nat)] examplePromoted.RejectCode)) :=
  ⟨by decide,
    Read_legacy_same_record exampleWire exampleProtocol examplePromoted exampleZero true
      [⟨10000, [0x6a, 1, 5], some 5⟩] (fun _ => ([9], 1)) (by decide) (by decide) (by decide)
      (by decide) (fun tail => exampleDeserialize_exampleTx tail)
      (fun n tail hn => exampleVarInt_roundtrip n tail hn)
      (fun _ input tail hin => by
        simp only [List.mem_singleton] at hin
        subst hin
        exact exampleUTXO_roundtrip ⟨[9], 1, 10000, [0x6a, 1, 5]⟩ tail (by decide) (by decide)
          (by decide) (by decide))⟩

/-- Without coinbase inputs and with a record for every input, every slot holds
an input. -/
theorem resolvedSlots_all_spend (pc : ProtocolCodec A) (utxos : List UTXO) (isTest : Bool) :
    ∀ (ins : List TxIn) (offset : Nat),
      (∀ t ∈ ins, t.PreviousOutPoint.Index ≠ coinbaseIndex) →
      ins.length + offset ≤ utxos.length →
      resolvedSlots pc utxos isTest ins offset
        = ((utxos.drop offset).take ins.length).map fun u => some (inputOfUTXO pc isTest u) := by
  intro ins
  induction ins with
  | nil => intro offset _ _; simp [resolvedSlots]
  | cons t rest ih =>
    intro offset hall hlen
    have ht : t.PreviousOutPoint.Index ≠ coinbaseIndex := hall t (List.mem_cons_self _ _)
    have hrest : ∀ x ∈ rest, x.PreviousOutPoint.Index ≠ coinbaseIndex :=
      fun x hx => hall x (List.mem_cons_of_mem _ hx)
    simp only [List.length_cons] at hlen
    have hlt : offset < utxos.length := by omega
    simp only [resolvedSlots, if_neg ht, List.length_cons, ih (offset + 1) hrest (by omega),
      List.getElem?_eq_getElem hlt, Option.map_some']
    rw [List.drop_eq_getElem_cons hlt, List.take_succ_cons, List.map_cons]

/-- A record that a successful `ParseInputsFromUTXOs` leaves with as many inputs
as raw inputs holds no nil pointer: the records the precondition
`len(Inputs) = len(MsgTx.TxIn)` admits are records without nil input. -/
theorem ParseInputsFromUTXOs_no_nil (pc : ProtocolCodec A) (itx : Transaction A)
    (utxos : List UTXO) (isTest : Bool)
    (hok : (itx.ParseInputsFromUTXOs pc utxos isTest).1 = none)
    (hlen : (itx.ParseInputsFromUTXOs pc utxos isTest).2.Inputs.length
      = itx.MsgTx.TxIn.length) :
    ∃ ins : List (Input A), (itx.ParseInputsFromUTXOs pc utxos isTest).2.Inputs = ins.map some := by
  obtain ⟨hres, hnc⟩ := ParseInputsFromUTXOs_ok pc itx utxos isTest hok
  have hl := ParseInputsFromUTXOs_length pc itx utxos isTest hok
  have hzero : (coinbaseInputs itx.MsgTx.TxIn).length = 0 := by omega
  have hnil : coinbaseInputs itx.MsgTx.TxIn = [] := List.length_eq_zero.mp hzero
  have hall : ∀ t ∈ itx.MsgTx.TxIn, t.PreviousOutPoint.Index ≠ coinbaseIndex := by
    intro t ht hcb
    have : t ∈ coinbaseInputs itx.MsgTx.TxIn := by
      simp only [coinbaseInputs, List.mem_filter]
      exact ⟨ht, by simpa using hcb⟩
    rw [hnil] at this
    exact absurd this (List.not_mem_nil t)
  have hself := (nonCoinbase_of_all_spend itx.MsgTx.TxIn hall).1
  rw [hself] at hnc
  refine ⟨((utxos.drop 0).take itx.MsgTx.TxIn.length).map (inputOfUTXO pc isTest), ?_⟩
  rw [hres]
  simp only [hnil, List.length_nil, List.replicate_zero, List.append_nil]
  rw [resolvedSlots_all_spend pc utxos isTest itx.MsgTx.TxIn 0 hall (by omega), List.map_map]
  rfl

end LegacyProofs

/-! ## The lock around setup and promotion -/

section LockProofs
variable {A : Type}

/-- Called on a free lock, `Setup` returns what the lock-free model returns and
leaves the lock free, on its success path and while a panic unwinds. -/
theorem SetupLocked_free (pc : ProtocolCodec A) (itx : Transaction A) (isTest : Bool) :
    itx.SetupLocked pc RWMutex.free isTest
      = .ok ((itx.Setup pc isTest).1, (itx.Setup pc isTest).2, RWMutex.free) := by
  simp only [Transaction.SetupLocked, Transaction.Setup, RWMutex.Lock, RWMutex.free,
    RWMutex.Unlock, Transaction.ParseOutputs]
  cases setInputActions pc isTest itx.Inputs <;> simp

/-- Called on a free lock, `PromoteFromUTXOs` leaves the lock free on the path
that returns an error of input resolution, and leaves one shared hold on the
success path. -/
theorem PromoteFromUTXOsLocked_free (pc : ProtocolCodec A) (itx : Transaction A)
    (utxos : List UTXO) (isTest : Bool) :
    ((itx.ParseInputsFromUTXOs pc utxos isTest).1 = none →
        itx.PromoteFromUTXOsLocked pc RWMutex.free utxos isTest
          = .ok (none, (itx.PromoteFromUTXOs pc utxos isTest).2, ⟨false, 1⟩))
      ∧ ((itx.ParseInputsFromUTXOs pc utxos isTest).1 = some .MismatchedUTXO →
        itx.PromoteFromUTXOsLocked pc RWMutex.free utxos isTest
          = .ok (some (.wrap .MismatchedUTXO "parse inputs"), itx, RWMutex.free)) := by
  constructor
  · intro hok
    have hpair : itx.ParseInputsFromUTXOs pc utxos isTest
        = (none, (itx.ParseInputsFromUTXOs pc utxos isTest).2) := Prod.ext hok rfl
    simp only [Transaction.PromoteFromUTXOsLocked, Transaction.PromoteFromUTXOs, RWMutex.Lock,
      RWMutex.free]
    rw [hpair]
    simp [promoteLocked, Transaction.ParseOutputs, RWMutex.Unlock, RWMutex.RLock]
  · intro herr
    have hitx : (itx.ParseInputsFromUTXOs pc utxos isTest).2 = itx := by
      unfold Transaction.ParseInputsFromUTXOs at herr ⊢
      split at herr
      · rfl
      · simp at herr
    have hpair : itx.ParseInputsFromUTXOs pc utxos isTest = (some .MismatchedUTXO, itx) :=
      Prod.ext herr hitx
    simp only [Transaction.PromoteFromUTXOsLocked, RWMutex.Lock, RWMutex.free]
    rw [hpair]
    simp [promoteLocked, Err.isPanic, RWMutex.Unlock]

/-- C21: the code at the example transaction, promoted on a free lock with the
previous output of its input.  `PromoteFromUTXOs` returns nil and leaves the
lock with one shared hold, and so does `Promote` with a node that returns that
output: after the release of the exclusive hold a shared hold is taken and
never released.  A later `Setup` on the same record waits for that hold. -/
theorem PromoteFromUTXOsLocked_leaves_shared_hold :
    (Transaction.mk (exampleWire.TxHash exampleTx) exampleTx [] [] 0 "").PromoteFromUTXOsLocked
        exampleProtocol RWMutex.free [⟨[7], 1, 10000, [0x6a, 1, 5]⟩] true
        = .ok (none, examplePromoted, ⟨false, 1⟩)
      ∧ (Transaction.mk (exampleWire.TxHash exampleTx) exampleTx [] [] 0 "").PromoteLocked
          exampleProtocol exampleNode RWMutex.free true
        = .ok (none, examplePromoted, ⟨false, 1⟩)
      ∧ examplePromoted.SetupLocked exampleProtocol ⟨false, 1⟩ true = .error .blocked := by
  refine ⟨by decide, by decide, by decide⟩

end LockProofs

/-! ## Unspent outputs of the record -/

section UnspentOutputProofs
variable {A : Type}

theorem utxosOfOutputs_length (hash : Hash32) : ∀ (outs : List TxOut) (i : Nat),
    (utxosOfOutputs hash outs i).length = outs.length := by
  intro outs
  induction outs with
  | nil => intro i; rfl
  | cons o rest ih => intro i; simp [utxosOfOutputs, ih]

theorem utxosOfOutputs_getElem (hash : Hash32) : ∀ (outs : List TxOut) (i k : Nat) (txout : TxOut),
    outs[k]? = some txout →
    (utxosOfOutputs hash outs i)[k]?
      = some ⟨hash, (i + k) % 2 ^ 32, txout.Value, txout.LockingScript⟩ := by
  intro outs
  induction outs with
  | nil => intro i k txout h; simp at h
  | cons o rest ih =>
    intro i k txout h
    cases k with
    | zero =>
      simp only [List.getElem?_cons_zero, Option.some.injEq] at h
      subst h
      simp [utxosOfOutputs]
    | succ k =>
      simp only [List.getElem?_cons_succ] at h
      simp only [utxosOfOutputs, List.getElem?_cons_succ]
      rw [ih (i + 1) k txout h]
      have : i + 1 + k = i + (k + 1) := by omega
      rw [this]

theorem utxosOfOutputs_values (hash : Hash32) : ∀ (outs : List TxOut) (i : Nat),
    (utxosOfOutputs hash outs i).map UTXO.Value = outs.map TxOut.Value := by
  intro outs
  induction outs with
  | nil => intro i; rfl
  | cons o rest ih => intro i; simp [utxosOfOutputs, ih]

/-- C22: `UTXOs()` returns one unspent-output record per raw output, in output
order: as many records as raw outputs, and record `i` carries the hash of the
record, the index `i`, and the value and the locking script of
`MsgTx.TxOut[i]`.  The index is a `uint32`, so the raw outputs are taken to be
at most `2 ^ 32`. -/
theorem UTXOs_per_output (itx : Transaction A) (hlen : itx.MsgTx.TxOut.length ≤ 2 ^ 32) :
    itx.UTXOs.length = itx.MsgTx.TxOut.length
      ∧ ∀ (i : Nat) (txout : TxOut), itx.MsgTx.TxOut[i]? = some txout →
        itx.UTXOs[i]? = some ⟨itx.Hash, i, txout.Value, txout.LockingScript⟩ := by
  refine ⟨utxosOfOutputs_length _ _ _, ?_⟩
  intro i txout hi
  have hilt : i < itx.MsgTx.TxOut.length := by
    rcases Nat.lt_or_ge i itx.MsgTx.TxOut.length with h | h
    · exact h
    · rw [List.getElem?_eq_none h] at hi
      cases hi
  have hmod : (0 + i) % 2 ^ 32 = i := by
    rw [Nat.zero_add]
    exact Nat.mod_eq_of_lt (by omega)
  unfold Transaction.UTXOs
  rw [utxosOfOutputs_getElem itx.Hash itx.MsgTx.TxOut 0 i txout hi, hmod]

/-- C22 at the promoted example record: one record for its one raw output. -/
theorem UTXOs_per_output_witness :
    examplePromoted.MsgTx.TxOut.length ≤ 2 ^ 32
      ∧ examplePromoted.UTXOs.length = examplePromoted.MsgTx.TxOut.length
      ∧ examplePromoted.UTXOs[0]? = some ⟨examplePromoted.Hash, 0, 9000, [0x76, 0xa9]⟩ :=
  ⟨by decide, (UTXOs_per_output examplePromoted (by decide)).1,
    (UTXOs_per_output examplePromoted (by decide)).2 0 ⟨9000, [0x76, 0xa9]⟩ (by decide)⟩

end UnspentOutputProofs

/-! ## The ordering by timestamp -/

section OrderingProofs
variable {A : Type}

/-- When `Less` answers true, both elements are there and have timestamps, the
first smaller than the second. -/
theorem Less_true_iff (ops : ActionOps A) (s : List (Transaction A)) (i j : Nat) :
    TransactionList.Less ops s i j = .ok true ↔
      ∃ ti tj a b, s[i]? = some ti ∧ s[j]? = some tj ∧ ti.Timestamp ops = some a
        ∧ tj.Timestamp ops = some b ∧ a < b := by
  unfold TransactionList.Less
  constructor
  · intro h
    cases hi : s[i]? with
    | none => simp [hi] at h
    | some ti =>
      cases ha : ti.Timestamp ops with
      | none => simp [hi, ha] at h
      | some a =>
        cases hj : s[j]? with
        | none => simp [hi, ha, hj] at h
        | some tj =>
          cases hb : tj.Timestamp ops with
          | none => simp [hi, ha, hj, hb] at h
          | some b =>
            simp only [hi, ha, hj, hb, Except.ok.injEq, decide_eq_true_eq] at h
            exact ⟨ti, tj, a, b, rfl, rfl, ha, hb, h⟩
  · rintro ⟨ti, tj, a, b, hi, hj, ha, hb, hlt⟩
    simp [hi, hj, ha, hb, hlt]

/-- When both elements are there and have timestamps, `Less` compares them. -/
theorem Less_of_timestamps (ops : ActionOps A) (s : List (Transaction A)) (i j : Nat)
    (ti tj : Transaction A) (a b : Nat) (hi : s[i]? = some ti) (hj : s[j]? = some tj)
    (ha : ti.Timestamp ops = some a) (hb : tj.Timestamp ops = some b) :
    TransactionList.Less ops s i j = .ok (decide (a < b)) := by
  simp [TransactionList.Less, hi, hj, ha, hb]

/-- C23, as the code has it: on every list `Less` is irreflexive and transitive,
and on a list in which every transaction has a timestamp its incomparability
relation is transitive as well (if neither of `i`, `j` is less than the other
and neither of `j`, `k` is, then neither of `i`, `k` is), so that it is a
strict weak ordering there. -/
theorem Less_strict_weak_order (ops : ActionOps A) (s : List (Transaction A)) (i j k : Nat)
    (hi : i < s.length) (hj : j < s.length) (hk : k < s.length) :
    TransactionList.Less ops s i i = .ok false
      ∧ (TransactionList.Less ops s i j = .ok true → TransactionList.Less ops s j k = .ok true →
        TransactionList.Less ops s i k = .ok true)
      ∧ ((∀ t ∈ s, t.Timestamp ops ≠ none) →
        TransactionList.Less ops s i j = .ok false → TransactionList.Less ops s j i = .ok false →
        TransactionList.Less ops s j k = .ok false → TransactionList.Less ops s k j = .ok false →
        TransactionList.Less ops s i k = .ok false ∧ TransactionList.Less ops s k i = .ok false) := by
  have hgi : s[i]? = some s[i] := List.getElem?_eq_getElem hi
  have hgj : s[j]? = some s[j] := List.getElem?_eq_getElem hj
  have hgk : s[k]? = some s[k] := List.getElem?_eq_getElem hk
  refine ⟨?_, ?_, ?_⟩
  · cases ha : s[i].Timestamp ops with
    | none => simp [TransactionList.Less, hgi, ha]
    | some a => simp [TransactionList.Less, hgi, ha]
  · intro hij hjk
    obtain ⟨ti, tj, a, b, h1, h2, h3, h4, hab⟩ := (Less_true_iff ops s i j).mp hij
    obtain ⟨tj2, tk, b2, c, h5, h6, h7, h8, hbc⟩ := (Less_true_iff ops s j k).mp hjk
    rw [h2] at h5
    cases h5
    rw [h4] at h7
    cases h7
    exact (Less_true_iff ops s i k).mpr ⟨ti, tk, a, c, h1, h6, h3, h8, by omega⟩
  · intro hall hij hji hjk hkj
    obtain ⟨a, ha⟩ := Option.ne_none_iff_exists'.mp (hall s[i] (List.getElem_mem _))
    obtain ⟨b, hb⟩ := Option.ne_none_iff_exists'.mp (hall s[j] (List.getElem_mem _))
    obtain ⟨c, hc⟩ := Option.ne_none_iff_exists'.mp (hall s[k] (List.getElem_mem _))
    rw [Less_of_timestamps ops s i j _ _ a b hgi hgj ha hb] at hij
    rw [Less_of_timestamps ops s j i _ _ b a hgj hgi hb ha] at hji
    rw [Less_of_timestamps ops s j k _ _ b c hgj hgk hb hc] at hjk
    rw [Less_of_timestamps ops s k j _ _ c b hgk hgj hc hb] at hkj
    simp only [Except.ok.injEq, decide_eq_false_iff_not] at hij hji hjk hkj
    rw [Less_of_timestamps ops s i k _ _ a c hgi hgk ha hc,
      Less_of_timestamps ops s k i _ _ c a hgk hgi hc ha]
    simp only [Except.ok.injEq, decide_eq_false_iff_not]
    constructor <;> omega

/-- C23 at a list of three records with the timestamps 1, 2 and 3. -/
theorem Less_strict_weak_order_witness :
    TransactionList.Less exampleSortOps [exampleStamped 1, exampleStamped 2, exampleStamped 3]
        0 0 = .ok false
      ∧ TransactionList.Less exampleSortOps
          [exampleStamped 1, exampleStamped 2, exampleStamped 3] 0 2 = .ok true
      ∧ (TransactionList.Less exampleSortOps
            [exampleStamped 4, exampleStamped 4, exampleStamped 4] 0 2 = .ok false
          ∧ TransactionList.Less exampleSortOps
            [exampleStamped 4, exampleStamped 4, exampleStamped 4] 2 0 = .ok false) :=
  ⟨(Less_strict_weak_order exampleSortOps [exampleStamped 1, exampleStamped 2, exampleStamped 3]
      0 1 2 (by decide) (by decide) (by decide)).1,
    (Less_strict_weak_order exampleSortOps [exampleStamped 1, exampleStamped 2, exampleStamped 3]
      0 1 2 (by decide) (by decide) (by decide)).2.1 (by decide) (by decide),
    (Less_strict_weak_order exampleSortOps [exampleStamped 4, exampleStamped 4, exampleStamped 4]
      0 1 2 (by decide) (by decide) (by decide)).2.2 (by decide) (by decide) (by decide)
      (by decide) (by decide)⟩

/-- C23 as stated fails: in the list of a record with timestamp 1, a record
without timestamp and a record with timestamp 2, neither of the first two is
less than the other, neither of the last two is less than the other, yet the
first is less than the last. -/
theorem Less_counterexample :
    TransactionList.Less exampleSortOps [exampleStamped 1, exampleStamped 0, exampleStamped 2]
        0 1 = .ok false
      ∧ TransactionList.Less exampleSortOps
          [exampleStamped 1, exampleStamped 0, exampleStamped 2] 1 0 = .ok false
      ∧ TransactionList.Less exampleSortOps
          [exampleStamped 1, exampleStamped 0, exampleStamped 2] 1 2 = .ok false
      ∧ TransactionList.Less exampleSortOps
          [exampleStamped 1, exampleStamped 0, exampleStamped 2] 2 1 = .ok false
      ∧ TransactionList.Less exampleSortOps
          [exampleStamped 1, exampleStamped 0, exampleStamped 2] 0 2 = .ok true := by
  refine ⟨by decide, by decide, by decide, by decide, by decide⟩

end OrderingProofs

/-! ## One input, written and read back -/

section InputCodecProofs
variable {A : Type}

/-- C24: for an input with value `v` and locking script `s` (a 64-bit value, a
script whose length the variable length integer reads back), `Input.Read` with
version 3 applied to the bytes `Input.Write` produced, followed by any bytes
`rest`, returns the value `v` and the script `s` in the input it was called
on, whose action it does not touch, and leaves exactly `rest` unread; the bytes
written are the 8 bytes of the value, the length prefix and the script. -/
theorem Input_Write_Read (wc : WireCodec) (input receiver : Input A) (rest : Bytes)
    (hv : input.Value < 2 ^ 64) (hl : input.LockingScript.length < 2 ^ 64)
    (hvar : ∀ tail, wc.ReadVarInt (wc.WriteVarInt input.LockingScript.length ++ tail)
      = some (input.LockingScript.length, tail)) :
    Input.Read wc receiver 3 (input.Write wc ++ rest)
        = .ok (⟨input.Value, input.LockingScript, receiver.Action⟩, rest)
      ∧ (input.Write wc).length
        = 8 + (wc.WriteVarInt input.LockingScript.length).length + input.LockingScript.length := by
  have e1 : input.Value % 2 ^ 64 = input.Value := Nat.mod_eq_of_lt hv
  have e2 : input.LockingScript.length % 2 ^ 64 = input.LockingScript.length :=
    Nat.mod_eq_of_lt hl
  have hbytes : input.Write wc ++ rest = leBytes 8 input.Value
      ++ (wc.WriteVarInt input.LockingScript.length ++ (input.LockingScript ++ rest)) := by
    simp only [Input.Write, e1, e2, List.append_assoc]
  have h8 : readFull 8 (input.Write wc ++ rest)
      = some (leBytes 8 input.Value,
          wc.WriteVarInt input.LockingScript.length ++ (input.LockingScript ++ rest)) := by
    rw [hbytes]
    exact readFull_append _ _ 8 (leBytes_length 8 _)
  have hval : leValue (leBytes 8 input.Value) = input.Value := by
    rw [leValue_leBytes]
    exact Nat.mod_eq_of_lt (by simpa using hv)
  have hscript : readFull input.LockingScript.length (input.LockingScript ++ rest)
      = some (input.LockingScript, rest) := readFull_append _ _ _ rfl
  constructor
  · simp [Input.Read, h8, hvar, hscript, hval]
  · simp only [Input.Write, e1, e2, List.length_append, leBytes_length]

/-- C24 at an input of value 10000 with a script of three bytes, followed by
two more bytes. -/
theorem Input_Write_Read_witness :
    Input.Read exampleWire (Input.empty Nat) 3
        (Input.Write exampleWire (⟨10000, [0x6a, 1, 5], some 5⟩ : Input Nat) ++ [7, 7])
      = .ok (⟨10000, [0x6a, 1, 5], none⟩, [7, 7]) :=
  (Input_Write_Read exampleWire ⟨10000, [0x6a, 1, 5], some 5⟩ (Input.empty Nat) [7, 7]
    (by decide) (by decide) (fun tail => exampleVarInt_roundtrip 3 tail (by decide))).1

end InputCodecProofs

/-! ## Parsing the outputs, looking up the inputs -/

section ParseProofs
variable {A : Type}

/-- C25: `ParseOutputs` returns no error; it leaves one output per raw output,
the output at position `i` carrying an action exactly when the protocol decode
of the locking script of raw output `i` succeeds, and then the decoded action;
it leaves `MsgTx` and `Inputs` (and the hash and the rejection) as they were;
and a second call with the same flag changes nothing. -/
theorem ParseOutputs_total_idempotent (pc : ProtocolCodec A) (itx : Transaction A)
    (isTest : Bool) :
    (itx.ParseOutputs pc isTest).1 = none
      ∧ (itx.ParseOutputs pc isTest).2.Outputs.length = itx.MsgTx.TxOut.length
      ∧ (∀ (i : Nat) (txout : TxOut), itx.MsgTx.TxOut[i]? = some txout →
        ∃ output, (itx.ParseOutputs pc isTest).2.Outputs[i]? = some output
          ∧ output.Action = pc.Deserialize txout.LockingScript isTest
          ∧ (output.Action ≠ none ↔ pc.Deserialize txout.LockingScript isTest ≠ none))
      ∧ (itx.ParseOutputs pc isTest).2.MsgTx = itx.MsgTx
      ∧ (itx.ParseOutputs pc isTest).2.Inputs = itx.Inputs
      ∧ (itx.ParseOutputs pc isTest).2.Hash = itx.Hash
      ∧ (itx.ParseOutputs pc isTest).2.RejectCode = itx.RejectCode
      ∧ (itx.ParseOutputs pc isTest).2.RejectText = itx.RejectText
      ∧ (itx.ParseOutputs pc isTest).2.ParseOutputs pc isTest = itx.ParseOutputs pc isTest := by
  refine ⟨rfl, by simp [Transaction.ParseOutputs], ?_, rfl, rfl, rfl, rfl, rfl, rfl⟩
  intro i txout hi
  refine ⟨⟨pc.Deserialize txout.LockingScript isTest⟩, ?_, rfl, Iff.rfl⟩
  simp only [Transaction.ParseOutputs, List.getElem?_map, hi, Option.map_some']

/-- C25 at the example transaction with an output that carries an action under
the test flag. -/
theorem ParseOutputs_total_idempotent_witness :
    ∃ output, ((Transaction.mk [5] exampleCoinbaseTokenTx [] [] 0 ""
          : Transaction Nat).ParseOutputs exampleProtocol true).2.Outputs[0]? = some output
      ∧ output.Action = exampleProtocol.Deserialize [0x6a, 1, 5] true
      ∧ (output.Action ≠ none ↔ exampleProtocol.Deserialize [0x6a, 1, 5] true ≠ none) :=
  (ParseOutputs_total_idempotent exampleProtocol
    (Transaction.mk [5] exampleCoinbaseTokenTx [] [] 0 "") true).2.2.1 0 ⟨0, [0x6a, 1, 5]⟩
    (by decide)

/-- C26: `ParseInputs` puts to the node the outpoints of the non-coinbase raw
inputs, in input order, and nothing else: that list holds no coinbase outpoint,
and the outcome depends on the node through its answer to that list only.
When the node answers with an error, that error is returned as it is and the
record is unchanged; when it answers with records, the outcome is that of
`ParseInputsFromUTXOs` on these records. -/
theorem ParseInputs_asks_node (pc : ProtocolCodec A) (node : NodeInterface)
    (itx : Transaction A) (isTest : Bool) :
    (∀ op ∈ (nonCoinbase itx.MsgTx.TxIn).map TxIn.PreviousOutPoint, op.Index ≠ coinbaseIndex)
      ∧ ((nonCoinbase itx.MsgTx.TxIn).map TxIn.PreviousOutPoint).Sublist
        (itx.MsgTx.TxIn.map TxIn.PreviousOutPoint)
      ∧ (∀ e, node.GetOutputs ((nonCoinbase itx.MsgTx.TxIn).map TxIn.PreviousOutPoint) = .error e →
        itx.ParseInputs pc node isTest = (some e, itx))
      ∧ (∀ utxos,
        node.GetOutputs ((nonCoinbase itx.MsgTx.TxIn).map TxIn.PreviousOutPoint) = .ok utxos →
        itx.ParseInputs pc node isTest = itx.ParseInputsFromUTXOs pc utxos isTest)
      ∧ (∀ node2 : NodeInterface,
        node2.GetOutputs ((nonCoinbase itx.MsgTx.TxIn).map TxIn.PreviousOutPoint)
          = node.GetOutputs ((nonCoinbase itx.MsgTx.TxIn).map TxIn.PreviousOutPoint) →
        itx.ParseInputs pc node2 isTest = itx.ParseInputs pc node isTest) := by
  refine ⟨?_, ?_, ?_, ?_, ?_⟩
  · intro op hop
    obtain ⟨txin, htx, hop2⟩ := List.mem_map.mp hop
    subst hop2
    simp only [nonCoinbase, List.mem_filter, decide_eq_true_eq] at htx
    exact htx.2
  · exact List.Sublist.map _ (List.filter_sublist _)
  · intro e he
    simp only [Transaction.ParseInputs, nonCoinbase] at he ⊢
    rw [he]
  · intro utxos hu
    simp only [Transaction.ParseInputs, nonCoinbase] at hu ⊢
    rw [hu]
  · intro node2 h
    simp only [Transaction.ParseInputs, nonCoinbase] at h ⊢
    rw [h]

/-- C26 at the example record and the example node, and at a node whose lookup
fails. -/
theorem ParseInputs_asks_node_witness :
    (Transaction.mk [4] exampleTx [] [] 0 "" : Transaction Nat).ParseInputs exampleProtocol
        exampleNode true
        = (Transaction.mk [4] exampleTx [] [] 0 "" : Transaction Nat).ParseInputsFromUTXOs
          exampleProtocol [⟨[7], 1, 10000, [0x6a, 1, 5]⟩] true
      ∧ (Transaction.mk [4] exampleTx [] [] 0 "" : Transaction Nat).ParseInputs exampleProtocol
          ⟨fun _ => .error (.external "down"), fun _ => .error (.external "down")⟩ true
        = (some (.external "down"), Transaction.mk [4] exampleTx [] [] 0 "") :=
  ⟨(ParseInputs_asks_node exampleProtocol exampleNode (Transaction.mk [4] exampleTx [] [] 0 "")
      true).2.2.2.1 [⟨[7], 1, 10000, [0x6a, 1, 5]⟩] rfl,
    (ParseInputs_asks_node exampleProtocol
      ⟨fun _ => .error (.external "down"), fun _ => .error (.external "down")⟩
      (Transaction.mk [4] exampleTx [] [] 0 "") true).2.2.1 (.external "down") rfl⟩

end ParseProofs

/-! ## The fee in 64 bits -/

section ModularFeeProofs
variable {A : Type}

theorem sumUTXOValues_eq : ∀ (utxos : List UTXO) (v : Nat), v < 2 ^ 64 →
    sumUTXOValues utxos v = (v + (utxos.map UTXO.Value).sum) % 2 ^ 64 := by
  intro utxos
  induction utxos with
  | nil =>
    intro v hv
    simp only [sumUTXOValues, List.map_nil, List.sum_nil, Nat.add_zero]
    rw [Nat.mod_eq_of_lt hv]
  | cons u rest ih =>
    intro v _
    simp only [sumUTXOValues, List.map_cons, List.sum_cons]
    rw [ih _ (Nat.mod_lt _ (by norm_num)), Nat.mod_add_mod, Nat.add_assoc]

/-- The value of the unspent outputs of a record is the sum of its raw output
values, reduced modulo `2 ^ 64`. -/
theorem UTXOs_Value_eq (itx : Transaction A) :
    UTXOs.Value itx.UTXOs = outputTotal itx.MsgTx.TxOut % 2 ^ 64 := by
  unfold UTXOs.Value Transaction.UTXOs
  rw [sumUTXOValues_eq _ 0 (by norm_num), utxosOfOutputs_values, Nat.zero_add]
  rfl

/-- C27, as the code has it: on a record with `len(Inputs) = len(MsgTx.TxIn)`
and no nil element in `Inputs`, `S` being the sum of the input values modulo
`2 ^ 64`: `fee` returns `ErrNegativeFee` exactly when the exact sum of the raw
output values exceeds `S`, and returns `S` minus that sum otherwise; on success
the fee and the value of `UTXOs()` add up to `S`, and that value is the exact
sum of the raw output values, which has not wrapped around. -/
theorem fee_modular (itx : Transaction A)
    (hlen : itx.Inputs.length = itx.MsgTx.TxIn.length)
    (hnil : ∀ x ∈ itx.Inputs, x ≠ none) :
    (itx.fee = .error .ErrNegativeFee ↔
        inputTotal itx.Inputs % 2 ^ 64 < outputTotal itx.MsgTx.TxOut)
      ∧ (outputTotal itx.MsgTx.TxOut ≤ inputTotal itx.Inputs % 2 ^ 64 →
        itx.fee = .ok (inputTotal itx.Inputs % 2 ^ 64 - outputTotal itx.MsgTx.TxOut))
      ∧ (∀ f, itx.fee = .ok f →
        f + UTXOs.Value itx.UTXOs = inputTotal itx.Inputs % 2 ^ 64
          ∧ UTXOs.Value itx.UTXOs = outputTotal itx.MsgTx.TxOut
          ∧ outputTotal itx.MsgTx.TxOut < 2 ^ 64) := by
  have hsum := sumInputValues_eq itx.Inputs 0 hnil (by norm_num)
  rw [Nat.zero_add] at hsum
  have hfee : itx.fee = subtractOutputValues itx.MsgTx.TxOut (inputTotal itx.Inputs % 2 ^ 64) := by
    simp only [Transaction.fee, hlen, ne_eq, not_true_eq_false, if_false, hsum]
  have hS : inputTotal itx.Inputs % 2 ^ 64 < 2 ^ 64 := Nat.mod_lt _ (by norm_num)
  rw [hfee, subtractOutputValues_eq]
  refine ⟨?_, ?_, ?_⟩
  · by_cases hle : outputTotal itx.MsgTx.TxOut ≤ inputTotal itx.Inputs % 2 ^ 64
    · rw [if_pos hle]
      constructor
      · intro h
        exact nomatch h
      · intro h
        omega
    · rw [if_neg hle]
      constructor
      · intro _
        omega
      · intro _
        rfl
  · intro hle
    rw [if_pos hle]
  · intro f hf
    by_cases hle : outputTotal itx.MsgTx.TxOut ≤ inputTotal itx.Inputs % 2 ^ 64
    · rw [if_pos hle] at hf
      simp only [Except.ok.injEq] at hf
      have hlt : outputTotal itx.MsgTx.TxOut < 2 ^ 64 := by omega
      have hval : UTXOs.Value itx.UTXOs = outputTotal itx.MsgTx.TxOut := by
        rw [UTXOs_Value_eq, Nat.mod_eq_of_lt hlt]
      refine ⟨?_, hval, hlt⟩
      rw [hval]
      omega
    · rw [if_neg hle] at hf
      exact nomatch hf

/-- C27 at a record with the inputs `2 ^ 63 + 5` and `2 ^ 63`, whose sum wraps to
5, and a raw output of 3: the fee is 2. -/
theorem fee_modular_witness :
    (Transaction.mk [4] ⟨1, [exampleTxIn 7 0, exampleTxIn 7 1], [⟨3, []⟩], 0⟩
        [some ⟨2 ^ 63 + 5, [], none⟩, some ⟨2 ^ 63, [], none⟩] [⟨none⟩] 0 ""
        : Transaction Nat).fee = .ok 2
      ∧ (2 + UTXOs.Value (Transaction.mk [4]
          ⟨1, [exampleTxIn 7 0, exampleTxIn 7 1], [⟨3, []⟩], 0⟩
          [some ⟨2 ^ 63 + 5, [], none⟩, some ⟨2 ^ 63, [], none⟩] [⟨none⟩] 0 ""
          : Transaction Nat).UTXOs
        = inputTotal [some (⟨2 ^ 63 + 5, [], none⟩ : Input Nat), some ⟨2 ^ 63, [], none⟩]
          % 2 ^ 64) :=
  ⟨(fee_modular (Transaction.mk [4] ⟨1, [exampleTxIn 7 0, exampleTxIn 7 1], [⟨3, []⟩], 0⟩
      [some ⟨2 ^ 63 + 5, [], none⟩, some ⟨2 ^ 63, [], none⟩] [⟨none⟩] 0 "" : Transaction Nat)
      (by decide) (by decide)).2.1 (by decide),
    ((fee_modular (Transaction.mk [4] ⟨1, [exampleTxIn 7 0, exampleTxIn 7 1], [⟨3, []⟩], 0⟩
      [some ⟨2 ^ 63 + 5, [], none⟩, some ⟨2 ^ 63, [], none⟩] [⟨none⟩] 0 "" : Transaction Nat)
      (by decide) (by decide)).2.2 2 (by decide)).1⟩

/-- C27 as stated fails: `Read` on a version 1 stream that ends behind the raw
transaction returns an error and leaves the record with `Inputs` of the length
of `MsgTx.TxIn` and a nil pointer in it.  On that record the lengths agree, the
exact sum of the raw output values (9000) exceeds the sum of the input values
(no value at all, 0), yet `fee` returns neither `ErrNegativeFee` nor a fee: it
dereferences the nil input. -/
theorem fee_modular_counterexample :
    exampleZero.Read exampleWire exampleProtocol
        [1, 1, 0, 0, 0, 1, 1, 7, 1, 0, 0, 0, 0, 0, 0, 0, 0, 1, 40, 35, 0, 0, 0, 0, 0, 0, 2,
          118, 169, 0, 0, 0, 0] true
        = .error (.wrap (.wrap (.external "utxo") "read utxo") "input 0",
            ⟨[1, 0, 0, 0], exampleTx, [none], [], 0, ""⟩)
      ∧ (Transaction.mk [1, 0, 0, 0] exampleTx [none] [] 0 "" : Transaction Nat).Inputs.length
        = exampleTx.TxIn.length
      ∧ inputTotal ([none] : List (Option (Input Nat))) % 2 ^ 64 < outputTotal exampleTx.TxOut
      ∧ (Transaction.mk [1, 0, 0, 0] exampleTx [none] [] 0 "" : Transaction Nat).fee
        = .error .nilDereference
      ∧ (Transaction.mk [1, 0, 0, 0] exampleTx [none] [] 0 "" : Transaction Nat).fee
        ≠ .error .ErrNegativeFee := by
  refine ⟨by decide, by decide, by decide, by decide, by decide⟩

end ModularFeeProofs

/-! ## Failed resolution, and the accesses to the records -/

section ResolutionSafetyProofs
variable {A : Type}

/-- C28: when `ParseInputsFromUTXOs` returns an error, the record it leaves is
the record it was called on, `Inputs` included; when it succeeds it replaces
`Inputs` and nothing else.  So does `PromoteFromUTXOs` when it returns an
error. -/
theorem ParseInputsFromUTXOs_error_unchanged (pc : ProtocolCodec A) (itx : Transaction A)
    (utxos : List UTXO) (isTest : Bool) :
    ((itx.ParseInputsFromUTXOs pc utxos isTest).1 ≠ none →
        (itx.ParseInputsFromUTXOs pc utxos isTest).2 = itx)
      ∧ ((itx.ParseInputsFromUTXOs pc utxos isTest).2.Hash = itx.Hash
        ∧ (itx.ParseInputsFromUTXOs pc utxos isTest).2.MsgTx = itx.MsgTx
        ∧ (itx.ParseInputsFromUTXOs pc utxos isTest).2.Outputs = itx.Outputs
        ∧ (itx.ParseInputsFromUTXOs pc utxos isTest).2.RejectCode = itx.RejectCode
        ∧ (itx.ParseInputsFromUTXOs pc utxos isTest).2.RejectText = itx.RejectText)
      ∧ ((itx.PromoteFromUTXOs pc utxos isTest).1 ≠ none →
        (itx.PromoteFromUTXOs pc utxos isTest).2 = itx) := by
  have hcases : (∃ e, itx.ParseInputsFromUTXOs pc utxos isTest = (some e, itx))
      ∨ (∃ inputs, itx.ParseInputsFromUTXOs pc utxos isTest
        = (none, { itx with Inputs := inputs })) := by
    unfold Transaction.ParseInputsFromUTXOs
    cases parseInputsLoop pc utxos isTest itx.MsgTx.TxIn 0
        (List.replicate itx.MsgTx.TxIn.length none) 0 with
    | error e => exact Or.inl ⟨e, rfl⟩
    | ok inputs => exact Or.inr ⟨inputs, rfl⟩
  rcases hcases with ⟨e, he⟩ | ⟨inputs, hin⟩
  · refine ⟨fun _ => by rw [he], by rw [he]; exact ⟨rfl, rfl, rfl, rfl, rfl⟩, ?_⟩
    intro _
    simp only [Transaction.PromoteFromUTXOs, he]
  · refine ⟨fun h => absurd (by rw [hin]) h, by rw [hin]; exact ⟨rfl, rfl, rfl, rfl, rfl⟩, ?_⟩
    intro h
    simp only [Transaction.PromoteFromUTXOs, hin, Transaction.ParseOutputs, ne_eq,
      not_true_eq_false] at h

/-- C28 at the example record and a record that names another transaction. -/
theorem ParseInputsFromUTXOs_error_unchanged_witness :
    (exampleBase.ParseInputsFromUTXOs exampleProtocol [⟨[8], 1, 10000, []⟩] true).1 ≠ none
      ∧ (exampleBase.ParseInputsFromUTXOs exampleProtocol [⟨[8], 1, 10000, []⟩] true).2
        = exampleBase :=
  ⟨by decide,
    (ParseInputsFromUTXOs_error_unchanged exampleProtocol exampleBase [⟨[8], 1, 10000, []⟩]
      true).1 (by decide)⟩

/-- The loop reads, from `offset` on, as many records as non-coinbase inputs are
left, and no other: two lists of records that agree there give the same
outcome. -/
theorem parseInputsLoop_congr (pc : ProtocolCodec A) (utxos utxos2 : List UTXO) (isTest : Bool) :
    ∀ (rest : List TxIn) (i offset : Nat) (inputs : List (Option (Input A))),
      (∀ k, k < (nonCoinbase rest).length → utxos[offset + k]? = utxos2[offset + k]?) →
      parseInputsLoop pc utxos isTest rest i inputs offset
        = parseInputsLoop pc utxos2 isTest rest i inputs offset := by
  intro rest
  induction rest with
  | nil => intro i offset inputs _; rfl
  | cons txin rest ih =>
    intro i offset inputs hagree
    by_cases hcb : txin.PreviousOutPoint.Index = coinbaseIndex
    · rw [nonCoinbase_cons_coinbase _ _ hcb] at hagree
      simp only [parseInputsLoop, hcb, if_true]
      exact ih (i + 1) offset _ hagree
    · rw [nonCoinbase_cons_spend _ _ hcb] at hagree
      have h0 : utxos[offset]? = utxos2[offset]? := by
        have := hagree 0 (by simp)
        simpa using this
      simp only [parseInputsLoop, hcb, if_false, ← h0]
      cases hu : utxos[offset]? with
      | none => rfl
      | some u =>
        simp only
        split
        · rfl
        · apply ih (i + 1) (offset + 1)
          intro k hk
          have := hagree (k + 1) (by simpa using hk)
          have e : offset + (k + 1) = offset + 1 + k := by omega
          rw [e] at this
          exact this

/-- C29: with at least as many records as non-coinbase inputs, no access
`utxos[offset]` of `ParseInputsFromUTXOs` is out of bounds; on success the
non-coinbase input at position `i` holds the record whose number is the count
of the non-coinbase inputs before `i`, a number below `len(utxos)`; and the
records beyond the number of non-coinbase inputs are never read, the outcome
being the same whatever stands in their place. -/
theorem ParseInputsFromUTXOs_in_bounds (pc : ProtocolCodec A) (itx : Transaction A)
    (utxos : List UTXO) (isTest : Bool)
    (hlen : (nonCoinbase itx.MsgTx.TxIn).length ≤ utxos.length) :
    (itx.ParseInputsFromUTXOs pc utxos isTest).1 ≠ some .indexOutOfRange
      ∧ (∀ extra : List UTXO,
        itx.ParseInputsFromUTXOs pc
            (utxos.take (nonCoinbase itx.MsgTx.TxIn).length ++ extra) isTest
          = itx.ParseInputsFromUTXOs pc utxos isTest)
      ∧ ((itx.ParseInputsFromUTXOs pc utxos isTest).1 = none →
        ∀ (i : Nat) (txin : TxIn), itx.MsgTx.TxIn[i]? = some txin →
          txin.PreviousOutPoint.Index ≠ coinbaseIndex →
          (nonCoinbase (itx.MsgTx.TxIn.take i)).length < (nonCoinbase itx.MsgTx.TxIn).length
            ∧ (itx.ParseInputsFromUTXOs pc utxos isTest).2.Inputs[i]?
              = some ((utxos[(nonCoinbase (itx.MsgTx.TxIn.take i)).length]?).map
                  (inputOfUTXO pc isTest))) := by
  refine ⟨?_, ?_, ?_⟩
  · have hcases := parseInputsLoop_outcome pc utxos isTest itx.MsgTx.TxIn 0 0
      (List.replicate itx.MsgTx.TxIn.length none) (by simpa using hlen)
    unfold Transaction.ParseInputsFromUTXOs
    rcases hcases with ⟨herr, _⟩ | ⟨⟨out, hrun⟩, _⟩
    · rw [herr]
      simp
    · rw [hrun]
      simp
  · intro extra
    unfold Transaction.ParseInputsFromUTXOs
    rw [parseInputsLoop_congr pc
      (utxos.take (nonCoinbase itx.MsgTx.TxIn).length ++ extra) utxos isTest]
    intro k hk
    simp only [Nat.zero_add]
    rw [List.getElem?_append_left (by simp; omega), List.getElem?_take_of_lt hk]
  · intro hok i txin hi hspend
    obtain ⟨hres, _⟩ := ParseInputsFromUTXOs_ok pc itx utxos isTest hok
    have hilt : i < itx.MsgTx.TxIn.length := by
      rcases Nat.lt_or_ge i itx.MsgTx.TxIn.length with h | h
      · exact h
      · rw [List.getElem?_eq_none h] at hi
        cases hi
    constructor
    · have hsplit : itx.MsgTx.TxIn
          = itx.MsgTx.TxIn.take i ++ txin :: itx.MsgTx.TxIn.drop (i + 1) := by
        have h1 : itx.MsgTx.TxIn.drop i = txin :: itx.MsgTx.TxIn.drop (i + 1) := by
          rw [List.drop_eq_getElem_cons hilt]
          congr 1
          rw [List.getElem?_eq_getElem hilt] at hi
          exact Option.some.inj hi
        rw [← h1, List.take_append_drop]
      have : nonCoinbase itx.MsgTx.TxIn
          = nonCoinbase (itx.MsgTx.TxIn.take i)
            ++ txin :: nonCoinbase (itx.MsgTx.TxIn.drop (i + 1)) := by
        conv_lhs => rw [hsplit]
        simp [nonCoinbase, hspend]
      rw [this]
      simp
    · rw [hres]
      have hslot := resolvedSlots_getElem pc utxos isTest itx.MsgTx.TxIn 0 i txin hi
      simp only [hspend, if_false, Nat.zero_add] at hslot
      have hin : i < (resolvedSlots pc utxos isTest itx.MsgTx.TxIn 0).length := by
        rw [resolvedSlots_length]
        exact hilt
      show (resolvedSlots pc utxos isTest itx.MsgTx.TxIn 0 ++ _)[i]? = _
      rw [List.getElem?_append_left hin, hslot]

/-- C29 at the example record with the record of its input and one record more:
no access out of bounds, and the second record is never read. -/
theorem ParseInputsFromUTXOs_in_bounds_witness :
    (nonCoinbase exampleBase.MsgTx.TxIn).length
        ≤ [(⟨[7], 1, 10000, []⟩ : UTXO), ⟨[8], 2, 1, []⟩].length
      ∧ (exampleBase.ParseInputsFromUTXOs exampleProtocol
          [⟨[7], 1, 10000, []⟩, ⟨[8], 2, 1, []⟩] true).1 ≠ some .indexOutOfRange
      ∧ exampleBase.ParseInputsFromUTXOs exampleProtocol
          ([(⟨[7], 1, 10000, []⟩ : UTXO), ⟨[8], 2, 1, []⟩].take
            (nonCoinbase exampleBase.MsgTx.TxIn).length ++ [⟨[9], 9, 9, [9]⟩]) true
        = exampleBase.ParseInputsFromUTXOs exampleProtocol
          [⟨[7], 1, 10000, []⟩, ⟨[8], 2, 1, []⟩] true :=
  ⟨by decide,
    (ParseInputsFromUTXOs_in_bounds exampleProtocol exampleBase
      [⟨[7], 1, 10000, []⟩, ⟨[8], 2, 1, []⟩] true (by decide)).1,
    (ParseInputsFromUTXOs_in_bounds exampleProtocol exampleBase
      [⟨[7], 1, 10000, []⟩, ⟨[8], 2, 1, []⟩] true (by decide)).2.1 [⟨[9], 9, 9, [9]⟩]⟩

end ResolutionSafetyProofs

end Inspector
